import Mathlib

/-!
# Strided views of xtensor (`include/xtensor/xstrided_view.hpp`)

A shallow embedding of the strided view class, of `transpose`, of
`dynamic_view`, of the expression adaptor and of the helpers they call,
followed by the properties proved about them.

Conventions of the embedding

* `std::size_t` values are natural numbers; every arithmetic operation the
  C++ code performs in `size_type` is reduced modulo `2 ^ w`, where `w` is the
  width of `std::size_t` (a parameter of every definition that computes).
* Sequences (`shape_type`, `strides_type`, permutations, index tuples) are
  lists.
* An operation that can throw, or whose C++ behaviour is undefined because it
  reads or writes past the end of a sequence or divides by zero, returns
  `Except failure _`.
-/

namespace xt

/-! ## Data model -/

/-- Modelled from the spec: the layout tag of an expression (the enumeration
`layout_type`, declared outside `xstrided_view.hpp`): one of row_major,
column_major, dynamic. -/
inductive layout_type where
  | row_major
  | column_major
  | dynamic
deriving DecidableEq

/-- The ways an operation of the embedding can fail.

* `transpose_size`: `transpose_error("Permutation does not have the same size as shape")`
* `transpose_axis`: `transpose_error("Permutation contains wrong axis")`
* `transpose_duplicate`: `transpose_error("Permutation contains axis more than once")`
* `out_of_range`: `std::out_of_range`, thrown by the index checks
* `out_of_bounds`: not an exception of the C++ code: a read or write past the
  end of a sequence or buffer, which C++ leaves undefined.
* `division_by_zero`: not an exception of the C++ code: an integer division or
  remainder by zero, which C++ leaves undefined. -/
inductive failure where
  | transpose_size
  | transpose_axis
  | transpose_duplicate
  | out_of_range
  | out_of_bounds
  | division_by_zero
deriving DecidableEq

/-- The tag types `check_policy::none` and `check_policy::full`. -/
inductive check_policy where
  | none
  | full
deriving DecidableEq

/-- The interface of a source expression that has a raw-data interface, as
`transpose` and the view constructor consume it: `shape()`, `strides()`,
`layout()`, `data()` (the backing buffer) and `raw_data_offset()`.
For a container the raw offset is 0. -/
structure xexpression (α : Type) where
  shape : List Nat
  strides : List Nat
  layout : layout_type
  data : List α
  raw_data_offset : Nat

/-- The members of `xstrided_view<CT, S, CD>`: `CT` is the closure type of
the viewed expression, `CD` the type of the data handle. -/
structure xstrided_view (CT CD : Type) where
  m_e : CT
  m_data : CD
  m_shape : List Nat
  m_strides : List Nat
  m_backstrides : List Nat
  m_offset : Nat
  m_layout : layout_type

/-! ## Primitives -/

/-- Checked read `s[i]` of a sequence: past the end it is `out_of_bounds`. -/
def read {β : Type} (s : List β) (i : Nat) : Except failure β :=
  match s[i]? with
  | some x => .ok x
  | none => .error failure.out_of_bounds

/-- Checked write `s[i] = x` of a sequence: past the end it is `out_of_bounds`. -/
def write {β : Type} (s : List β) (i : Nat) (x : β) : Except failure (List β) :=
  if i < s.length then .ok (s.set i x) else .error failure.out_of_bounds

/-- The conversion `std::size_t(x)` / `static_cast<size_type>(x)` of an integer
of any signedness: the value modulo `2 ^ w`. -/
def to_size_t (w : Nat) (x : Int) : Nat :=
  (x % ((2 ^ w : Nat) : Int)).toNat

/-- The call `resize_container(c, n)` on a freshly declared sequence: `n`
value-initialised entries. -/
def resize_container (n : Nat) : List Nat :=
  List.replicate n 0

/-- The algorithm `std::copy(first, last, d_first)` with `d_first` the
beginning of `dst`: the elements of the source range overwrite the leading
positions of `dst`. -/
def std_copy {β : Type} (src dst : List β) : List β :=
  src ++ dst.drop src.length

/-- The algorithm `std::is_sorted(first, last, comp)`: no element is followed
by one that `comp` puts strictly before it. -/
def is_sorted {β : Type} (comp : β → β → Bool) : List β → Bool
  | [] => true
  | [_] => true
  | a :: b :: t => !(comp b a) && is_sorted comp (b :: t)

/-- Modelled from the spec: `element_offset(strides, multi_index)` and the
variadic `data_offset` (both declared in `xstrides.hpp`): the sum of
`strides[i] * multi_index[i]` over all axes, computed in `size_type`; when
there are more indices than axes the extra leading indices are ignored. -/
def element_offset (w : Nat) (strides index : List Nat) : Nat :=
  (List.zipWith (fun s a => s * a) strides
    (index.drop (index.length - strides.length))).sum % 2 ^ w

/-- Modelled from the spec: `check_index(shape, args...)` (declared in
`xexception.hpp`): validates each index against the corresponding extent and
fails with `out_of_range` if an index is greater than or equal to its extent
or if there are fewer indices than axes. -/
def check_index (shape index : List Nat) : Except failure Unit :=
  if index.length < shape.length then .error failure.out_of_range
  else if (List.zipWith (fun s a => decide (s ≤ a)) shape
      (index.drop (index.length - shape.length))).any id
    then .error failure.out_of_range
  else .ok ()

/-- The macro `XTENSOR_TRY(check_index(...))`: the check is compiled in only
when `XTENSOR_ENABLE_ASSERT` is defined, which the flag `enable_assert` stands
for. -/
def XTENSOR_TRY (enable_assert : Bool) (check : Except failure Unit) : Except failure Unit :=
  if enable_assert then check else .ok ()

/-- Modelled from the spec: `adapt_strides(shape, strides, backstrides)`
(declared in `xstrides.hpp`), which fills
`backstrides[i] = strides[i] * (shape[i] - 1)` for every axis of `shape`,
computed in `size_type`. -/
def adapt_strides (w : Nat) (shape strides : List Nat) : List Nat :=
  (List.range shape.length).map fun i =>
    (strides.getD i 0 * ((shape.getD i 0 + (2 ^ w - 1)) % 2 ^ w)) % 2 ^ w

/-! ## The view class -/

namespace xstrided_view

variable {CT CD α : Type}

/-- The six-argument constructor of `xstrided_view`:
`xstrided_view(CT e, CD data, S&& shape, S&& strides, std::size_t offset, layout_type layout)`. -/
def mk_data (w : Nat) (e : CT) (data : CD) (shape strides : List Nat) (offset : Nat)
    (layout : layout_type) : xstrided_view CT CD :=
  { m_e := e, m_data := data, m_shape := shape, m_strides := strides,
    m_backstrides := adapt_strides w shape strides,
    m_offset := offset, m_layout := layout }

/-- The five-argument constructor of `xstrided_view`, which takes the data
handle from the expression: `m_data(m_e.data())`. -/
def mk_expr (w : Nat) (e : xexpression α) (shape strides : List Nat) (offset : Nat)
    (layout : layout_type) : xstrided_view (xexpression α) (List α) :=
  mk_data w e e.data shape strides offset layout

/-- Member `dimension()`: `m_shape.size()`. -/
def dimension (v : xstrided_view CT CD) : Nat := v.m_shape.length

/-- Member `shape()`. -/
def shape (v : xstrided_view CT CD) : List Nat := v.m_shape

/-- Member `strides()`. -/
def strides (v : xstrided_view CT CD) : List Nat := v.m_strides

/-- Member `backstrides()`. -/
def backstrides (v : xstrided_view CT CD) : List Nat := v.m_backstrides

/-- Member `layout()`. -/
def layout (v : xstrided_view CT CD) : layout_type := v.m_layout

/-- Member `raw_data_offset()`: `m_offset`. -/
def raw_data_offset (v : xstrided_view CT CD) : Nat := v.m_offset

/-- Member `data()` of a view over an expression with a raw-data interface:
`m_e.data()`, the buffer of the viewed expression. -/
def data (v : xstrided_view (xexpression α) CD) : List α := v.m_e.data

/-- The flat index `operator()` computes:
`m_offset + data_offset<size_type>(strides(), args...)`, in `size_type`. -/
def index (w : Nat) (v : xstrided_view CT CD) (args : List Nat) : Nat :=
  (v.m_offset + element_offset w v.strides args) % 2 ^ w

/-- Member `operator()(args...)` of a view whose data handle is a buffer:
the optional index check, then `m_data[index]`. -/
def call (w : Nat) (enable_assert : Bool) (v : xstrided_view CT (List α)) (args : List Nat) :
    Except failure α := do
  XTENSOR_TRY enable_assert (check_index v.shape args)
  read v.m_data (v.index w args)

/-- A strided view seen through the interface of a source expression with a
raw-data interface (`shape()`, `strides()`, `layout()`, `data()`,
`raw_data_offset()`), so that it can itself be the argument of `transpose`. -/
def as_expression (v : xstrided_view (xexpression α) CD) : xexpression α :=
  { shape := v.shape, strides := v.strides, layout := v.layout,
    data := v.data, raw_data_offset := v.raw_data_offset }

end xstrided_view

namespace xexpression

variable {α : Type}

/-- Member `dimension()` of an expression: the number of axes of its shape. -/
def dimension (e : xexpression α) : Nat := e.shape.length

/-- Modelled from the spec: the flat index at which an expression with a
raw-data interface keeps the element of a multi-index (the accessor of the
container class is declared in `xcontainer.hpp`): the raw offset plus
`element_offset(strides, multi_index)`, in `size_type`. -/
def index (w : Nat) (e : xexpression α) (args : List Nat) : Nat :=
  (e.raw_data_offset + element_offset w e.strides args) % 2 ^ w

/-- Modelled from the spec: the multi-index element accessor of an expression
with a raw-data interface (the accessor of the container class is declared in
`xcontainer.hpp`): the optional index check, then the buffer read at `index`. -/
def call (w : Nat) (enable_assert : Bool) (e : xexpression α) (args : List Nat) :
    Except failure α := do
  XTENSOR_TRY enable_assert (check_index e.shape args)
  read e.data (e.index w args)

end xexpression

/-- The function `strided_view(e, shape, strides, offset, layout)`. -/
def strided_view {α : Type} (w : Nat) (e : xexpression α) (shape strides : List Nat)
    (offset : Nat) (layout : layout_type) : xstrided_view (xexpression α) (List α) :=
  xstrided_view.mk_expr w e shape strides offset layout

/-! ## Transpose -/

namespace detail

variable {α : Type}

/-- The loop of `transpose_impl(e, permutation, check_policy::none)` that
permutes shape and strides: `i` is the loop variable and `k` the number of
iterations left (`e.shape().size() - i`). -/
def permute_loop (w : Nat) (e : xexpression α) (permutation : List Int) :
    Nat → Nat → List Nat → List Nat → Except failure (List Nat × List Nat)
  | 0, _, temp_shape, temp_strides => .ok (temp_shape, temp_strides)
  | k + 1, i, temp_shape, temp_strides => do
    let x ← read permutation i
    if e.dimension ≤ to_size_t w x then
      .error failure.transpose_axis
    else do
      let perm := to_size_t w x
      let s ← read e.shape perm
      let temp_shape ← write temp_shape i s
      let t ← read e.strides perm
      let temp_strides ← write temp_strides i t
      permute_loop w e permutation k (i + 1) temp_shape temp_strides

/-- The layout inference of `transpose_impl`: a permutation sorted for `<`
keeps the layout, otherwise one sorted for `std::greater<>` swaps row_major and
column_major, and every other case is dynamic. -/
def new_layout (layout : layout_type) (permutation : List Int) : layout_type :=
  if is_sorted (fun a b => decide (a < b)) permutation then
    layout
  else if is_sorted (fun a b => decide (a > b)) permutation then
    match layout with
    | layout_type.row_major => layout_type.column_major
    | layout_type.column_major => layout_type.row_major
    | layout_type.dynamic => layout_type.dynamic
  else
    layout_type.dynamic

/-- The overload `transpose_impl(e, permutation, check_policy::none)`. -/
def transpose_impl_none (w : Nat) (e : xexpression α) (permutation : List Int) :
    Except failure (xstrided_view (xexpression α) (List α)) :=
  if permutation.length ≠ e.dimension then
    .error failure.transpose_size
  else do
    let temp_strides := resize_container e.strides.length
    let temp_shape := resize_container e.shape.length
    let (temp_shape, temp_strides) ←
      permute_loop w e permutation e.shape.length 0 temp_shape temp_strides
    .ok (xstrided_view.mk_expr w e temp_shape temp_strides 0 (new_layout e.layout permutation))

/-- The inner loop of the duplicate check of
`transpose_impl(e, permutation, check_policy::full)`: `x` is `permutation[i]`
and the list holds `permutation[j]` for the `j` after `i`. -/
def duplicate_inner (x : Int) : List Int → Except failure Unit
  | [] => .ok ()
  | y :: rest => if x = y then .error failure.transpose_duplicate else duplicate_inner x rest

/-- The outer loop of the duplicate check, over the positions `i` of the
permutation. -/
def duplicate_outer : List Int → Except failure Unit
  | [] => .ok ()
  | x :: rest => do
    duplicate_inner x rest
    duplicate_outer rest

/-- The overload `transpose_impl(e, permutation, check_policy::full)`. -/
def transpose_impl_full (w : Nat) (e : xexpression α) (permutation : List Int) :
    Except failure (xstrided_view (xexpression α) (List α)) := do
  duplicate_outer permutation
  transpose_impl_none w e permutation

/-- The overload set `transpose_impl(e, permutation, tag)`, selected by the
tag. -/
def transpose_impl (w : Nat) (e : xexpression α) (permutation : List Int) :
    check_policy → Except failure (xstrided_view (xexpression α) (List α))
  | check_policy.none => transpose_impl_none w e permutation
  | check_policy.full => transpose_impl_full w e permutation

end detail

/-- The function `transpose(e)`, which reverses the dimensions of `e`. -/
def transpose {α : Type} (w : Nat) (e : xexpression α) :
    xstrided_view (xexpression α) (List α) :=
  let shape := std_copy e.shape.reverse (resize_container e.shape.length)
  let strides := std_copy e.strides.reverse (resize_container e.strides.length)
  let new_layout :=
    match e.layout with
    | layout_type.row_major => layout_type.column_major
    | layout_type.column_major => layout_type.row_major
    | layout_type.dynamic => layout_type.dynamic
  xstrided_view.mk_expr w e shape strides 0 new_layout

/-- The function `transpose(e, permutation, check_policy)`. -/
def transpose_perm {α : Type} (w : Nat) (e : xexpression α) (permutation : List Int)
    (tag : check_policy) : Except failure (xstrided_view (xexpression α) (List α)) :=
  detail.transpose_impl w e permutation tag

/-! ## Access through an iterator pair -/

/-- Member `element(first, last)` of a view whose data handle is a buffer:
`m_data[m_offset + element_offset<size_type>(strides(), first, last)]`, with
`index` the sequence between the two iterators. -/
def xstrided_view.element {CT α : Type} (w : Nat) (v : xstrided_view CT (List α))
    (index : List Nat) : Except failure α :=
  read v.m_data ((v.m_offset + element_offset w v.strides index) % 2 ^ w)

/-! ## The expression adaptor -/

/-- The interface of a source expression without a raw-data interface, as the
expression adaptor consumes it: `shape()` and the multi-index accessor
`element(first, last)`. -/
structure xaccessor_expression (α : Type) where
  shape : List Nat
  element : List Nat → α

/-- Modelled from the spec: `compute_size(shape)` (declared in `xstrides.hpp`):
the product of all extents, 1 for the empty shape, computed in `size_type`. -/
def compute_size (w : Nat) (shape : List Nat) : Nat :=
  shape.prod % 2 ^ w

/-- The canonical contiguous strides of the row-major layout: the stride of an
axis is the number of elements of the axes after it, computed in
`size_type`. -/
def row_major_strides (w : Nat) : List Nat → List Nat
  | [] => []
  | _ :: rest => compute_size w rest :: row_major_strides w rest

/-- Modelled from the spec: `compute_strides(shape, layout, strides)` (declared
in `xstrides.hpp`): the canonical contiguous strides of `shape` for the layout;
for the row-major layout the last axis varies fastest, for the column-major
layout the first. The spec gives no strides for the dynamic layout; the
sequence is then left as `resize_container` made it. -/
def compute_strides (w : Nat) (shape : List Nat) : layout_type → List Nat
  | layout_type.row_major => row_major_strides w shape
  | layout_type.column_major => (row_major_strides w shape.reverse).reverse
  | layout_type.dynamic => resize_container shape.length

namespace detail

/-- The members of `detail::expression_adaptor<CT>`. -/
structure expression_adaptor (α : Type) where
  m_e : xaccessor_expression α
  m_strides : List Nat
  m_index : List Nat
  m_size : Nat

namespace expression_adaptor

variable {α : Type}

/-- The constructor `expression_adaptor(CT&& e)`; `default_layout` stands for
the macro `DEFAULT_LAYOUT`. -/
def make (w : Nat) (default_layout : layout_type) (e : xaccessor_expression α) :
    expression_adaptor α :=
  { m_e := e,
    m_index := resize_container e.shape.length,
    m_strides := compute_strides w e.shape default_layout,
    m_size := compute_size w e.shape }

/-- The loop of `operator[]`: `i` is the loop variable, `k` the number of
iterations left (`m_strides.size() - i`), `idx` the running remainder. A zero
stride makes the division undefined. -/
def index_loop (m_strides : List Nat) : Nat → Nat → Nat → List Nat → Except failure (List Nat)
  | 0, _, _, m_index => .ok m_index
  | k + 1, i, idx, m_index => do
    let s ← read m_strides i
    if s = 0 then
      .error failure.division_by_zero
    else do
      let quot := idx / s
      let idx := idx % s
      let m_index ← write m_index i quot
      index_loop m_strides k (i + 1) idx m_index

/-- Member `operator[](idx)`: the flat index is decomposed along the strides
and the multi-index is passed to the accessor of the source. -/
def get (a : expression_adaptor α) (idx : Nat) : Except failure α := do
  let m_index ← index_loop a.m_strides a.m_strides.length 0 idx a.m_index
  .ok (a.m_e.element m_index)

/-- Member `size()`. -/
def size (a : expression_adaptor α) : Nat := a.m_size

end expression_adaptor

end detail

/-- Member `operator()(args...)` of a view whose data handle is an expression
adaptor: the optional index check, then `m_data[index]`. -/
def xstrided_view.call_adaptor {CT α : Type} (w : Nat) (enable_assert : Bool)
    (v : xstrided_view CT (detail.expression_adaptor α)) (args : List Nat) :
    Except failure α := do
  XTENSOR_TRY enable_assert (check_index v.shape args)
  v.m_data.get (v.index w args)

/-! ## Dynamic views -/

/-- The alternatives of `slice_variant<int>`.

* `index i`: the alternative `int`;
* `range_adaptor get`: any of the nine `xrange_adaptor` alternatives; `get extent`
  holds the values `int(sl(0))`, `int(sl.size())` and `int(sl.step_size())` of
  the slice `sl` to which the adaptor resolves on an axis of that extent
  (the class `xrange_adaptor` is declared in `xslice.hpp`);
* `all`: `xall_tag`;
* `newaxis`: `xnewaxis_tag`. -/
inductive slice_variant where
  | index (i : Int)
  | range_adaptor (get : Nat → Int × Int × Int)
  | all
  | newaxis

namespace detail

/-- Modelled from the spec: `get_slice_implementation(e, t, idx)` for a range
adaptor `t` (declared in `xview.hpp`), followed by the three conversions of
`slice_getter_impl::operator()`: the adaptor is resolved against the extent of
axis `idx` of the expression. -/
def slice_getter_impl (shape : List Nat) (idx : Nat) (get : Nat → Int × Int × Int) :
    Except failure (Int × Int × Int) := do
  let extent ← read shape idx
  .ok (get extent)

/-- The pre-pass of `dynamic_view` over the slices: `dimension++` for a new
axis, `dimension--` for an integer, in `std::size_t`. -/
def compute_dimension (w : Nat) : List slice_variant → Nat → Nat
  | [], dimension => dimension
  | slice_variant.newaxis :: rest, dimension =>
    compute_dimension w rest ((dimension + 1) % 2 ^ w)
  | slice_variant.index _ :: rest, dimension =>
    compute_dimension w rest ((dimension + (2 ^ w - 1)) % 2 ^ w)
  | slice_variant.range_adaptor _ :: rest, dimension => compute_dimension w rest dimension
  | slice_variant.all :: rest, dimension => compute_dimension w rest dimension

/-- The local variables of `dynamic_view` that its two loops update; the loop
variable `i` is passed separately. -/
structure view_state where
  offset : Nat
  new_shape : List Nat
  new_strides : List Nat
  idx : Nat
  newaxis_skip : Nat

/-- The body of the first loop of `dynamic_view` for the slice `slices[i]`.
The source axis is `i - newaxis_skip`; `newaxis_skip` counts the new-axis
slices before position `i`, so the subtraction does not wrap. -/
def slice_step (w : Nat) (old_shape old_strides : List Nat) (i : Nat) (st : view_state) :
    slice_variant → Except failure view_state
  | slice_variant.index c => do
    let slice0 := to_size_t w c
    let s ← read old_strides (i - st.newaxis_skip)
    .ok { st with offset := (st.offset + (slice0 * s) % 2 ^ w) % 2 ^ w }
  | slice_variant.newaxis => do
    let new_shape ← write st.new_shape st.idx 1
    let new_strides ← write st.new_strides st.idx 0
    .ok { st with new_shape := new_shape, new_strides := new_strides,
                  newaxis_skip := st.newaxis_skip + 1, idx := st.idx + 1 }
  | slice_variant.all => do
    let x ← read old_shape (i - st.newaxis_skip)
    let new_shape ← write st.new_shape st.idx x
    let y ← read old_strides (i - st.newaxis_skip)
    let new_strides ← write st.new_strides st.idx y
    .ok { st with new_shape := new_shape, new_strides := new_strides, idx := st.idx + 1 }
  | slice_variant.range_adaptor get => do
    let info ← slice_getter_impl old_shape (i - st.newaxis_skip) get
    let s ← read old_strides (i - st.newaxis_skip)
    let offset := (st.offset + (to_size_t w info.1 * s) % 2 ^ w) % 2 ^ w
    let new_shape ← write st.new_shape st.idx (to_size_t w info.2.1)
    let s ← read old_strides (i - st.newaxis_skip)
    let new_strides ← write st.new_strides st.idx ((to_size_t w info.2.2 * s) % 2 ^ w)
    .ok { st with offset := offset, new_shape := new_shape, new_strides := new_strides,
                  idx := st.idx + 1 }

/-- The first loop of `dynamic_view`, `for (; i < slices.size(); ++i)`, over
the slices from position `i` on; it returns the final `i` and the state. -/
def slice_loop (w : Nat) (old_shape old_strides : List Nat) :
    List slice_variant → Nat → view_state → Except failure (Nat × view_state)
  | [], i, st => .ok (i, st)
  | sl :: rest, i, st => do
    let st ← slice_step w old_shape old_strides i st sl
    slice_loop w old_shape old_strides rest (i + 1) st

/-- The second loop of `dynamic_view`,
`for (; (i - newaxis_skip) < old_shape.size(); ++i)`, which copies the
remaining source axes; `k` is the number of iterations left. -/
def trailing_loop (old_shape old_strides : List Nat) :
    Nat → Nat → view_state → Except failure view_state
  | 0, _, st => .ok st
  | k + 1, i, st => do
    let x ← read old_shape (i - st.newaxis_skip)
    let new_shape ← write st.new_shape st.idx x
    let y ← read old_strides (i - st.newaxis_skip)
    let new_strides ← write st.new_strides st.idx y
    trailing_loop old_shape old_strides k (i + 1)
      { st with new_shape := new_shape, new_strides := new_strides, idx := st.idx + 1 }

/-- The part of `dynamic_view` that both data paths share: from the shape of
the source, the strides `get_strides(e)` and the offset `get_offset(e)` to the
shape, the strides and the offset of the view. -/
def dynamic_view_geometry (w : Nat) (shape strides : List Nat) (offset : Nat)
    (slices : List slice_variant) : Except failure (List Nat × List Nat × Nat) := do
  let dimension := compute_dimension w slices shape.length
  let new_shape := List.replicate dimension 0
  let new_strides := List.replicate dimension 0
  let old_shape := shape
  let old_strides := strides
  let st : view_state :=
    { offset := offset, new_shape := new_shape, new_strides := new_strides,
      idx := 0, newaxis_skip := 0 }
  let (i, st) ← slice_loop w old_shape old_strides slices 0 st
  let st ← trailing_loop old_shape old_strides
    (old_shape.length - (i - st.newaxis_skip)) i st
  .ok (st.new_shape, st.new_strides, st.offset)

end detail

/-- The function `dynamic_view(e, slices)` for an expression with a raw-data
interface: `get_data(e)` is `e.data()`, `get_offset(e)` is
`e.raw_data_offset()` and `get_strides(e)` is `e.strides()`. -/
def dynamic_view {α : Type} (w : Nat) (e : xexpression α) (slices : List slice_variant) :
    Except failure (xstrided_view (xexpression α) (List α)) := do
  let (new_shape, new_strides, offset) ←
    detail.dynamic_view_geometry w e.shape e.strides e.raw_data_offset slices
  .ok (xstrided_view.mk_data w e e.data new_shape new_strides offset layout_type.dynamic)

/-- The function `dynamic_view(e, slices)` for an expression without a raw-data
interface: `get_data(e)` is an expression adaptor, `get_offset(e)` is 0 and
`get_strides(e)` are the strides `compute_strides` gives for the layout
`DEFAULT_LAYOUT`, for which `default_layout` stands. -/
def dynamic_view_adaptor {α : Type} (w : Nat) (default_layout : layout_type)
    (e : xaccessor_expression α) (slices : List slice_variant) :
    Except failure (xstrided_view (xaccessor_expression α) (detail.expression_adaptor α)) := do
  let (new_shape, new_strides, offset) ←
    detail.dynamic_view_geometry w e.shape (compute_strides w e.shape default_layout) 0 slices
  .ok (xstrided_view.mk_data w e (detail.expression_adaptor.make w default_layout e)
    new_shape new_strides offset layout_type.dynamic)

/-- Modelled from the spec: what the slice `range(start, stop, step)`, with all
three bounds given and a positive step, resolves to on an axis of extent
`extent` (the function `range` and the class `xrange_adaptor` are declared in
`xslice.hpp`): half-open interval semantics, with `start` and `stop` clipped to
the extent; the first index, the number of indices
`ceil((stop - start) / step)` and the step. -/
def range_get (start stop step : Nat) (extent : Nat) : Int × Int × Int :=
  let a := min start extent
  let b := min stop extent
  (Int.ofNat a, Int.ofNat ((b - a + step - 1) / step), Int.ofNat step)

/-- The slice descriptor `range(start, stop, step)`. -/
def range (start stop step : Nat) : slice_variant :=
  slice_variant.range_adaptor (range_get start stop step)

/-! ## Instrumented dynamic views -/

namespace detail

/-- The indices at which `dynamic_view` has accessed its four local sequences,
in program order: the reads of `old_shape` (and of `e.shape()` by the slice
getter) and of `old_strides`, and the writes of `new_shape` and of
`new_strides`. -/
structure access_log where
  shape_reads : List Nat
  strides_reads : List Nat
  shape_writes : List Nat
  strides_writes : List Nat

/-- The read `old_shape[k]`, recorded in the log. -/
def read_old_shape (old_shape : List Nat) (k : Nat) (log : access_log) :
    Except failure (Nat × access_log) := do
  let x ← read old_shape k
  .ok (x, { log with shape_reads := log.shape_reads ++ [k] })

/-- The read `old_strides[k]`, recorded in the log. -/
def read_old_strides (old_strides : List Nat) (k : Nat) (log : access_log) :
    Except failure (Nat × access_log) := do
  let x ← read old_strides k
  .ok (x, { log with strides_reads := log.strides_reads ++ [k] })

/-- The write `new_shape[k] = x`, recorded in the log. -/
def write_new_shape (new_shape : List Nat) (k x : Nat) (log : access_log) :
    Except failure (List Nat × access_log) := do
  let l ← write new_shape k x
  .ok (l, { log with shape_writes := log.shape_writes ++ [k] })

/-- The write `new_strides[k] = x`, recorded in the log. -/
def write_new_strides (new_strides : List Nat) (k x : Nat) (log : access_log) :
    Except failure (List Nat × access_log) := do
  let l ← write new_strides k x
  .ok (l, { log with strides_writes := log.strides_writes ++ [k] })

/-- The function `slice_getter_impl` with its read of the extent of axis `idx`
recorded in the log. -/
def slice_getter_traced (shape : List Nat) (idx : Nat) (get : Nat → Int × Int × Int)
    (log : access_log) : Except failure ((Int × Int × Int) × access_log) := do
  let r ← read_old_shape shape idx log
  .ok (get r.1, r.2)

/-- The body of the first loop of `dynamic_view`, as `slice_step`, with every
access to `old_shape`, `old_strides`, `new_shape` and `new_strides` recorded. -/
def slice_step_traced (w : Nat) (old_shape old_strides : List Nat) (i : Nat) (st : view_state)
    (log : access_log) : slice_variant → Except failure (view_state × access_log)
  | slice_variant.index c => do
    let slice0 := to_size_t w c
    let s ← read_old_strides old_strides (i - st.newaxis_skip) log
    .ok ({ st with offset := (st.offset + (slice0 * s.1) % 2 ^ w) % 2 ^ w }, s.2)
  | slice_variant.newaxis => do
    let new_shape ← write_new_shape st.new_shape st.idx 1 log
    let new_strides ← write_new_strides st.new_strides st.idx 0 new_shape.2
    .ok ({ st with new_shape := new_shape.1, new_strides := new_strides.1,
                   newaxis_skip := st.newaxis_skip + 1, idx := st.idx + 1 }, new_strides.2)
  | slice_variant.all => do
    let x ← read_old_shape old_shape (i - st.newaxis_skip) log
    let new_shape ← write_new_shape st.new_shape st.idx x.1 x.2
    let y ← read_old_strides old_strides (i - st.newaxis_skip) new_shape.2
    let new_strides ← write_new_strides st.new_strides st.idx y.1 y.2
    .ok ({ st with new_shape := new_shape.1, new_strides := new_strides.1, idx := st.idx + 1 },
      new_strides.2)
  | slice_variant.range_adaptor get => do
    let info ← slice_getter_traced old_shape (i - st.newaxis_skip) get log
    let s ← read_old_strides old_strides (i - st.newaxis_skip) info.2
    let offset := (st.offset + (to_size_t w info.1.1 * s.1) % 2 ^ w) % 2 ^ w
    let new_shape ← write_new_shape st.new_shape st.idx (to_size_t w info.1.2.1) s.2
    let s ← read_old_strides old_strides (i - st.newaxis_skip) new_shape.2
    let new_strides ← write_new_strides st.new_strides st.idx
      ((to_size_t w info.1.2.2 * s.1) % 2 ^ w) s.2
    .ok ({ st with offset := offset, new_shape := new_shape.1, new_strides := new_strides.1,
                   idx := st.idx + 1 }, new_strides.2)

/-- The first loop of `dynamic_view`, as `slice_loop`, with the accesses
recorded. -/
def slice_loop_traced (w : Nat) (old_shape old_strides : List Nat) :
    List slice_variant → Nat → view_state → access_log →
      Except failure (Nat × view_state × access_log)
  | [], i, st, log => .ok (i, st, log)
  | sl :: rest, i, st, log => do
    let r ← slice_step_traced w old_shape old_strides i st log sl
    slice_loop_traced w old_shape old_strides rest (i + 1) r.1 r.2

/-- The second loop of `dynamic_view`, as `trailing_loop`, with the accesses
recorded. -/
def trailing_loop_traced (old_shape old_strides : List Nat) :
    Nat → Nat → view_state → access_log → Except failure (view_state × access_log)
  | 0, _, st, log => .ok (st, log)
  | k + 1, i, st, log => do
    let x ← read_old_shape old_shape (i - st.newaxis_skip) log
    let new_shape ← write_new_shape st.new_shape st.idx x.1 x.2
    let y ← read_old_strides old_strides (i - st.newaxis_skip) new_shape.2
    let new_strides ← write_new_strides st.new_strides st.idx y.1 y.2
    trailing_loop_traced old_shape old_strides k (i + 1)
      { st with new_shape := new_shape.1, new_strides := new_strides.1, idx := st.idx + 1 }
      new_strides.2

/-- The shared part of `dynamic_view`, as `dynamic_view_geometry`, with the
accesses recorded: it returns the geometry, the final value of the output
cursor `idx`, and the log. -/
def dynamic_view_geometry_traced (w : Nat) (shape strides : List Nat) (offset : Nat)
    (slices : List slice_variant) :
    Except failure ((List Nat × List Nat × Nat) × Nat × access_log) := do
  let dimension := compute_dimension w slices shape.length
  let new_shape := List.replicate dimension 0
  let new_strides := List.replicate dimension 0
  let old_shape := shape
  let old_strides := strides
  let st : view_state :=
    { offset := offset, new_shape := new_shape, new_strides := new_strides,
      idx := 0, newaxis_skip := 0 }
  let r ← slice_loop_traced w old_shape old_strides slices 0 st
    { shape_reads := [], strides_reads := [], shape_writes := [], strides_writes := [] }
  let t ← trailing_loop_traced old_shape old_strides
    (old_shape.length - (r.1 - r.2.1.newaxis_skip)) r.1 r.2.1 r.2.2
  .ok ((t.1.new_shape, t.1.new_strides, t.1.offset), t.1.idx, t.2)

end detail

/-! ## Checked access and broadcasting -/

/-- Modelled from the spec: `check_access(shape, args...)` (declared in
`xexception.hpp`), the dimension and bounds check of `at`: it fails with
`out_of_range` if there are more indices than axes (as the documentation of
`at` says) or if an index is greater than or equal to the extent of its
axis. -/
def check_access (shape index : List Nat) : Except failure Unit :=
  if shape.length < index.length then .error failure.out_of_range
  else check_index shape index

/-- Member `at(args...)` of a view whose data handle is a buffer:
`check_access(shape(), args...)`, then `operator()(args...)`. -/
def xstrided_view.at_ {CT α : Type} (w : Nat) (enable_assert : Bool)
    (v : xstrided_view CT (List α)) (args : List Nat) : Except failure α := do
  check_access v.shape args
  v.call w enable_assert args

/-- The algorithm `std::equal(first1, last1, first2)`: every element of the
first range equals the element of the second range at the same position. A
second range shorter than the first is undefined in C++; `is_trivial_broadcast`
calls the algorithm only with ranges of the same length. -/
def std_equal : List Nat → List Nat → Bool
  | [], _ => true
  | _ :: _, [] => false
  | a :: r, b :: s => if a = b then std_equal r s else false

/-- Member `is_trivial_broadcast(str)`:
`str.size() == strides().size() && std::equal(str.cbegin(), str.cend(), strides().begin())`. -/
def xstrided_view.is_trivial_broadcast {CT CD : Type} (v : xstrided_view CT CD)
    (str : List Nat) : Bool :=
  if str.length = v.strides.length then std_equal str v.strides else false

/-! ## Scalar assignment -/

/-- Modelled from the spec: the positions that the iterator pair `begin()`,
`end()` of a view traverses (the pair comes from the base class `xiterable`,
declared in `xiterable.hpp`, and walks the view with the steppers of
`xiterator.hpp`): every multi-index of the shape once, the last axis varying
fastest. -/
def multi_indices : List Nat → List (List Nat)
  | [] => [[]]
  | n :: rest => (List.range n).flatMap fun i => (multi_indices rest).map fun t => i :: t

/-- The algorithm `std::fill(first, last, value)` over the iterator pair of a
view: `*it = value` at each position in turn. Modelled from the spec: an
iterator at a multi-index refers to the element of the data handle that
`operator()` addresses at that multi-index. -/
def std_fill {CT α : Type} (w : Nat) (v : xstrided_view CT (List α)) (value : α) :
    List (List Nat) → List α → Except failure (List α)
  | [], data => .ok data
  | idx :: rest, data => do
    let data ← write data (v.index w idx) value
    std_fill w v value rest data

/-- Member `operator=(const E& e)` for a scalar `e` of a view whose data handle
is a writable buffer: `std::fill(this->begin(), this->end(), e)`; the view
afterwards is the same view over the updated buffer. -/
def xstrided_view.assign_scalar {CT α : Type} (w : Nat) (v : xstrided_view CT (List α))
    (e : α) : Except failure (xstrided_view CT (List α)) := do
  let data ← std_fill w v e (multi_indices v.shape) v.m_data
  .ok { v with m_data := data }

/-! ## Specification predicates -/

/-- The list `p` is a permutation of the axes `0, ..., n - 1`: it has `n`
entries, each below `n`, none repeated. -/
def is_axis_permutation (n : Nat) (p : List Nat) : Prop :=
  p.length = n ∧ (∀ x ∈ p, x < n) ∧ p.Nodup

/-- The multi-index `index` is in bounds for `shape`: one index per axis, each
below the extent of its axis. -/
def in_bounds (shape index : List Nat) : Prop :=
  index.length = shape.length ∧ ∀ i, i < shape.length → index.getD i 0 < shape.getD i 0

/-- A sequence of axis numbers as the permutation argument of `transpose`. -/
def as_permutation (p : List Nat) : List Int :=
  p.map Int.ofNat

/-- The layout a transposition by full reversal gives: row_major and
column_major are exchanged, dynamic stays. -/
def swap_layout : layout_type → layout_type
  | layout_type.row_major => layout_type.column_major
  | layout_type.column_major => layout_type.row_major
  | layout_type.dynamic => layout_type.dynamic

/-- The number of new-axis descriptors of a slice list. -/
def count_newaxis : List slice_variant → Nat
  | [] => 0
  | slice_variant.newaxis :: rest => count_newaxis rest + 1
  | slice_variant.index _ :: rest => count_newaxis rest
  | slice_variant.range_adaptor _ :: rest => count_newaxis rest
  | slice_variant.all :: rest => count_newaxis rest

/-- The number of integer-index descriptors of a slice list. -/
def count_index : List slice_variant → Nat
  | [] => 0
  | slice_variant.index _ :: rest => count_index rest + 1
  | slice_variant.newaxis :: rest => count_index rest
  | slice_variant.range_adaptor _ :: rest => count_index rest
  | slice_variant.all :: rest => count_index rest

/-- The number of source axes a slice list consumes: one for every descriptor
that is not a new axis. -/
def consumed_axes : List slice_variant → Nat
  | [] => 0
  | slice_variant.newaxis :: rest => consumed_axes rest
  | slice_variant.index _ :: rest => consumed_axes rest + 1
  | slice_variant.range_adaptor _ :: rest => consumed_axes rest + 1
  | slice_variant.all :: rest => consumed_axes rest + 1

/-- The number of output axes a slice list produces: one for every descriptor
that is not an integer. -/
def produced_axes : List slice_variant → Nat
  | [] => 0
  | slice_variant.index _ :: rest => produced_axes rest
  | slice_variant.newaxis :: rest => produced_axes rest + 1
  | slice_variant.range_adaptor _ :: rest => produced_axes rest + 1
  | slice_variant.all :: rest => produced_axes rest + 1

/-- The extents of the output axes that the descriptors of a slice list
produce, read against the source extents `shape` they apply to: 1 for a new
axis, the source extent for a full axis, the length for a range, nothing for
an integer. -/
def sliced_shape (w : Nat) : List slice_variant → List Nat → List Nat
  | [], _ => []
  | slice_variant.index _ :: rest, shape => sliced_shape w rest shape.tail
  | slice_variant.newaxis :: rest, shape => 1 :: sliced_shape w rest shape
  | slice_variant.all :: rest, shape => shape.headD 0 :: sliced_shape w rest shape.tail
  | slice_variant.range_adaptor get :: rest, shape =>
    to_size_t w (get (shape.headD 0)).2.1 :: sliced_shape w rest shape.tail

/-- The strides of the output axes that the descriptors of a slice list
produce: 0 for a new axis, the source stride for a full axis, step times
source stride for a range, nothing for an integer. -/
def sliced_strides (w : Nat) : List slice_variant → List Nat → List Nat → List Nat
  | [], _, _ => []
  | slice_variant.index _ :: rest, shape, strides =>
    sliced_strides w rest shape.tail strides.tail
  | slice_variant.newaxis :: rest, shape, strides => 0 :: sliced_strides w rest shape strides
  | slice_variant.all :: rest, shape, strides =>
    strides.headD 0 :: sliced_strides w rest shape.tail strides.tail
  | slice_variant.range_adaptor get :: rest, shape, strides =>
    (to_size_t w (get (shape.headD 0)).2.2 * strides.headD 0) % 2 ^ w ::
      sliced_strides w rest shape.tail strides.tail

/-- The offset after the descriptors of a slice list, from the offset `offset`
before them: an integer advances it by index times source stride, a range by
start times source stride, in `size_type`. -/
def sliced_offset (w : Nat) : List slice_variant → List Nat → List Nat → Nat → Nat
  | [], _, _, offset => offset
  | slice_variant.index c :: rest, shape, strides, offset =>
    sliced_offset w rest shape.tail strides.tail
      ((offset + (to_size_t w c * strides.headD 0) % 2 ^ w) % 2 ^ w)
  | slice_variant.newaxis :: rest, shape, strides, offset =>
    sliced_offset w rest shape strides offset
  | slice_variant.all :: rest, shape, strides, offset =>
    sliced_offset w rest shape.tail strides.tail offset
  | slice_variant.range_adaptor get :: rest, shape, strides, offset =>
    sliced_offset w rest shape.tail strides.tail
      ((offset + (to_size_t w (get (shape.headD 0)).1 * strides.headD 0) % 2 ^ w) % 2 ^ w)

/-- The sum, over the integer and range descriptors of a slice list, of start
times the stride of the source axis, the start converted to `std::size_t`. -/
def start_offsets (w : Nat) : List slice_variant → List Nat → List Nat → Nat
  | [], _, _ => 0
  | slice_variant.index c :: rest, shape, strides =>
    to_size_t w c * strides.headD 0 + start_offsets w rest shape.tail strides.tail
  | slice_variant.newaxis :: rest, shape, strides => start_offsets w rest shape strides
  | slice_variant.all :: rest, shape, strides => start_offsets w rest shape.tail strides.tail
  | slice_variant.range_adaptor get :: rest, shape, strides =>
    to_size_t w (get (shape.headD 0)).1 * strides.headD 0 +
      start_offsets w rest shape.tail strides.tail

/-- The exact integer sum, over the integer and range descriptors of a slice
list, of start times the stride of the source axis: `start_offsets` without
the conversion to `std::size_t`. -/
def exact_start_offsets : List slice_variant → List Nat → List Nat → Int
  | [], _, _ => 0
  | slice_variant.index c :: rest, shape, strides =>
    c * Int.ofNat (strides.headD 0) + exact_start_offsets rest shape.tail strides.tail
  | slice_variant.newaxis :: rest, shape, strides => exact_start_offsets rest shape strides
  | slice_variant.all :: rest, shape, strides =>
    exact_start_offsets rest shape.tail strides.tail
  | slice_variant.range_adaptor get :: rest, shape, strides =>
    (get (shape.headD 0)).1 * Int.ofNat (strides.headD 0) +
      exact_start_offsets rest shape.tail strides.tail

/-- The multi-index of a view of dimension `n` that is `idx` on axis `k` and 0
on every other axis. -/
def axis_index (n k idx : Nat) : List Nat :=
  List.replicate k 0 ++ idx :: List.replicate (n - k - 1) 0

/-- The log `after` continues the log `before` over a source of dimension `d`
while the output cursor moves from `idx` to `next`: the writes added to
`new_shape` and to `new_strides` are at the positions `idx, ..., next - 1`, in
this order, and every read added is at an index below `d`. -/
def log_extends (d : Nat) (before after : detail.access_log) (idx next : Nat) : Prop :=
  idx ≤ next ∧
  after.shape_writes = before.shape_writes ++ List.range' idx (next - idx) ∧
  after.strides_writes = before.strides_writes ++ List.range' idx (next - idx) ∧
  (∀ r ∈ after.shape_reads, r ∈ before.shape_reads ∨ r < d) ∧
  (∀ r ∈ after.strides_reads, r ∈ before.strides_reads ∨ r < d)

/-- The shape of the view that a slice list gives over a source of shape
`shape`: the axes the descriptors produce, then the source axes they leave
untouched. -/
def expected_shape (w : Nat) (slices : List slice_variant) (shape : List Nat) : List Nat :=
  sliced_shape w slices shape ++ shape.drop (consumed_axes slices)

/-- The strides of the view that a slice list gives over a source of shape
`shape` and strides `strides`. -/
def expected_strides (w : Nat) (slices : List slice_variant) (shape strides : List Nat) :
    List Nat :=
  sliced_strides w slices shape strides ++ strides.drop (consumed_axes slices)

/-- The source multi-index to which a slice list maps the multi-index `index`
of the view: an integer fixes the coordinate, a new axis drops an index, a
full axis keeps it, a range sends `i` to `start + i * step`, and the axes after
the slice list keep their indices. -/
def source_index : List slice_variant → List Nat → List Nat → List Int
  | [], _, index => index.map Int.ofNat
  | slice_variant.index c :: rest, shape, index => c :: source_index rest shape.tail index
  | slice_variant.newaxis :: rest, shape, index => source_index rest shape index.tail
  | slice_variant.all :: rest, shape, index =>
    Int.ofNat (index.headD 0) :: source_index rest shape.tail index.tail
  | slice_variant.range_adaptor get :: rest, shape, index =>
    ((get (shape.headD 0)).1 + Int.ofNat (index.headD 0) * (get (shape.headD 0)).2.2) ::
      source_index rest shape.tail index.tail

/-- What the range descriptors of a slice list resolve to, descriptor `j`
against the extent of source axis `j`: the triples (start, length, step). -/
def resolve_ranges (gets : List (Nat → Int × Int × Int)) (shape : List Nat) :
    List (Int × Int × Int) :=
  List.zipWith (fun get extent => get extent) gets shape

/-- The source coordinates of a view multi-index under range descriptors that
resolve to the given triples: `start + i * step` on the axes of the ranges, the
index itself on the axes after them. -/
def range_coordinates : List (Int × Int × Int) → List Nat → List Int
  | [], index => index.map Int.ofNat
  | info :: rest, index =>
    (info.1 + Int.ofNat (index.headD 0) * info.2.2) :: range_coordinates rest index.tail

/-- The decomposition of a flat index along a sequence of strides by
successive division and modulo, from the first axis on. -/
def unravel : List Nat → Nat → List Nat
  | [], _ => []
  | s :: rest, i => i / s :: unravel rest (i % s)

/-- A slice list is valid for a source of shape `shape`: every descriptor
other than a new axis has a source axis to apply to, an integer lies in
`0 .. extent - 1`, and a range maps every index below the extent of its output
axis to a coordinate in `0 .. extent - 1`. -/
def slices_valid (w : Nat) : List slice_variant → List Nat → Prop
  | [], _ => True
  | slice_variant.index c :: rest, shape =>
    shape ≠ [] ∧ 0 ≤ c ∧ c < Int.ofNat (shape.headD 0) ∧ slices_valid w rest shape.tail
  | slice_variant.newaxis :: rest, shape => slices_valid w rest shape
  | slice_variant.all :: rest, shape => shape ≠ [] ∧ slices_valid w rest shape.tail
  | slice_variant.range_adaptor get :: rest, shape =>
    shape ≠ [] ∧
    (∀ i : Nat, i < to_size_t w (get (shape.headD 0)).2.1 →
      0 ≤ (get (shape.headD 0)).1 + Int.ofNat i * (get (shape.headD 0)).2.2 ∧
      (get (shape.headD 0)).1 + Int.ofNat i * (get (shape.headD 0)).2.2 <
        Int.ofNat (shape.headD 0)) ∧
    slices_valid w rest shape.tail

/-! ## Concrete expressions -/

/-- The array of the documentation examples: shape (2, 3), row-major, with
elements [[1, 2, 3], [4, 5, 6]]. -/
def example_array : xexpression Int :=
  { shape := [2, 3], strides := [3, 1], layout := layout_type.row_major,
    data := [1, 2, 3, 4, 5, 6], raw_data_offset := 0 }

/-- A one-dimensional row-major array with elements [10, 20, 30]. -/
def example_vector : xexpression Int :=
  { shape := [3], strides := [1], layout := layout_type.row_major,
    data := [10, 20, 30], raw_data_offset := 0 }

/-- A three-dimensional row-major array of shape (2, 3, 4) whose elements are
0, 1, ..., 23 in storage order. -/
def example_cube : xexpression Int :=
  { shape := [2, 3, 4], strides := [12, 4, 1], layout := layout_type.row_major,
    data := (List.range 24).map Int.ofNat, raw_data_offset := 0 }

/-- The strided view of `example_vector` that starts at its second element:
shape (2), strides (1), offset 1. Its elements are [20, 30]. -/
def offset_view : xstrided_view (xexpression Int) (List Int) :=
  strided_view 64 example_vector [2] [1] 1 layout_type.dynamic

/-- An expression without a raw-data interface: shape (2, 3), with the element
`10 * i + j` at the multi-index `(i, j)`. -/
def example_generator : xaccessor_expression Int :=
  { shape := [2, 3], element := fun m => 10 * Int.ofNat (m.getD 0 0) + Int.ofNat (m.getD 1 0) }

/-- The row-major contiguous array that holds the values of
`example_generator`. -/
def example_generated : xexpression Int :=
  { shape := [2, 3], strides := [3, 1], layout := layout_type.row_major,
    data := [0, 1, 2, 10, 11, 12], raw_data_offset := 0 }

/-- Modelled from the spec: what a range with step -1 and unspecified bounds
resolves to on an axis of extent `extent` (the class `xrange_adaptor` is
declared in `xslice.hpp`): the axis in reverse order, that is the first index
`extent - 1`, the length `extent` and the step -1. -/
def reversed_get (extent : Nat) : Int × Int × Int :=
  (Int.ofNat extent - 1, Int.ofNat extent, -1)

/-- A strided view built by `strided_view` from a shape with one entry and
strides with two entries: the constructor reads one stride per extent, so it
stays within both sequences. -/
def mismatched_view : xstrided_view (xexpression Int) (List Int) :=
  strided_view 64 example_array [2] [3, 1] 0 layout_type.dynamic

/-- The strided view of the second slab of `example_cube`: shape (3, 4),
strides (4, 1), offset 12. Its elements are 12, ..., 23. -/
def offset_matrix_view : xstrided_view (xexpression Int) (List Int) :=
  strided_view 64 example_cube [3, 4] [4, 1] 12 layout_type.dynamic

end xt

/-! ## Lemmas -/

namespace xt
open detail

theorem take_succ_set {β : Type} (l : List β) (i : Nat) (x : β) (h : i < l.length) :
    (l.set i x).take (i + 1) = l.take i ++ [x] := by
  induction l generalizing i with
  | nil => simp at h
  | cons a t ih =>
    cases i with
    | zero => simp
    | succ j =>
      simp only [List.length_cons, Nat.add_lt_add_iff_right] at h
      simp [List.set, ih j h]

theorem read_eq_ok {β : Type} (s : List β) (i : Nat) (h : i < s.length) :
    read s i = .ok s[i] := by
  simp [read, List.getElem?_eq_getElem h]

theorem permute_loop_eq {α : Type} (w : Nat) (e : xexpression α) (p : List Int)
    (hp : p.length = e.shape.length) (hst : e.strides.length = e.shape.length) :
    ∀ (k i : Nat) (ts tt : List Nat), i + k = e.shape.length →
      ts.length = e.shape.length → tt.length = e.shape.length →
      permute_loop w e p k i ts tt =
        if ∀ x ∈ p.drop i, to_size_t w x < e.shape.length then
          .ok (ts.take i ++ (p.drop i).map (fun x => e.shape.getD (to_size_t w x) 0),
               tt.take i ++ (p.drop i).map (fun x => e.strides.getD (to_size_t w x) 0))
        else .error failure.transpose_axis := by
  intro k
  induction k with
  | zero =>
    intro i ts tt hik hts htt
    have hi : i = e.shape.length := by omega
    have hd : p.drop i = [] := by
      apply List.drop_eq_nil_of_le; omega
    rw [permute_loop, hd, if_pos (by simp), List.take_of_length_le (by omega),
      List.take_of_length_le (by omega)]
    simp
  | succ k ih =>
    intro i ts tt hik hts htt
    have hi : i < p.length := by omega
    have hd : p.drop i = p[i] :: p.drop (i + 1) := List.drop_eq_getElem_cons hi
    rw [permute_loop, read_eq_ok p i hi]
    simp only [bind, Except.bind, xexpression.dimension]
    by_cases hbad : e.shape.length ≤ to_size_t w p[i]
    · rw [if_pos hbad, if_neg]
      intro hall
      have := hall p[i] (by rw [hd]; exact List.mem_cons_self _ _)
      omega
    · rw [if_neg hbad]
      have hlt : to_size_t w p[i] < e.shape.length := by omega
      rw [read_eq_ok e.shape _ hlt, read_eq_ok e.strides _ (by omega)]
      simp only [write, hts, htt, show i < e.shape.length by omega, if_true]
      rw [ih (i + 1) _ _ (by omega) (by simp [hts]) (by simp [htt])]
      rw [take_succ_set ts i _ (by omega), take_succ_set tt i _ (by omega), hd]
      simp only [List.forall_mem_cons, hlt, true_and, List.map_cons, List.append_assoc,
        List.singleton_append]
      have hlt2 : to_size_t w p[i] < e.strides.length := by omega
      have h1 : e.shape.getD (to_size_t w p[i]) 0 = e.shape[to_size_t w p[i]] := by
        simp [List.getD_eq_getElem?_getD, List.getElem?_eq_getElem hlt]
      have h2 : e.strides.getD (to_size_t w p[i]) 0 = e.strides[to_size_t w p[i]] := by
        simp [List.getD_eq_getElem?_getD, List.getElem?_eq_getElem hlt2]
      rw [h1, h2]

theorem transpose_impl_none_eq {α : Type} (w : Nat) (e : xexpression α) (p : List Int)
    (hst : e.strides.length = e.shape.length) :
    transpose_impl_none w e p =
      if p.length ≠ e.shape.length then .error failure.transpose_size
      else if ∀ x ∈ p, to_size_t w x < e.shape.length then
        .ok (xstrided_view.mk_expr w e
          (p.map (fun x => e.shape.getD (to_size_t w x) 0))
          (p.map (fun x => e.strides.getD (to_size_t w x) 0)) 0 (new_layout e.layout p))
      else .error failure.transpose_axis := by
  unfold transpose_impl_none
  simp only [xexpression.dimension]
  by_cases hlen : p.length = e.shape.length
  · rw [if_neg (by simpa using hlen), if_neg (by simpa using hlen)]
    rw [permute_loop_eq w e p hlen hst e.shape.length 0 _ _ (by omega)
      (by simp [resize_container]) (by simp [resize_container, hst])]
    simp only [List.drop_zero, List.take_zero, List.nil_append]
    by_cases hall : ∀ x ∈ p, to_size_t w x < e.shape.length
    · simp only [if_pos hall]; rfl
    · simp only [if_neg hall]; rfl
  · rw [if_pos hlen, if_pos hlen]

theorem to_size_t_natCast (w k : Nat) : to_size_t w (k : Int) = k % 2 ^ w := by
  unfold to_size_t
  rw [← Int.natCast_mod, Int.toNat_natCast]

theorem to_size_t_of_lt (w k : Nat) (h : k < 2 ^ w) : to_size_t w (k : Int) = k := by
  rw [to_size_t_natCast, Nat.mod_eq_of_lt h]

theorem duplicate_inner_eq (x : Int) (l : List Int) :
    duplicate_inner x l = if x ∈ l then .error failure.transpose_duplicate else .ok () := by
  induction l with
  | nil => simp [duplicate_inner]
  | cons y t ih =>
    by_cases hxy : x = y
    · simp [duplicate_inner, hxy]
    · simp [duplicate_inner, hxy, ih]

theorem duplicate_outer_eq (l : List Int) :
    duplicate_outer l = if l.Nodup then .ok () else .error failure.transpose_duplicate := by
  induction l with
  | nil => simp [duplicate_outer]
  | cons x t ih =>
    rw [duplicate_outer, duplicate_inner_eq, ih]
    by_cases hx : x ∈ t
    · simp [hx, bind, Except.bind]
    · by_cases ht : t.Nodup
      · simp [hx, ht, bind, Except.bind]
      · simp [hx, ht, bind, Except.bind]

theorem transpose_impl_full_eq {α : Type} (w : Nat) (e : xexpression α) (p : List Int) :
    transpose_impl_full w e p =
      if p.Nodup then transpose_impl_none w e p else .error failure.transpose_duplicate := by
  unfold transpose_impl_full
  rw [duplicate_outer_eq]
  by_cases h : p.Nodup
  · simp [h, bind, Except.bind]
  · simp [h, bind, Except.bind]

theorem is_sorted_iff_chain {β : Type} (comp : β → β → Bool) (l : List β) :
    is_sorted comp l = true ↔ l.Chain' (fun a b => comp b a = false) := by
  induction l with
  | nil => simp [is_sorted]
  | cons a t ih =>
    cases t with
    | nil => simp [is_sorted]
    | cons b t =>
      rw [is_sorted, List.chain'_cons, ← ih]
      simp

theorem is_sorted_lt_natCast (p : List Nat) :
    is_sorted (fun a b : Int => decide (a < b)) (as_permutation p) = true ↔
      p.Sorted (fun a b => a ≤ b) := by
  rw [is_sorted_iff_chain, as_permutation, List.chain'_map, List.Sorted,
    ← List.chain'_iff_pairwise]
  apply Iff.of_eq
  congr 1
  funext a b
  simp

theorem is_sorted_gt_natCast (p : List Nat) :
    is_sorted (fun a b : Int => decide (a > b)) (as_permutation p) = true ↔
      p.Sorted (fun a b => a ≥ b) := by
  rw [is_sorted_iff_chain, as_permutation, List.chain'_map, List.Sorted,
    ← List.chain'_iff_pairwise]
  apply Iff.of_eq
  congr 1
  funext a b
  simp

theorem perm_range_of_axis_permutation {n : Nat} {p : List Nat}
    (h : is_axis_permutation n p) : p.Perm (List.range n) := by
  obtain ⟨hlen, hlt, hnd⟩ := h
  have hsub : p ⊆ List.range n := fun x hx => List.mem_range.mpr (hlt x hx)
  exact (List.subperm_of_subset hnd hsub).perm_of_length_le (by simp [hlen])

theorem eq_range_of_sorted_le {n : Nat} {p : List Nat}
    (h : is_axis_permutation n p) (hs : p.Sorted (fun a b => a ≤ b)) : p = List.range n :=
  List.eq_of_perm_of_sorted (perm_range_of_axis_permutation h) hs (List.sorted_le_range n)

theorem sorted_ge_reverse_range (n : Nat) :
    (List.range n).reverse.Sorted (fun a b => a ≥ b) := by
  rw [List.Sorted, List.pairwise_reverse]
  exact List.sorted_le_range n

theorem eq_reverse_range_of_sorted_ge {n : Nat} {p : List Nat}
    (h : is_axis_permutation n p) (hs : p.Sorted (fun a b => a ≥ b)) :
    p = (List.range n).reverse :=
  List.eq_of_perm_of_sorted
    ((perm_range_of_axis_permutation h).trans (List.reverse_perm _).symm) hs
    (sorted_ge_reverse_range n)

theorem is_axis_permutation_range (n : Nat) : is_axis_permutation n (List.range n) :=
  ⟨List.length_range n, fun _ hx => List.mem_range.mp hx, List.nodup_range n⟩

theorem is_axis_permutation_reverse_range (n : Nat) :
    is_axis_permutation n (List.range n).reverse :=
  ⟨by simp, fun x hx => List.mem_range.mp (List.mem_reverse.mp hx),
    List.nodup_reverse.mpr (List.nodup_range n)⟩

theorem reverse_range_ne_range (n : Nat) (hn : 2 ≤ n) :
    (List.range n).reverse ≠ List.range n := by
  intro h
  have h0 : (List.range n).reverse[0]? = (List.range n)[0]? := by rw [h]
  rw [List.getElem?_reverse (by simp; omega)] at h0
  simp [List.getElem?_range, show n - 1 < n by omega, show 0 < n by omega] at h0
  omega

theorem new_layout_range (l : layout_type) (n : Nat) :
    new_layout l (as_permutation (List.range n)) = l := by
  unfold new_layout
  rw [if_pos ((is_sorted_lt_natCast _).mpr (List.sorted_le_range n))]

theorem new_layout_reverse_range (l : layout_type) (n : Nat) (hn : 2 ≤ n) :
    new_layout l (as_permutation (List.range n).reverse) = swap_layout l := by
  unfold new_layout
  have h1 : ¬ is_sorted (fun a b : Int => decide (a < b))
      (as_permutation (List.range n).reverse) = true := by
    rw [is_sorted_lt_natCast]
    intro hs
    exact reverse_range_ne_range n hn
      (eq_range_of_sorted_le (is_axis_permutation_reverse_range n) hs)
  rw [if_neg h1, if_pos ((is_sorted_gt_natCast _).mpr (sorted_ge_reverse_range n))]
  cases l <;> rfl

theorem new_layout_other (l : layout_type) (n : Nat) (p : List Nat)
    (h : is_axis_permutation n p) (h1 : p ≠ List.range n)
    (h2 : p ≠ (List.range n).reverse) :
    new_layout l (as_permutation p) = layout_type.dynamic := by
  unfold new_layout
  rw [if_neg, if_neg]
  · rw [is_sorted_gt_natCast]
    exact fun hs => h2 (eq_reverse_range_of_sorted_ge h hs)
  · rw [is_sorted_lt_natCast]
    exact fun hs => h1 (eq_range_of_sorted_le h hs)

theorem as_permutation_valid (w n : Nat) (p : List Nat) (hw : n < 2 ^ w)
    (hlt : ∀ x ∈ p, x < n) : ∀ x ∈ as_permutation p, to_size_t w x < n := by
  intro x hx
  obtain ⟨k, hk, rfl⟩ := List.mem_map.mp hx
  have := hlt k hk
  show to_size_t w (k : Int) < n
  rw [to_size_t_of_lt w k (by omega)]
  exact this

theorem as_permutation_map (w n : Nat) (p : List Nat) (s : List Nat) (hw : n < 2 ^ w)
    (hlt : ∀ x ∈ p, x < n) :
    (as_permutation p).map (fun x => s.getD (to_size_t w x) 0) = p.map (fun k => s.getD k 0) := by
  unfold as_permutation
  rw [List.map_map]
  apply List.map_congr_left
  intro k hk
  have := hlt k hk
  show s.getD (to_size_t w (k : Int)) 0 = s.getD k 0
  rw [to_size_t_of_lt w k (by omega)]

theorem as_permutation_nodup (p : List Nat) (h : p.Nodup) : (as_permutation p).Nodup :=
  List.Nodup.map (fun _ _ hab => Int.ofNat.inj hab) h

theorem transpose_perm_natural {α : Type} (w : Nat) (e : xexpression α) (p : List Nat)
    (tag : check_policy)
    (hst : e.strides.length = e.shape.length) (hw : e.dimension < 2 ^ w)
    (hlen : p.length = e.dimension) (hlt : ∀ x ∈ p, x < e.dimension)
    (hnd : tag = check_policy.full → p.Nodup) :
    transpose_perm w e (as_permutation p) tag =
      .ok (xstrided_view.mk_expr w e (p.map (fun k => e.shape.getD k 0))
        (p.map (fun k => e.strides.getD k 0)) 0 (new_layout e.layout (as_permutation p))) := by
  have hnone : transpose_impl_none w e (as_permutation p) =
      .ok (xstrided_view.mk_expr w e (p.map (fun k => e.shape.getD k 0))
        (p.map (fun k => e.strides.getD k 0)) 0 (new_layout e.layout (as_permutation p))) := by
    unfold xexpression.dimension at hw hlen hlt
    rw [transpose_impl_none_eq w e _ hst,
      if_neg (by simpa [as_permutation] using hlen),
      if_pos (as_permutation_valid w _ p hw hlt),
      as_permutation_map w _ p e.shape hw hlt, as_permutation_map w _ p e.strides hw hlt]
  cases tag with
  | none => exact hnone
  | full =>
    show transpose_impl_full w e (as_permutation p) = _
    rw [transpose_impl_full_eq, if_pos (as_permutation_nodup p (hnd rfl)), hnone]

theorem getD_eq_getElem_of_lt {β : Type} (l : List β) (i : Nat) (d : β) (h : i < l.length) :
    l.getD i d = l[i] := by
  simp [List.getD_eq_getElem?_getD, List.getElem?_eq_getElem h]

theorem getD_map_of_lt {β γ : Type} (f : β → γ) (l : List β) (i : Nat) (d : β) (d' : γ)
    (h : i < l.length) : (l.map f).getD i d' = f (l.getD i d) := by
  rw [getD_eq_getElem_of_lt _ _ _ (by simpa using h), getD_eq_getElem_of_lt _ _ _ h]
  simp

theorem map_range_getD (l : List Nat) : (List.range l.length).map (fun k => l.getD k 0) = l := by
  apply List.ext_getElem
  · simp
  · intro i h1 h2
    simp [List.getElem?_eq_getElem h2]

theorem zipWith_mul_eq_map_range (s j : List Nat) (n : Nat) (hs : s.length = n)
    (hj : j.length = n) :
    List.zipWith (fun a b => a * b) s j =
      (List.range n).map (fun k => s.getD k 0 * j.getD k 0) := by
  apply List.ext_getElem
  · simp [hs, hj]
  · intro i h1 h2
    have hi : i < n := by simpa using h2
    have h3 : i < s.length := by omega
    have h4 : i < j.length := by omega
    simp [List.getElem?_eq_getElem h3, List.getElem?_eq_getElem h4]

theorem zipWith_mul_permuted (s j p idx : List Nat) (n : Nat)
    (hp : p.length = n) (hidx : idx.length = n)
    (hrel : ∀ i, i < n → j.getD (p.getD i 0) 0 = idx.getD i 0) :
    List.zipWith (fun a b => a * b) (p.map (fun k => s.getD k 0)) idx =
      p.map (fun k => s.getD k 0 * j.getD k 0) := by
  apply List.ext_getElem
  · simp [hp, hidx]
  · intro i h1 h2
    have hi : i < n := by simpa [hp] using h2
    have hip : i < p.length := by omega
    have hii : i < idx.length := by omega
    have := hrel i hi
    rw [getD_eq_getElem_of_lt p i 0 hip, getD_eq_getElem_of_lt idx i 0 hii] at this
    simp only [List.getElem_zipWith, List.getElem_map]
    rw [← this]

theorem element_offset_permuted (w : Nat) (s j p idx : List Nat)
    (hp : is_axis_permutation s.length p) (hj : j.length = s.length)
    (hidx : idx.length = s.length)
    (hrel : ∀ i, i < s.length → j.getD (p.getD i 0) 0 = idx.getD i 0) :
    element_offset w (p.map (fun k => s.getD k 0)) idx = element_offset w s j := by
  unfold element_offset
  rw [List.length_map, hp.1, hidx, hj, Nat.sub_self, List.drop_zero, List.drop_zero,
    zipWith_mul_permuted s j p idx s.length hp.1 hidx hrel,
    zipWith_mul_eq_map_range s j s.length rfl hj,
    ((perm_range_of_axis_permutation hp).map _).sum_eq]

theorem check_index_ok (shape index : List Nat) (h : in_bounds shape index) :
    check_index shape index = .ok () := by
  obtain ⟨hlen, hlt⟩ := h
  unfold check_index
  rw [if_neg (by omega), if_neg]
  rw [hlen, Nat.sub_self, List.drop_zero]
  intro hany
  obtain ⟨b, hb, hbt⟩ := List.any_eq_true.mp hany
  obtain ⟨i, hi, rfl⟩ := List.getElem_of_mem hb
  have hi1 : i < shape.length := by simp at hi; omega
  have hi2 : i < index.length := by omega
  have := hlt i hi1
  rw [getD_eq_getElem_of_lt shape i 0 hi1, getD_eq_getElem_of_lt index i 0 hi2] at this
  simp at hbt
  omega

theorem in_bounds_source (shape p idx j : List Nat)
    (hp : is_axis_permutation shape.length p) (hj : j.length = shape.length)
    (hrel : ∀ i, i < shape.length → j.getD (p.getD i 0) 0 = idx.getD i 0)
    (hin : in_bounds (p.map (fun k => shape.getD k 0)) idx) : in_bounds shape j := by
  refine ⟨hj, fun k hk => ?_⟩
  have hkp : k ∈ p :=
    (perm_range_of_axis_permutation hp).mem_iff.mpr (List.mem_range.mpr hk)
  obtain ⟨i, hi, rfl⟩ := List.getElem_of_mem hkp
  have hi' : i < shape.length := by rw [← hp.1]; exact hi
  have h1 := hrel i hi'
  have h2 := hin.2 i (by simpa using hi)
  rw [getD_map_of_lt _ p i 0 0 hi] at h2
  rw [getD_eq_getElem_of_lt p i 0 hi] at h1 h2
  omega

theorem std_copy_reverse_resize (l : List Nat) :
    std_copy l.reverse (resize_container l.length) = l.reverse := by
  simp [std_copy, resize_container]

/-! ## Properties of `transpose` -/

/-- C1 (offset correctness). For a source array with raw offset 0 and a
permutation `p` of its axes, `transpose(e, p)` succeeds under either check policy, the
view shares the buffer of the source, and at every multi-index `idx` that is
in bounds for the view the accessor `operator()` computes the same flat index
and returns the same element as the source accessed at the multi-index `j`
with `j[p[i]] = idx[i]`. -/
theorem transpose_offset_correct {α : Type} (w : Nat) (enable_assert : Bool)
    (tag : check_policy) (e : xexpression α) (p idx j : List Nat)
    (hoff : e.raw_data_offset = 0)
    (hst : e.strides.length = e.shape.length)
    (hw : e.dimension < 2 ^ w)
    (hp : is_axis_permutation e.dimension p)
    (hin : in_bounds (p.map (fun k => e.shape.getD k 0)) idx)
    (hj : j.length = e.dimension)
    (hrel : ∀ i, i < e.dimension → j.getD (p.getD i 0) 0 = idx.getD i 0) :
    ∃ v, transpose_perm w e (as_permutation p) tag = .ok v ∧
      v.shape = p.map (fun k => e.shape.getD k 0) ∧
      v.m_data = e.data ∧ v.index w idx = e.index w j ∧
      v.call w enable_assert idx = e.call w enable_assert j := by
  refine ⟨_, transpose_perm_natural w e p tag hst hw hp.1 hp.2.1 (fun _ => hp.2.2), rfl, ?_⟩
  unfold xexpression.dimension at hp hj hrel
  have hidx : idx.length = e.strides.length := by
    have := hin.1
    rw [List.length_map] at this
    rw [this, hp.1, hst]
  have hoffset : element_offset w (p.map (fun k => e.strides.getD k 0)) idx =
      element_offset w e.strides j :=
    element_offset_permuted w e.strides j p idx (hst ▸ hp) (hst ▸ hj) hidx (hst ▸ hrel)
  have hindex : (xstrided_view.mk_expr w e (p.map (fun k => e.shape.getD k 0))
      (p.map (fun k => e.strides.getD k 0)) 0
      (new_layout e.layout (as_permutation p))).index w idx = e.index w j := by
    simp only [xstrided_view.index, xstrided_view.strides, xstrided_view.mk_expr,
      xstrided_view.mk_data, xexpression.index, hoff, hoffset]
  refine ⟨rfl, hindex, ?_⟩
  have hinj : in_bounds e.shape j := in_bounds_source e.shape p idx j hp hj hrel hin
  unfold xstrided_view.call xexpression.call
  rw [hindex]
  cases enable_assert with
  | false => rfl
  | true =>
    simp only [XTENSOR_TRY, if_true]
    rw [check_index_ok _ _ hinj]
    have : check_index (xstrided_view.mk_expr w e (p.map (fun k => e.shape.getD k 0))
      (p.map (fun k => e.strides.getD k 0)) 0
      (new_layout e.layout (as_permutation p))).shape idx = .ok () := check_index_ok _ _ hin
    rw [this]
    rfl

/-- Witness of C1: the (2, 3) example array transposed by the permutation
(1, 0); the view at (2, 1) and the source at (1, 2) are the same element, 6. -/
theorem transpose_offset_correct_witness :
    example_array.raw_data_offset = 0 ∧
    example_array.strides.length = example_array.shape.length ∧
    example_array.dimension < 2 ^ 64 ∧
    is_axis_permutation example_array.dimension [1, 0] ∧
    in_bounds ([1, 0].map (fun k => example_array.shape.getD k 0)) [2, 1] ∧
    example_array.call 64 true [1, 2] = .ok 6 ∧
    ∃ v, transpose_perm 64 example_array (as_permutation [1, 0]) check_policy.none = .ok v ∧
      v.shape = [1, 0].map (fun k => example_array.shape.getD k 0) ∧
      v.m_data = example_array.data ∧ v.index 64 [2, 1] = example_array.index 64 [1, 2] ∧
      v.call 64 true [2, 1] = example_array.call 64 true [1, 2] :=
  ⟨rfl, rfl, by decide, ⟨rfl, by decide, by decide⟩, ⟨rfl, by decide⟩, rfl,
    transpose_offset_correct 64 true check_policy.none example_array [1, 0] [2, 1] [1, 2]
      rfl rfl (by decide) ⟨rfl, by decide, by decide⟩ ⟨rfl, by decide⟩ rfl (by decide)⟩

/-- C2 (the offset of the source is dropped). The view `offset_view` has raw
offset 1 and its element at (0) is 20, the second element of the buffer;
its transpose by the permutation (0), and its transpose by reversal, have offset 0
and read the first element of the buffer, 10, at (0). -/
theorem transpose_drops_source_offset :
    offset_view.raw_data_offset = 1 ∧
    offset_view.call 64 false [0] = .ok 20 ∧
    offset_view.as_expression.call 64 false [0] = .ok 20 ∧
    (∃ v, transpose_perm 64 offset_view.as_expression (as_permutation [0])
        check_policy.none = .ok v ∧
      v.raw_data_offset = 0 ∧ v.data = offset_view.data ∧ v.call 64 false [0] = .ok 10) ∧
    (transpose 64 offset_view.as_expression).raw_data_offset = 0 ∧
    (transpose 64 offset_view.as_expression).call 64 false [0] = .ok 10 :=
  ⟨rfl, rfl, rfl, ⟨_, rfl, rfl, rfl, rfl⟩, rfl, rfl⟩

/-- C3 as stated fails: in the transpose of the (2, 3) example array the
element at (1, 0) is 2, not 4. -/
theorem transpose_example_one_zero_is_two :
    (transpose 64 example_array).call 64 false [1, 0] = .ok 2 ∧
    (transpose 64 example_array).call 64 false [1, 0] ≠ .ok 4 :=
  ⟨rfl, by simp [show (transpose 64 example_array).call 64 false [1, 0] = .ok 2 from rfl]⟩

/-- C3 (amended). The transpose of the (2, 3) example array
[[1, 2, 3], [4, 5, 6]] has shape (3, 2); its element at (1, 0) is 2 and its
element at (0, 1) is 4, with or without the index check. -/
theorem transpose_example (enable_assert : Bool) :
    (transpose 64 example_array).shape = [3, 2] ∧
    (transpose 64 example_array).call 64 enable_assert [1, 0] = .ok 2 ∧
    (transpose 64 example_array).call 64 enable_assert [0, 1] = .ok 4 := by
  cases enable_assert <;> exact ⟨rfl, rfl, rfl⟩

/-- C4. The view `transpose(e)` has the reversed shape and the reversed strides
of the source, offset 0, and the layout column_major for a row_major source,
row_major for a column_major source and dynamic otherwise. -/
theorem transpose_reverses {α : Type} (w : Nat) (e : xexpression α) :
    (transpose w e).shape = e.shape.reverse ∧
    (transpose w e).strides = e.strides.reverse ∧
    (transpose w e).raw_data_offset = 0 ∧
    (e.layout = layout_type.row_major → (transpose w e).layout = layout_type.column_major) ∧
    (e.layout = layout_type.column_major → (transpose w e).layout = layout_type.row_major) ∧
    (e.layout ≠ layout_type.row_major → e.layout ≠ layout_type.column_major →
      (transpose w e).layout = layout_type.dynamic) := by
  refine ⟨std_copy_reverse_resize e.shape, std_copy_reverse_resize e.strides, rfl, ?_, ?_, ?_⟩
  · intro h
    simp [transpose, xstrided_view.layout, xstrided_view.mk_expr, xstrided_view.mk_data, h]
  · intro h
    simp [transpose, xstrided_view.layout, xstrided_view.mk_expr, xstrided_view.mk_data, h]
  · intro h1 h2
    cases hl : e.layout with
    | row_major => exact absurd hl h1
    | column_major => exact absurd hl h2
    | dynamic =>
      simp [transpose, xstrided_view.layout, xstrided_view.mk_expr, xstrided_view.mk_data, hl]

/-- C5. For a source of dimension `n` and a sequence `p` of `n` axis numbers,
each below `n`, `transpose(e, p)` returns a view of dimension `n` with
`shape[i] = source.shape[p[i]]` and `strides[i] = source.strides[p[i]]`. -/
theorem transpose_perm_shape_strides {α : Type} (w : Nat) (e : xexpression α) (p : List Nat)
    (hst : e.strides.length = e.shape.length) (hw : e.dimension < 2 ^ w)
    (hlen : p.length = e.dimension) (hlt : ∀ x ∈ p, x < e.dimension) :
    ∃ v, transpose_perm w e (as_permutation p) check_policy.none = .ok v ∧
      v.dimension = e.dimension ∧ v.strides.length = e.dimension ∧
      ∀ i, i < e.dimension →
        v.shape.getD i 0 = e.shape.getD (p.getD i 0) 0 ∧
        v.strides.getD i 0 = e.strides.getD (p.getD i 0) 0 := by
  refine ⟨_, transpose_perm_natural w e p check_policy.none hst hw hlen hlt
    (fun h => by cases h), ?_, ?_, ?_⟩
  · simp [xstrided_view.dimension, xstrided_view.mk_expr, xstrided_view.mk_data, hlen]
  · simp [xstrided_view.strides, xstrided_view.mk_expr, xstrided_view.mk_data, hlen]
  · intro i hi
    have hip : i < p.length := by omega
    exact ⟨getD_map_of_lt _ p i 0 0 hip, getD_map_of_lt _ p i 0 0 hip⟩

/-- Witness of C5: the (2, 3) example array and the sequence (1, 1). -/
theorem transpose_perm_shape_strides_witness :
    example_array.strides.length = example_array.shape.length ∧
    example_array.dimension < 2 ^ 64 ∧
    [1, 1].length = example_array.dimension ∧
    (∀ x ∈ [1, 1], x < example_array.dimension) ∧
    ∃ v, transpose_perm 64 example_array (as_permutation [1, 1]) check_policy.none = .ok v ∧
      v.dimension = example_array.dimension ∧ v.strides.length = example_array.dimension ∧
      ∀ i, i < example_array.dimension →
        v.shape.getD i 0 = example_array.shape.getD ([1, 1].getD i 0) 0 ∧
        v.strides.getD i 0 = example_array.strides.getD ([1, 1].getD i 0) 0 :=
  ⟨rfl, by decide, rfl, by decide,
    transpose_perm_shape_strides 64 example_array [1, 1] rfl (by decide) rfl (by decide)⟩

/-- C6 (validation under `check_policy::none`). For a permutation with entries
of any integer type, compared as the code compares them, after conversion to
`std::size_t`: the call fails with the size-mismatch error exactly when the
length of `p` differs from the dimension; otherwise it fails with the
wrong-axis error exactly when some entry is not below the dimension; otherwise
it succeeds, whether or not an axis is repeated. -/
theorem transpose_none_validation {α : Type} (w : Nat) (e : xexpression α) (p : List Int)
    (hst : e.strides.length = e.shape.length) :
    (transpose_perm w e p check_policy.none = .error failure.transpose_size ↔
      p.length ≠ e.dimension) ∧
    (p.length = e.dimension →
      (transpose_perm w e p check_policy.none = .error failure.transpose_axis ↔
        ∃ x ∈ p, e.dimension ≤ to_size_t w x)) ∧
    (p.length = e.dimension → (∀ x ∈ p, to_size_t w x < e.dimension) →
      ∃ v, transpose_perm w e p check_policy.none = .ok v) := by
  have heq : transpose_perm w e p check_policy.none = transpose_impl_none w e p := rfl
  rw [heq, transpose_impl_none_eq w e p hst]
  unfold xexpression.dimension
  by_cases hlen : p.length = e.shape.length
  · rw [if_neg (by simpa using hlen)]
    by_cases hall : ∀ x ∈ p, to_size_t w x < e.shape.length
    · rw [if_pos hall]
      refine ⟨by simp [hlen], fun _ => ?_, fun _ _ => ⟨_, rfl⟩⟩
      constructor
      · intro h; cases h
      · rintro ⟨x, hx, hbad⟩
        have := hall x hx
        omega
    · rw [if_neg hall]
      refine ⟨by simp [hlen], fun _ => ?_, fun _ h => absurd h hall⟩
      constructor
      · intro _
        by_contra hne
        apply hall
        intro x hx
        by_contra hx2
        exact hne ⟨x, hx, by omega⟩
      · intro _; rfl
  · rw [if_pos hlen]
    exact ⟨by simp [hlen], fun h => absurd h hlen, fun h => absurd h hlen⟩

/-- Witness of C6: the (2, 3) example array; in particular the permutation
(0, 0), which repeats an axis, is accepted. -/
theorem transpose_none_validation_witness :
    example_array.strides.length = example_array.shape.length ∧
    (∃ v, transpose_perm 64 example_array [0, 0] check_policy.none = .ok v) ∧
    ((transpose_perm 64 example_array [0, 0] check_policy.none =
        .error failure.transpose_size ↔ [(0 : Int), 0].length ≠ example_array.dimension) ∧
    ([(0 : Int), 0].length = example_array.dimension →
      (transpose_perm 64 example_array [0, 0] check_policy.none =
          .error failure.transpose_axis ↔
        ∃ x ∈ [(0 : Int), 0], example_array.dimension ≤ to_size_t 64 x)) ∧
    ([(0 : Int), 0].length = example_array.dimension →
      (∀ x ∈ [(0 : Int), 0], to_size_t 64 x < example_array.dimension) →
      ∃ v, transpose_perm 64 example_array [0, 0] check_policy.none = .ok v)) :=
  ⟨rfl, ⟨_, rfl⟩, transpose_none_validation 64 example_array [0, 0] rfl⟩

/-- C7 (validation under `check_policy::full`). The call succeeds exactly when
`p` has as many entries as the source has axes, every entry (converted to
`std::size_t`) is below the dimension and no entry is repeated; every other
`p` fails with one of the three transpose errors; a `p` with a repeated entry
fails with the duplicate-axis error; and for entries that are `std::size_t`
values the condition of success says that `p` is a permutation of the axes
`0, ..., n - 1`. -/
theorem transpose_full_validation {α : Type} (w : Nat) (e : xexpression α) (p : List Int)
    (hst : e.strides.length = e.shape.length) :
    ((∃ v, transpose_perm w e p check_policy.full = .ok v) ↔
      (p.length = e.dimension ∧ (∀ x ∈ p, to_size_t w x < e.dimension) ∧ p.Nodup)) ∧
    (¬ (p.length = e.dimension ∧ (∀ x ∈ p, to_size_t w x < e.dimension) ∧ p.Nodup) →
      transpose_perm w e p check_policy.full = .error failure.transpose_size ∨
      transpose_perm w e p check_policy.full = .error failure.transpose_axis ∨
      transpose_perm w e p check_policy.full = .error failure.transpose_duplicate) ∧
    (¬ p.Nodup →
      transpose_perm w e p check_policy.full = .error failure.transpose_duplicate) ∧
    (∀ q : List Nat, p = as_permutation q → (∀ x ∈ q, x < 2 ^ w) →
      ((p.length = e.dimension ∧ (∀ x ∈ p, to_size_t w x < e.dimension) ∧ p.Nodup) ↔
        is_axis_permutation e.dimension q)) := by
  have heq : transpose_perm w e p check_policy.full = transpose_impl_full w e p := rfl
  rw [heq, transpose_impl_full_eq, transpose_impl_none_eq w e p hst]
  unfold xexpression.dimension
  refine ⟨?_, ?_, ?_, ?_⟩
  · by_cases hnd : p.Nodup
    · rw [if_pos hnd]
      by_cases hlen : p.length = e.shape.length
      · rw [if_neg (by simpa using hlen)]
        by_cases hall : ∀ x ∈ p, to_size_t w x < e.shape.length
        · rw [if_pos hall]
          exact ⟨fun _ => ⟨hlen, hall, hnd⟩, fun _ => ⟨_, rfl⟩⟩
        · rw [if_neg hall]
          exact ⟨fun hv => hv.elim (fun _ h => nomatch h), fun h => absurd h.2.1 hall⟩
      · rw [if_pos hlen]
        exact ⟨fun hv => hv.elim (fun _ h => nomatch h), fun h => absurd h.1 hlen⟩
    · rw [if_neg hnd]
      exact ⟨fun hv => hv.elim (fun _ h => nomatch h), fun h => absurd h.2.2 hnd⟩
  · intro hnot
    by_cases hnd : p.Nodup
    · rw [if_pos hnd]
      by_cases hlen : p.length = e.shape.length
      · rw [if_neg (by simpa using hlen)]
        by_cases hall : ∀ x ∈ p, to_size_t w x < e.shape.length
        · exact absurd ⟨hlen, hall, hnd⟩ hnot
        · rw [if_neg hall]
          exact Or.inr (Or.inl rfl)
      · rw [if_pos hlen]
        exact Or.inl rfl
    · rw [if_neg hnd]
      exact Or.inr (Or.inr rfl)
  · intro hnd
    rw [if_neg hnd]
  · intro q hq hq2
    subst hq
    unfold is_axis_permutation
    have hmem : (∀ x ∈ as_permutation q, to_size_t w x < e.shape.length) ↔
        ∀ x ∈ q, x < e.shape.length := by
      constructor
      · intro h k hk
        have := h (k : Int) (List.mem_map.mpr ⟨k, hk, rfl⟩)
        rwa [to_size_t_of_lt w k (hq2 k hk)] at this
      · intro h x hx
        obtain ⟨k, hk, rfl⟩ := List.mem_map.mp hx
        show to_size_t w (k : Int) < _
        rw [to_size_t_of_lt w k (hq2 k hk)]
        exact h k hk
    have hnd : (as_permutation q).Nodup ↔ q.Nodup :=
      List.nodup_map_iff (fun _ _ hab => Int.ofNat.inj hab)
    rw [hmem, hnd]
    simp [as_permutation]

/-- Witness of C7: the (2, 3) example array with the permutation (1, 0),
which is accepted, and with (0, 0), which fails with the duplicate-axis
error. -/
theorem transpose_full_validation_witness :
    example_array.strides.length = example_array.shape.length ∧
    (∃ v, transpose_perm 64 example_array [1, 0] check_policy.full = .ok v) ∧
    transpose_perm 64 example_array [0, 0] check_policy.full =
      .error failure.transpose_duplicate ∧
    ((∃ v, transpose_perm 64 example_array [1, 0] check_policy.full = .ok v) ↔
      ([(1 : Int), 0].length = example_array.dimension ∧
        (∀ x ∈ [(1 : Int), 0], to_size_t 64 x < example_array.dimension) ∧
        [(1 : Int), 0].Nodup)) :=
  ⟨rfl, ⟨_, rfl⟩, rfl, (transpose_full_validation 64 example_array [1, 0] rfl).1⟩

/-- C8 as stated fails for a source with one axis: the fully reversed
permutation of the row-major `example_vector` is (0), which is sorted, and the
view keeps the layout row_major. -/
theorem reversed_permutation_one_axis_keeps_layout :
    example_vector.layout = layout_type.row_major ∧
    (List.range example_vector.dimension).reverse = [0] ∧
    ∃ v, transpose_perm 64 example_vector
        (as_permutation (List.range example_vector.dimension).reverse)
        check_policy.none = .ok v ∧
      v.layout = layout_type.row_major ∧ v.layout ≠ layout_type.column_major :=
  ⟨rfl, rfl, _, rfl, rfl, by decide⟩

/-- C8 (amended). For a source of dimension `n ≥ 2` and the fully reversed
permutation `(n-1, ..., 1, 0)`, `transpose(e, p)` succeeds and swaps the
layout: column_major for a row_major source, row_major for a column_major
source. -/
theorem transpose_reversal_swaps_layout {α : Type} (w : Nat) (tag : check_policy)
    (e : xexpression α)
    (hst : e.strides.length = e.shape.length) (hw : e.dimension < 2 ^ w)
    (hn : 2 ≤ e.dimension) :
    ∃ v, transpose_perm w e (as_permutation (List.range e.dimension).reverse) tag = .ok v ∧
      (e.layout = layout_type.row_major → v.layout = layout_type.column_major) ∧
      (e.layout = layout_type.column_major → v.layout = layout_type.row_major) := by
  have hp := is_axis_permutation_reverse_range e.dimension
  refine ⟨_, transpose_perm_natural w e _ tag hst hw hp.1 hp.2.1 (fun _ => hp.2.2), ?_, ?_⟩
  · intro h
    show new_layout e.layout _ = _
    rw [new_layout_reverse_range e.layout e.dimension hn, h]
    rfl
  · intro h
    show new_layout e.layout _ = _
    rw [new_layout_reverse_range e.layout e.dimension hn, h]
    rfl

/-- Witness of C8 (amended): the row-major (2, 3) example array and the
permutation (1, 0). -/
theorem transpose_reversal_swaps_layout_witness :
    example_array.strides.length = example_array.shape.length ∧
    example_array.dimension < 2 ^ 64 ∧ 2 ≤ example_array.dimension ∧
    example_array.layout = layout_type.row_major ∧
    ∃ v, transpose_perm 64 example_array
        (as_permutation (List.range example_array.dimension).reverse)
        check_policy.none = .ok v ∧
      (example_array.layout = layout_type.row_major → v.layout = layout_type.column_major) ∧
      (example_array.layout = layout_type.column_major → v.layout = layout_type.row_major) :=
  ⟨rfl, by decide, by decide, rfl,
    transpose_reversal_swaps_layout 64 check_policy.none example_array rfl (by decide)
      (by decide)⟩

/-- C9. For a source of dimension `n` and the identity permutation
`(0, 1, ..., n-1)`, `transpose(e, p)` succeeds and the view has the layout, the
shape and the strides of the source. -/
theorem transpose_identity {α : Type} (w : Nat) (tag : check_policy) (e : xexpression α)
    (hst : e.strides.length = e.shape.length) (hw : e.dimension < 2 ^ w) :
    ∃ v, transpose_perm w e (as_permutation (List.range e.dimension)) tag = .ok v ∧
      v.layout = e.layout ∧ v.shape = e.shape ∧ v.strides = e.strides := by
  have hp := is_axis_permutation_range e.dimension
  refine ⟨_, transpose_perm_natural w e _ tag hst hw hp.1 hp.2.1 (fun _ => hp.2.2), ?_, ?_, ?_⟩
  · exact new_layout_range e.layout e.dimension
  · exact map_range_getD e.shape
  · show (List.range e.dimension).map (fun k => e.strides.getD k 0) = e.strides
    unfold xexpression.dimension
    rw [← hst]
    exact map_range_getD e.strides

/-- Witness of C9: the (2, 3) example array and the permutation (0, 1). -/
theorem transpose_identity_witness :
    example_array.strides.length = example_array.shape.length ∧
    example_array.dimension < 2 ^ 64 ∧
    ∃ v, transpose_perm 64 example_array
        (as_permutation (List.range example_array.dimension)) check_policy.none = .ok v ∧
      v.layout = example_array.layout ∧ v.shape = example_array.shape ∧
      v.strides = example_array.strides :=
  ⟨rfl, by decide, transpose_identity 64 check_policy.none example_array rfl (by decide)⟩

/-- C10. For a permutation `p` of the axes that is neither the identity nor
the full reversal, `transpose(e, p)` succeeds and the view has the layout
dynamic, whatever the layout of the source. -/
theorem transpose_other_permutation_dynamic {α : Type} (w : Nat) (tag : check_policy)
    (e : xexpression α) (p : List Nat)
    (hst : e.strides.length = e.shape.length) (hw : e.dimension < 2 ^ w)
    (hp : is_axis_permutation e.dimension p)
    (h1 : p ≠ List.range e.dimension) (h2 : p ≠ (List.range e.dimension).reverse) :
    ∃ v, transpose_perm w e (as_permutation p) tag = .ok v ∧
      v.layout = layout_type.dynamic :=
  ⟨_, transpose_perm_natural w e p tag hst hw hp.1 hp.2.1 (fun _ => hp.2.2),
    new_layout_other e.layout e.dimension p hp h1 h2⟩

/-- Witness of C10: the row-major (2, 3, 4) example array and the permutation
(0, 2, 1). -/
theorem transpose_other_permutation_dynamic_witness :
    example_cube.strides.length = example_cube.shape.length ∧
    example_cube.dimension < 2 ^ 64 ∧
    is_axis_permutation example_cube.dimension [0, 2, 1] ∧
    [0, 2, 1] ≠ List.range example_cube.dimension ∧
    [0, 2, 1] ≠ (List.range example_cube.dimension).reverse ∧
    example_cube.layout = layout_type.row_major ∧
    ∃ v, transpose_perm 64 example_cube (as_permutation [0, 2, 1]) check_policy.none = .ok v ∧
      v.layout = layout_type.dynamic :=
  ⟨rfl, by decide, ⟨rfl, by decide, by decide⟩, by decide, by decide, rfl,
    transpose_other_permutation_dynamic 64 check_policy.none example_cube [0, 2, 1]
      rfl (by decide) ⟨rfl, by decide, by decide⟩ (by decide) (by decide)⟩

/-! ## Round trip of `transpose` -/

/-- C11 (round trip). For a source array `a` with raw offset 0,
`transpose(transpose(a))` has the shape and the strides of `a`, shares its
buffer, and its accessor returns at every multi-index, in particular at every
multi-index in bounds, what the accessor of `a` returns there. -/
theorem transpose_round_trip {α : Type} (w : Nat) (enable_assert : Bool) (a : xexpression α)
    (idx : List Nat) (hoff : a.raw_data_offset = 0) :
    (transpose w (transpose w a).as_expression).shape = a.shape ∧
    (transpose w (transpose w a).as_expression).strides = a.strides ∧
    (transpose w (transpose w a).as_expression).m_data = a.data ∧
    (transpose w (transpose w a).as_expression).index w idx = a.index w idx ∧
    (transpose w (transpose w a).as_expression).call w enable_assert idx =
      a.call w enable_assert idx := by
  have hsh : (transpose w (transpose w a).as_expression).shape = a.shape := by
    show std_copy (std_copy a.shape.reverse (resize_container a.shape.length)).reverse
      (resize_container (std_copy a.shape.reverse (resize_container a.shape.length)).length)
      = a.shape
    rw [std_copy_reverse_resize, std_copy_reverse_resize, List.reverse_reverse]
  have hst : (transpose w (transpose w a).as_expression).strides = a.strides := by
    show std_copy (std_copy a.strides.reverse (resize_container a.strides.length)).reverse
      (resize_container (std_copy a.strides.reverse (resize_container a.strides.length)).length)
      = a.strides
    rw [std_copy_reverse_resize, std_copy_reverse_resize, List.reverse_reverse]
  have hidx : (transpose w (transpose w a).as_expression).index w idx = a.index w idx := by
    unfold xstrided_view.index xexpression.index
    rw [hst, hoff]
    rfl
  refine ⟨hsh, hst, rfl, hidx, ?_⟩
  unfold xstrided_view.call xexpression.call
  rw [hsh, hidx]
  rfl

/-- Witness of C11: the (2, 3) example array at the multi-index (1, 2), where
both accessors return 6. -/
theorem transpose_round_trip_witness :
    example_array.raw_data_offset = 0 ∧
    in_bounds example_array.shape [1, 2] ∧
    example_array.call 64 true [1, 2] = .ok 6 ∧
    (transpose 64 (transpose 64 example_array).as_expression).shape = example_array.shape ∧
    (transpose 64 (transpose 64 example_array).as_expression).strides = example_array.strides ∧
    (transpose 64 (transpose 64 example_array).as_expression).m_data = example_array.data ∧
    (transpose 64 (transpose 64 example_array).as_expression).index 64 [1, 2] =
      example_array.index 64 [1, 2] ∧
    (transpose 64 (transpose 64 example_array).as_expression).call 64 true [1, 2] =
      example_array.call 64 true [1, 2] :=
  ⟨rfl, ⟨rfl, by decide⟩, rfl, transpose_round_trip 64 true example_array [1, 2] rfl⟩

/-! ## Element access -/

/-- C20. For a strided view with data handle `d`, offset `o` and strides `s`
(one per axis) and a multi-index `idx` with one index per axis, `operator()`
and `element(first, last)` both return `d[o + sum of s[i] * idx[i]]`, the
index computed in `size_type`; `operator()` does so whenever its index check
is compiled out, and also with the check when `idx` is in bounds. -/
theorem accessors_agree {CT α : Type} (w : Nat) (enable_assert : Bool)
    (v : xstrided_view CT (List α)) (idx : List Nat)
    (hst : v.strides.length = v.dimension) (hlen : idx.length = v.dimension)
    (hchk : enable_assert = true → in_bounds v.shape idx) :
    v.call w enable_assert idx =
      read v.m_data ((v.m_offset + ((List.range v.dimension).map
        (fun i => v.strides.getD i 0 * idx.getD i 0)).sum) % 2 ^ w) ∧
    v.element w idx =
      read v.m_data ((v.m_offset + ((List.range v.dimension).map
        (fun i => v.strides.getD i 0 * idx.getD i 0)).sum) % 2 ^ w) ∧
    v.call w enable_assert idx = v.element w idx := by
  have hoff : (v.m_offset + element_offset w v.strides idx) % 2 ^ w =
      (v.m_offset + ((List.range v.dimension).map
        (fun i => v.strides.getD i 0 * idx.getD i 0)).sum) % 2 ^ w := by
    unfold element_offset
    rw [hlen, hst, Nat.sub_self, List.drop_zero,
      zipWith_mul_eq_map_range v.strides idx v.dimension hst hlen, Nat.add_mod_mod]
  have hcall : v.call w enable_assert idx = v.element w idx := by
    unfold xstrided_view.call xstrided_view.element xstrided_view.index
    cases enable_assert with
    | false => rfl
    | true =>
      simp only [XTENSOR_TRY, if_true]
      rw [check_index_ok _ _ (hchk rfl)]
      rfl
  have helem : v.element w idx =
      read v.m_data ((v.m_offset + ((List.range v.dimension).map
        (fun i => v.strides.getD i 0 * idx.getD i 0)).sum) % 2 ^ w) := by
    unfold xstrided_view.element
    rw [hoff]
  exact ⟨hcall.trans helem, helem, hcall⟩

/-- Witness of C20: the view `offset_view` (offset 1, strides (1)) at the
multi-index (1), where both accessors return the buffer element 2, which is
30. -/
theorem accessors_agree_witness :
    offset_view.strides.length = offset_view.dimension ∧
    [1].length = offset_view.dimension ∧
    in_bounds offset_view.shape [1] ∧
    offset_view.element 64 [1] = .ok 30 ∧
    (offset_view.call 64 true [1] =
      read offset_view.m_data ((offset_view.m_offset + ((List.range offset_view.dimension).map
        (fun i => offset_view.strides.getD i 0 * [1].getD i 0)).sum) % 2 ^ 64) ∧
    offset_view.element 64 [1] =
      read offset_view.m_data ((offset_view.m_offset + ((List.range offset_view.dimension).map
        (fun i => offset_view.strides.getD i 0 * [1].getD i 0)).sum) % 2 ^ 64) ∧
    offset_view.call 64 true [1] = offset_view.element 64 [1]) :=
  ⟨rfl, rfl, ⟨rfl, by decide⟩, rfl,
    accessors_agree 64 true offset_view [1] rfl rfl (fun _ => ⟨rfl, by decide⟩)⟩

/-! ## Lemmas on `dynamic_view` -/

theorem write_eq_ok {β : Type} (l : List β) (i : Nat) (x : β) (h : i < l.length) :
    write l i x = .ok (l.set i x) := by
  simp [write, h]

theorem length_sliced_shape (w : Nat) (slices : List slice_variant) :
    ∀ shape, (sliced_shape w slices shape).length = produced_axes slices := by
  induction slices with
  | nil => intro _; rfl
  | cons sl rest ih =>
    intro shape
    cases sl <;> simp [sliced_shape, produced_axes, ih]

theorem length_sliced_strides (w : Nat) (slices : List slice_variant) :
    ∀ shape strides, (sliced_strides w slices shape strides).length = produced_axes slices := by
  induction slices with
  | nil => intro _ _; rfl
  | cons sl rest ih =>
    intro shape strides
    cases sl <;> simp [sliced_strides, produced_axes, ih]

theorem drop_headD_tail (l : List Nat) (a : Nat) (h : a < l.length) :
    (l.drop a).headD 0 = l[a] ∧ (l.drop a).tail = l.drop (a + 1) := by
  rw [List.drop_eq_getElem_cons h]
  exact ⟨rfl, rfl⟩

theorem set_splice {β : Type} (l p : List β) (i : Nat) (x : β) (h : i + p.length < l.length) :
    (l.set i x).take (i + 1) ++ p ++ (l.set i x).drop (i + 1 + p.length) =
      l.take i ++ (x :: p) ++ l.drop (i + (x :: p).length) := by
  rw [take_succ_set l i x (by omega), List.drop_set_of_lt _ _ (by omega)]
  simp [Nat.add_assoc, Nat.add_comm 1]

theorem slice_loop_eq (w : Nat) (old_shape old_strides : List Nat)
    (hst : old_strides.length = old_shape.length) (slices : List slice_variant) :
    ∀ (i : Nat) (st : view_state), st.newaxis_skip ≤ i →
      (i - st.newaxis_skip) + consumed_axes slices ≤ old_shape.length →
      st.idx + produced_axes slices ≤ st.new_shape.length →
      st.new_strides.length = st.new_shape.length →
      slice_loop w old_shape old_strides slices i st =
        .ok (i + slices.length,
          { offset := sliced_offset w slices (old_shape.drop (i - st.newaxis_skip))
              (old_strides.drop (i - st.newaxis_skip)) st.offset,
            new_shape := st.new_shape.take st.idx ++
              sliced_shape w slices (old_shape.drop (i - st.newaxis_skip)) ++
              st.new_shape.drop (st.idx + produced_axes slices),
            new_strides := st.new_strides.take st.idx ++
              sliced_strides w slices (old_shape.drop (i - st.newaxis_skip))
                (old_strides.drop (i - st.newaxis_skip)) ++
              st.new_strides.drop (st.idx + produced_axes slices),
            idx := st.idx + produced_axes slices,
            newaxis_skip := st.newaxis_skip + count_newaxis slices }) := by
  induction slices with
  | nil =>
    intro i st _ _ _ _
    simp [slice_loop, sliced_offset, sliced_shape, sliced_strides, produced_axes,
      count_newaxis]
  | cons sl rest ih =>
    intro i st hskip hcons hprod hlen
    cases sl with
    | index c =>
      simp only [consumed_axes, produced_axes] at hcons hprod
      have ha : i - st.newaxis_skip < old_shape.length := by omega
      have ha2 : i - st.newaxis_skip < old_strides.length := by omega
      have hnext : i + 1 - st.newaxis_skip = i - st.newaxis_skip + 1 := by omega
      obtain ⟨h1, h2⟩ := drop_headD_tail old_shape _ ha
      obtain ⟨h3, h4⟩ := drop_headD_tail old_strides _ ha2
      rw [slice_loop]
      simp only [slice_step, bind, Except.bind, read_eq_ok old_strides _ ha2]
      rw [ih (i + 1) _ (by simp; omega) (by simp only [hnext]; omega) (by simpa using hprod)
        (by simpa using hlen)]
      simp only [hnext, sliced_offset, sliced_shape, sliced_strides, produced_axes,
        count_newaxis, h2, h3, h4, List.length_cons]
      simp [Nat.add_assoc, Nat.add_comm 1]
    | range_adaptor get =>
      simp only [consumed_axes, produced_axes] at hcons hprod
      have ha : i - st.newaxis_skip < old_shape.length := by omega
      have ha2 : i - st.newaxis_skip < old_strides.length := by omega
      have hnext : i + 1 - st.newaxis_skip = i - st.newaxis_skip + 1 := by omega
      obtain ⟨h1, h2⟩ := drop_headD_tail old_shape _ ha
      obtain ⟨h3, h4⟩ := drop_headD_tail old_strides _ ha2
      rw [slice_loop]
      simp only [slice_step, slice_getter_impl, bind, Except.bind, read_eq_ok old_strides _ ha2,
        read_eq_ok old_shape _ ha,
        write_eq_ok st.new_shape st.idx _ (by omega),
        write_eq_ok st.new_strides st.idx _ (by omega)]
      rw [ih (i + 1) _ (by simp; omega) (by simp only [hnext]; omega)
        (by simp only [List.length_set]; omega) (by simpa using hlen)]
      simp only [hnext, sliced_offset, sliced_shape, sliced_strides, produced_axes,
        count_newaxis, h1, h2, h3, h4, List.length_cons]
      have e1 := set_splice st.new_shape
        (sliced_shape w rest (old_shape.drop (i - st.newaxis_skip + 1))) st.idx
        (to_size_t w (get old_shape[i - st.newaxis_skip]).2.1)
        (by rw [length_sliced_shape]; omega)
      have e2 := set_splice st.new_strides
        (sliced_strides w rest (old_shape.drop (i - st.newaxis_skip + 1))
          (old_strides.drop (i - st.newaxis_skip + 1))) st.idx
        ((to_size_t w (get old_shape[i - st.newaxis_skip]).2.2 *
          old_strides[i - st.newaxis_skip]) % 2 ^ w)
        (by rw [length_sliced_strides]; omega)
      rw [length_sliced_shape] at e1
      rw [length_sliced_strides] at e2
      simp only [List.length_cons, length_sliced_shape, length_sliced_strides] at e1 e2
      rw [e1, e2]
      simp [Nat.add_assoc, Nat.add_comm 1]
    | all =>
      simp only [consumed_axes, produced_axes] at hcons hprod
      have ha : i - st.newaxis_skip < old_shape.length := by omega
      have ha2 : i - st.newaxis_skip < old_strides.length := by omega
      have hnext : i + 1 - st.newaxis_skip = i - st.newaxis_skip + 1 := by omega
      obtain ⟨h1, h2⟩ := drop_headD_tail old_shape _ ha
      obtain ⟨h3, h4⟩ := drop_headD_tail old_strides _ ha2
      rw [slice_loop]
      simp only [slice_step, bind, Except.bind, read_eq_ok old_strides _ ha2,
        read_eq_ok old_shape _ ha,
        write_eq_ok st.new_shape st.idx _ (by omega),
        write_eq_ok st.new_strides st.idx _ (by omega)]
      rw [ih (i + 1) _ (by simp; omega) (by simp only [hnext]; omega)
        (by simp only [List.length_set]; omega) (by simpa using hlen)]
      simp only [hnext, sliced_offset, sliced_shape, sliced_strides, produced_axes,
        count_newaxis, h1, h2, h3, h4, List.length_cons]
      have e1 := set_splice st.new_shape
        (sliced_shape w rest (old_shape.drop (i - st.newaxis_skip + 1))) st.idx
        old_shape[i - st.newaxis_skip]
        (by rw [length_sliced_shape]; omega)
      have e2 := set_splice st.new_strides
        (sliced_strides w rest (old_shape.drop (i - st.newaxis_skip + 1))
          (old_strides.drop (i - st.newaxis_skip + 1))) st.idx
        old_strides[i - st.newaxis_skip]
        (by rw [length_sliced_strides]; omega)
      simp only [List.length_cons, length_sliced_shape, length_sliced_strides] at e1 e2
      rw [e1, e2]
      simp [Nat.add_assoc, Nat.add_comm 1]
    | newaxis =>
      simp only [consumed_axes, produced_axes] at hcons hprod
      have hnext : i + 1 - (st.newaxis_skip + 1) = i - st.newaxis_skip := by omega
      rw [slice_loop]
      simp only [slice_step, bind, Except.bind,
        write_eq_ok st.new_shape st.idx _ (by omega),
        write_eq_ok st.new_strides st.idx _ (by omega)]
      rw [ih (i + 1) _ (by simp; omega) (by simp only [hnext]; omega)
        (by simp only [List.length_set]; omega) (by simpa using hlen)]
      simp only [hnext, sliced_offset, sliced_shape, sliced_strides, produced_axes,
        count_newaxis, List.length_cons]
      have e1 := set_splice st.new_shape
        (sliced_shape w rest (old_shape.drop (i - st.newaxis_skip))) st.idx 1
        (by rw [length_sliced_shape]; omega)
      have e2 := set_splice st.new_strides
        (sliced_strides w rest (old_shape.drop (i - st.newaxis_skip))
          (old_strides.drop (i - st.newaxis_skip))) st.idx 0
        (by rw [length_sliced_strides]; omega)
      simp only [List.length_cons, length_sliced_shape, length_sliced_strides] at e1 e2
      rw [e1, e2]
      simp [Nat.add_assoc, Nat.add_comm 1]

theorem trailing_loop_eq (old_shape old_strides : List Nat)
    (hst : old_strides.length = old_shape.length) :
    ∀ (k i : Nat) (st : view_state), st.newaxis_skip ≤ i →
      (i - st.newaxis_skip) + k = old_shape.length →
      st.idx + k ≤ st.new_shape.length →
      st.new_strides.length = st.new_shape.length →
      trailing_loop old_shape old_strides k i st =
        .ok { st with
          new_shape := st.new_shape.take st.idx ++ old_shape.drop (i - st.newaxis_skip) ++
            st.new_shape.drop (st.idx + k),
          new_strides := st.new_strides.take st.idx ++
            old_strides.drop (i - st.newaxis_skip) ++ st.new_strides.drop (st.idx + k),
          idx := st.idx + k } := by
  intro k
  induction k with
  | zero =>
    intro i st _ ha _ _
    have h1 : old_shape.drop (i - st.newaxis_skip) = [] :=
      List.drop_eq_nil_of_le (by omega)
    have h2 : old_strides.drop (i - st.newaxis_skip) = [] :=
      List.drop_eq_nil_of_le (by omega)
    simp [trailing_loop, h1, h2]
  | succ k ih =>
    intro i st hskip hk hprod hlen
    have ha : i - st.newaxis_skip < old_shape.length := by omega
    have ha2 : i - st.newaxis_skip < old_strides.length := by omega
    have hnext : i + 1 - st.newaxis_skip = i - st.newaxis_skip + 1 := by omega
    rw [trailing_loop]
    simp only [bind, Except.bind, read_eq_ok old_strides _ ha2, read_eq_ok old_shape _ ha,
      write_eq_ok st.new_shape st.idx _ (by omega),
      write_eq_ok st.new_strides st.idx _ (by omega)]
    rw [ih (i + 1) _ (by simp; omega) (by simp only [hnext]; omega)
      (by simp only [List.length_set]; omega) (by simpa using hlen)]
    simp only [hnext]
    have e1 := set_splice st.new_shape (old_shape.drop (i - st.newaxis_skip + 1)) st.idx
      old_shape[i - st.newaxis_skip] (by rw [List.length_drop]; omega)
    have e2 := set_splice st.new_strides (old_strides.drop (i - st.newaxis_skip + 1)) st.idx
      old_strides[i - st.newaxis_skip] (by rw [List.length_drop]; omega)
    simp only [List.length_cons, List.length_drop] at e1 e2
    have hk1 : old_shape.length - (i - st.newaxis_skip + 1) = k := by omega
    have hk2 : old_strides.length - (i - st.newaxis_skip + 1) = k := by omega
    rw [hk1] at e1
    rw [hk2] at e2
    rw [List.drop_eq_getElem_cons ha, List.drop_eq_getElem_cons ha2]
    simp only [Nat.add_assoc, Nat.add_comm 1 k] at e1 e2 ⊢
    rw [e1, e2]

theorem consumed_add_newaxis (slices : List slice_variant) :
    consumed_axes slices + count_newaxis slices = slices.length := by
  induction slices with
  | nil => rfl
  | cons sl rest ih => cases sl <;> simp [consumed_axes, count_newaxis] <;> omega

theorem produced_add_index (slices : List slice_variant) :
    produced_axes slices + count_index slices = slices.length := by
  induction slices with
  | nil => rfl
  | cons sl rest ih => cases sl <;> simp [produced_axes, count_index] <;> omega

theorem compute_dimension_lt (w : Nat) (slices : List slice_variant) :
    ∀ d, d < 2 ^ w → compute_dimension w slices d < 2 ^ w := by
  induction slices with
  | nil => intro d h; exact h
  | cons sl rest ih =>
    intro d h
    cases sl with
    | index c => exact ih _ (Nat.mod_lt _ (by positivity))
    | newaxis => exact ih _ (Nat.mod_lt _ (by positivity))
    | all => exact ih _ h
    | range_adaptor g => exact ih _ h

theorem compute_dimension_modEq (w : Nat) (slices : List slice_variant) :
    ∀ d, compute_dimension w slices d + count_index slices ≡
      d + count_newaxis slices [MOD 2 ^ w] := by
  induction slices with
  | nil => intro d; exact Nat.ModEq.refl _
  | cons sl rest ih =>
    intro d
    cases sl with
    | index c =>
      have h := ih ((d + (2 ^ w - 1)) % 2 ^ w)
      simp only [compute_dimension, count_index, count_newaxis]
      have hpos : 0 < 2 ^ w := by positivity
      have h2 : (d + (2 ^ w - 1)) % 2 ^ w + 1 ≡ d [MOD 2 ^ w] := by
        have h3 : (d + (2 ^ w - 1)) % 2 ^ w ≡ d + (2 ^ w - 1) [MOD 2 ^ w] := Nat.mod_modEq _ _
        have h4 := h3.add_right 1
        have h5 : d + (2 ^ w - 1) + 1 = d + 2 ^ w := by omega
        rw [h5] at h4
        exact h4.trans (by simp [Nat.ModEq])
      calc compute_dimension w rest ((d + (2 ^ w - 1)) % 2 ^ w) + (count_index rest + 1)
          = compute_dimension w rest ((d + (2 ^ w - 1)) % 2 ^ w) + count_index rest + 1 := by
            omega
        _ ≡ (d + (2 ^ w - 1)) % 2 ^ w + count_newaxis rest + 1 [MOD 2 ^ w] := h.add_right 1
        _ = (d + (2 ^ w - 1)) % 2 ^ w + 1 + count_newaxis rest := by omega
        _ ≡ d + count_newaxis rest [MOD 2 ^ w] := h2.add_right _
    | newaxis =>
      have h := ih ((d + 1) % 2 ^ w)
      simp only [compute_dimension, count_index, count_newaxis]
      have h3 : (d + 1) % 2 ^ w ≡ d + 1 [MOD 2 ^ w] := Nat.mod_modEq _ _
      calc compute_dimension w rest ((d + 1) % 2 ^ w) + count_index rest
          ≡ (d + 1) % 2 ^ w + count_newaxis rest [MOD 2 ^ w] := h
        _ ≡ d + 1 + count_newaxis rest [MOD 2 ^ w] := h3.add_right _
        _ = d + (count_newaxis rest + 1) := by omega
    | all => exact ih d
    | range_adaptor g => exact ih d

theorem compute_dimension_eq (w : Nat) (slices : List slice_variant) (d : Nat)
    (hd : d + count_newaxis slices < 2 ^ w) (hI : count_index slices ≤ d + count_newaxis slices) :
    compute_dimension w slices d = d + count_newaxis slices - count_index slices := by
  have h1 := compute_dimension_modEq w slices d
  have h2 : compute_dimension w slices d < 2 ^ w := compute_dimension_lt w slices d (by omega)
  have h3 : d + count_newaxis slices =
      (d + count_newaxis slices - count_index slices) + count_index slices := by omega
  rw [h3] at h1
  have h4 := Nat.ModEq.add_right_cancel' _ h1
  unfold Nat.ModEq at h4
  rw [Nat.mod_eq_of_lt h2, Nat.mod_eq_of_lt (by omega)] at h4
  exact h4

theorem count_index_le_consumed (slices : List slice_variant) :
    count_index slices ≤ consumed_axes slices := by
  induction slices with
  | nil => exact Nat.le_refl _
  | cons sl rest ih => cases sl <;> simp [consumed_axes, count_index] <;> omega

theorem dynamic_view_geometry_eq (w : Nat) (shape strides : List Nat) (offset : Nat)
    (slices : List slice_variant)
    (hst : strides.length = shape.length)
    (hcons : consumed_axes slices ≤ shape.length)
    (hd : shape.length + count_newaxis slices < 2 ^ w) :
    dynamic_view_geometry w shape strides offset slices =
      .ok (expected_shape w slices shape, expected_strides w slices shape strides,
        sliced_offset w slices shape strides offset) := by
  have hI := count_index_le_consumed slices
  have h1 := consumed_add_newaxis slices
  have h2 := produced_add_index slices
  have hdim := compute_dimension_eq w slices shape.length hd (by omega)
  have hdim2 : compute_dimension w slices shape.length =
      produced_axes slices + (shape.length - consumed_axes slices) := by omega
  unfold dynamic_view_geometry
  simp only [hdim2]
  rw [slice_loop_eq w shape strides hst slices 0 _ (Nat.le_refl _)
    (by simpa using hcons) (by simp) (by simp)]
  simp only [bind, Except.bind, Nat.sub_zero, List.drop_zero, List.take_zero, List.nil_append,
    Nat.zero_add]
  have hi : slices.length - count_newaxis slices = consumed_axes slices := by omega
  rw [trailing_loop_eq shape strides hst _ _ _ (by simp; omega) (by simp only [hi]; omega)
    (by simp [length_sliced_shape]; omega)
    (by simp [length_sliced_shape, length_sliced_strides])]
  simp only [hi, expected_shape, expected_strides]
  have e1 : ∀ (p t : List Nat) (k : Nat), p.length = produced_axes slices → t.length = k →
      (p ++ (List.replicate (produced_axes slices + k) 0).drop (produced_axes slices)).take
          (produced_axes slices) ++ t ++
        (p ++ (List.replicate (produced_axes slices + k) 0).drop (produced_axes slices)).drop
          (produced_axes slices + k) = p ++ t := by
    intro p t k hp ht
    rw [List.take_append_of_le_length (by omega), List.take_of_length_le (by omega),
      List.drop_eq_nil_of_le (by simp [hp]), List.append_nil]
  rw [e1 _ _ _ (length_sliced_shape w slices shape) (by simp),
    e1 _ _ _ (length_sliced_strides w slices shape strides) (by simp [hst])]

theorem dynamic_view_eq {α : Type} (w : Nat) (e : xexpression α) (slices : List slice_variant)
    (hst : e.strides.length = e.shape.length)
    (hcons : consumed_axes slices ≤ e.shape.length)
    (hd : e.shape.length + count_newaxis slices < 2 ^ w) :
    dynamic_view w e slices =
      .ok (xstrided_view.mk_data w e e.data (expected_shape w slices e.shape)
        (expected_strides w slices e.shape e.strides)
        (sliced_offset w slices e.shape e.strides e.raw_data_offset) layout_type.dynamic) := by
  unfold dynamic_view
  rw [dynamic_view_geometry_eq w e.shape e.strides e.raw_data_offset slices hst hcons hd]
  rfl

theorem sliced_offset_lt (w : Nat) (slices : List slice_variant) :
    ∀ shape strides offset, offset < 2 ^ w →
      sliced_offset w slices shape strides offset < 2 ^ w := by
  induction slices with
  | nil => intro _ _ o h; exact h
  | cons sl rest ih =>
    intro shape strides o h
    cases sl with
    | index c => exact ih _ _ _ (Nat.mod_lt _ (by positivity))
    | range_adaptor g => exact ih _ _ _ (Nat.mod_lt _ (by positivity))
    | all => exact ih _ _ _ h
    | newaxis => exact ih _ _ _ h

theorem sliced_offset_modEq (w : Nat) (slices : List slice_variant) :
    ∀ shape strides offset,
      sliced_offset w slices shape strides offset ≡
        offset + start_offsets w slices shape strides [MOD 2 ^ w] := by
  induction slices with
  | nil => intro _ _ o; exact Nat.ModEq.refl _
  | cons sl rest ih =>
    intro shape strides o
    cases sl with
    | index c =>
      simp only [sliced_offset, start_offsets]
      refine (ih _ _ _).trans ?_
      have h1 : (o + to_size_t w c * strides.headD 0 % 2 ^ w) % 2 ^ w ≡
          o + to_size_t w c * strides.headD 0 [MOD 2 ^ w] :=
        (Nat.mod_modEq _ _).trans ((Nat.mod_modEq _ _).add_left o)
      rw [← Nat.add_assoc]
      exact h1.add_right _
    | range_adaptor g =>
      simp only [sliced_offset, start_offsets]
      refine (ih _ _ _).trans ?_
      have h1 : (o + to_size_t w (g (shape.headD 0)).1 * strides.headD 0 % 2 ^ w) % 2 ^ w ≡
          o + to_size_t w (g (shape.headD 0)).1 * strides.headD 0 [MOD 2 ^ w] :=
        (Nat.mod_modEq _ _).trans ((Nat.mod_modEq _ _).add_left o)
      rw [← Nat.add_assoc]
      exact h1.add_right _
    | all => exact ih _ _ _
    | newaxis => exact ih _ _ _

theorem sliced_offset_eq (w : Nat) (slices : List slice_variant) (shape strides : List Nat)
    (offset : Nat) (h : offset < 2 ^ w) :
    sliced_offset w slices shape strides offset =
      (offset + start_offsets w slices shape strides) % 2 ^ w := by
  have h1 := sliced_offset_modEq w slices shape strides offset
  unfold Nat.ModEq at h1
  rw [Nat.mod_eq_of_lt (sliced_offset_lt w slices shape strides offset h)] at h1
  exact h1

theorem drop_succ_tail {β : Type} (l : List β) (n : Nat) : l.drop (n + 1) = l.tail.drop n := by
  cases l <;> simp

theorem expected_strides_index (w : Nat) (c : Int) (rest : List slice_variant)
    (shape strides : List Nat) :
    expected_strides w (slice_variant.index c :: rest) shape strides =
      expected_strides w rest shape.tail strides.tail := by
  simp only [expected_strides, sliced_strides, consumed_axes, drop_succ_tail, List.cons_append]

theorem expected_strides_newaxis (w : Nat) (rest : List slice_variant)
    (shape strides : List Nat) :
    expected_strides w (slice_variant.newaxis :: rest) shape strides =
      0 :: expected_strides w rest shape strides := by
  simp [expected_strides, sliced_strides, consumed_axes]

theorem expected_strides_all (w : Nat) (rest : List slice_variant)
    (shape strides : List Nat) :
    expected_strides w (slice_variant.all :: rest) shape strides =
      strides.headD 0 :: expected_strides w rest shape.tail strides.tail := by
  simp only [expected_strides, sliced_strides, consumed_axes, drop_succ_tail, List.cons_append]

theorem expected_strides_range (w : Nat) (g : Nat → Int × Int × Int)
    (rest : List slice_variant) (shape strides : List Nat) :
    expected_strides w (slice_variant.range_adaptor g :: rest) shape strides =
      (to_size_t w (g (shape.headD 0)).2.2 * strides.headD 0) % 2 ^ w ::
        expected_strides w rest shape.tail strides.tail := by
  simp only [expected_strides, sliced_strides, consumed_axes, drop_succ_tail, List.cons_append]

theorem dot_cons_left (a : Nat) (l idx : List Nat) :
    (List.zipWith (fun s x => s * x) (a :: l) idx).sum =
      a * idx.headD 0 + (List.zipWith (fun s x => s * x) l idx.tail).sum := by
  cases idx <;> simp

theorem dot_cons_right (st : List Nat) (c : Nat) (cs : List Nat) :
    (List.zipWith (fun s x => s * x) st (c :: cs)).sum =
      st.headD 0 * c + (List.zipWith (fun s x => s * x) st.tail cs).sum := by
  cases st <;> simp

theorem to_size_t_cast (w : Nat) (x : Int) :
    ((to_size_t w x : Nat) : ZMod (2 ^ w)) = ((x : Int) : ZMod (2 ^ w)) := by
  unfold to_size_t
  have hpos : (0 : Int) < ((2 ^ w : Nat) : Int) := by positivity
  have h1 : ((x % ((2 ^ w : Nat) : Int)).toNat : Int) = x % ((2 ^ w : Nat) : Int) :=
    Int.toNat_of_nonneg (Int.emod_nonneg _ (ne_of_gt hpos))
  have h2 : (((x % ((2 ^ w : Nat) : Int)).toNat : Nat) : ZMod (2 ^ w)) =
      (((x % ((2 ^ w : Nat) : Int)).toNat : Int) : ZMod (2 ^ w)) :=
    (Int.cast_natCast _).symm
  rw [h2, h1, ZMod.intCast_mod]

theorem view_offset_cast (w : Nat) (slices : List slice_variant) :
    ∀ (shape strides : List Nat) (offset : Nat) (idx coords : List Nat),
      coords.map Int.ofNat = source_index slices shape idx →
      ((sliced_offset w slices shape strides offset +
          (List.zipWith (fun s x => s * x) (expected_strides w slices shape strides) idx).sum :
          Nat) : ZMod (2 ^ w)) =
        ((offset + (List.zipWith (fun s x => s * x) strides coords).sum : Nat) :
          ZMod (2 ^ w)) := by
  induction slices with
  | nil =>
    intro shape strides o idx coords h
    have hc : coords = idx := List.map_injective_iff.mpr Int.ofNat_injective h
    subst hc
    simp [sliced_offset, expected_strides, sliced_strides, consumed_axes]
  | cons sl rest ih =>
    intro shape strides o idx coords h
    cases sl with
    | index c =>
      cases coords with
      | nil => simp [source_index] at h
      | cons c0 cs =>
        simp only [source_index, List.map_cons, List.cons.injEq] at h
        obtain ⟨h0, hcs⟩ := h
        have hih := ih shape.tail strides.tail
          ((o + (to_size_t w c * strides.headD 0) % 2 ^ w) % 2 ^ w) idx cs hcs
        rw [expected_strides_index, dot_cons_right]
        simp only [sliced_offset]
        have hc0 : ((c0 : Nat) : ZMod (2 ^ w)) = ((c : Int) : ZMod (2 ^ w)) := by
          rw [← h0]; simp
        push_cast at hih ⊢
        rw [hc0]
        rw [ZMod.natCast_mod, Nat.cast_add, ZMod.natCast_mod, Nat.cast_mul, to_size_t_cast]
          at hih
        linear_combination hih
    | newaxis =>
      simp only [source_index] at h
      have hih := ih shape strides o idx.tail coords h
      rw [expected_strides_newaxis, dot_cons_left]
      simp only [sliced_offset]
      push_cast at hih ⊢
      linear_combination hih
    | all =>
      cases coords with
      | nil => simp [source_index] at h
      | cons c0 cs =>
        simp only [source_index, List.map_cons, List.cons.injEq] at h
        obtain ⟨h0, hcs⟩ := h
        have hih := ih shape.tail strides.tail o idx.tail cs hcs
        rw [expected_strides_all, dot_cons_left, dot_cons_right]
        simp only [sliced_offset]
        have hc0 : c0 = idx.headD 0 := Int.ofNat_injective h0
        subst hc0
        push_cast at hih ⊢
        linear_combination hih
    | range_adaptor g =>
      cases coords with
      | nil => simp [source_index] at h
      | cons c0 cs =>
        simp only [source_index, List.map_cons, List.cons.injEq] at h
        obtain ⟨h0, hcs⟩ := h
        have hih := ih shape.tail strides.tail
          ((o + (to_size_t w (g (shape.headD 0)).1 * strides.headD 0) % 2 ^ w) % 2 ^ w)
          idx.tail cs hcs
        rw [expected_strides_range, dot_cons_left, dot_cons_right]
        simp only [sliced_offset]
        have hc0 : ((c0 : Nat) : ZMod (2 ^ w)) =
            (((g (shape.headD 0)).1 : Int) : ZMod (2 ^ w)) +
              ((idx.headD 0 : Nat) : ZMod (2 ^ w)) *
                (((g (shape.headD 0)).2.2 : Int) : ZMod (2 ^ w)) := by
          have : ((c0 : Nat) : ZMod (2 ^ w)) = (((Int.ofNat c0 : Int)) : ZMod (2 ^ w)) := by
            simp
          rw [this, h0]
          push_cast
          simp
        push_cast at hih ⊢
        rw [hc0]
        rw [ZMod.natCast_mod, Nat.cast_add, ZMod.natCast_mod, Nat.cast_mul, to_size_t_cast]
          at hih
        rw [ZMod.natCast_mod, Nat.cast_mul, to_size_t_cast]
        linear_combination hih

theorem length_expected_shape (w : Nat) (slices : List slice_variant) (shape : List Nat) :
    (expected_shape w slices shape).length =
      produced_axes slices + (shape.length - consumed_axes slices) := by
  simp [expected_shape, length_sliced_shape]

theorem length_expected_strides (w : Nat) (slices : List slice_variant)
    (shape strides : List Nat) :
    (expected_strides w slices shape strides).length =
      produced_axes slices + (strides.length - consumed_axes slices) := by
  simp [expected_strides, length_sliced_strides]

theorem length_source_index (slices : List slice_variant) :
    ∀ (shape idx : List Nat), (source_index slices shape idx).length =
      consumed_axes slices + (idx.length - produced_axes slices) := by
  induction slices with
  | nil => intro _ idx; simp [source_index, consumed_axes, produced_axes]
  | cons sl rest ih =>
    intro shape idx
    cases sl <;> simp [source_index, consumed_axes, produced_axes, ih] <;> omega

theorem element_offset_same_length (w : Nat) (strides idx : List Nat)
    (h : idx.length = strides.length) :
    element_offset w strides idx =
      (List.zipWith (fun s x => s * x) strides idx).sum % 2 ^ w := by
  unfold element_offset
  rw [h, Nat.sub_self, List.drop_zero]

theorem dynamic_view_index_eq {α : Type} (w : Nat) (e : xexpression α)
    (slices : List slice_variant) (idx coords : List Nat)
    (hst : e.strides.length = e.shape.length)
    (hcons : consumed_axes slices ≤ e.shape.length)
    (hidx : idx.length = (expected_shape w slices e.shape).length)
    (hcoords : coords.map Int.ofNat = source_index slices e.shape idx) :
    (xstrided_view.mk_data w e e.data (expected_shape w slices e.shape)
        (expected_strides w slices e.shape e.strides)
        (sliced_offset w slices e.shape e.strides e.raw_data_offset)
        layout_type.dynamic).index w idx = e.index w coords := by
  have hlen1 : idx.length = (expected_strides w slices e.shape e.strides).length := by
    rw [hidx, length_expected_shape, length_expected_strides, hst]
  have hlen2 : coords.length = e.strides.length := by
    have := congrArg List.length hcoords
    rw [List.length_map, length_source_index, hidx, length_expected_shape] at this
    omega
  unfold xstrided_view.index xexpression.index
  simp only [xstrided_view.strides, xstrided_view.mk_data]
  rw [element_offset_same_length w _ idx hlen1, element_offset_same_length w _ coords hlen2,
    Nat.add_mod_mod, Nat.add_mod_mod]
  exact (ZMod.natCast_eq_natCast_iff' _ _ _).mp
    (view_offset_cast w slices e.shape e.strides e.raw_data_offset idx coords hcoords)

theorem call_eq_of_index_eq {α : Type} (w : Nat) (enable_assert : Bool)
    (v : xstrided_view (xexpression α) (List α)) (e : xexpression α) (idx coords : List Nat)
    (hdata : v.m_data = e.data) (hindex : v.index w idx = e.index w coords)
    (hin : in_bounds v.shape idx)
    (hchk : enable_assert = true → in_bounds e.shape coords) :
    v.call w enable_assert idx = e.call w enable_assert coords := by
  unfold xstrided_view.call xexpression.call
  rw [hindex, hdata]
  cases enable_assert with
  | false => rfl
  | true =>
    simp only [XTENSOR_TRY, if_true]
    rw [check_index_ok _ _ hin, check_index_ok _ _ (hchk rfl)]

theorem consumed_all_append (k : Nat) (rest : List slice_variant) :
    consumed_axes (List.replicate k slice_variant.all ++ rest) = k + consumed_axes rest := by
  induction k with
  | zero => simp
  | succ k ih =>
    show consumed_axes (slice_variant.all :: (List.replicate k slice_variant.all ++ rest)) = _
    simp only [consumed_axes, ih]
    omega

theorem count_newaxis_all_append (k : Nat) (rest : List slice_variant) :
    count_newaxis (List.replicate k slice_variant.all ++ rest) = count_newaxis rest := by
  induction k with
  | zero => simp
  | succ k ih =>
    show count_newaxis (slice_variant.all :: (List.replicate k slice_variant.all ++ rest)) = _
    simp only [count_newaxis, ih]

theorem count_index_all_append (k : Nat) (rest : List slice_variant) :
    count_index (List.replicate k slice_variant.all ++ rest) = count_index rest := by
  induction k with
  | zero => simp
  | succ k ih =>
    show count_index (slice_variant.all :: (List.replicate k slice_variant.all ++ rest)) = _
    simp only [count_index, ih]

theorem sliced_shape_all_append (w : Nat) (rest : List slice_variant) :
    ∀ (k : Nat) (shape : List Nat), k ≤ shape.length →
      sliced_shape w (List.replicate k slice_variant.all ++ rest) shape =
        shape.take k ++ sliced_shape w rest (shape.drop k) := by
  intro k
  induction k with
  | zero => intro shape _; simp
  | succ k ih =>
    intro shape hk
    cases shape with
    | nil => simp at hk
    | cons x t =>
      simp only [List.length_cons, Nat.add_le_add_iff_right] at hk
      show sliced_shape w (slice_variant.all :: (List.replicate k slice_variant.all ++ rest))
        (x :: t) = _
      simp [sliced_shape, ih t hk]

theorem sliced_strides_all_append (w : Nat) (rest : List slice_variant) :
    ∀ (k : Nat) (shape strides : List Nat), k ≤ strides.length →
      sliced_strides w (List.replicate k slice_variant.all ++ rest) shape strides =
        strides.take k ++ sliced_strides w rest (shape.drop k) (strides.drop k) := by
  intro k
  induction k with
  | zero => intro shape strides _; simp
  | succ k ih =>
    intro shape strides hk
    cases strides with
    | nil => simp at hk
    | cons x t =>
      simp only [List.length_cons, Nat.add_le_add_iff_right] at hk
      show sliced_strides w (slice_variant.all :: (List.replicate k slice_variant.all ++ rest))
        shape (x :: t) = _
      rw [drop_succ_tail shape k]
      simp [sliced_strides, ih shape.tail t hk]

theorem sliced_offset_all_append (w : Nat) (rest : List slice_variant) :
    ∀ (k : Nat) (shape strides : List Nat) (offset : Nat),
      sliced_offset w (List.replicate k slice_variant.all ++ rest) shape strides offset =
        sliced_offset w rest (shape.drop k) (strides.drop k) offset := by
  intro k
  induction k with
  | zero => intro shape strides o; simp
  | succ k ih =>
    intro shape strides o
    show sliced_offset w (slice_variant.all :: (List.replicate k slice_variant.all ++ rest))
      shape strides o = _
    rw [drop_succ_tail shape k, drop_succ_tail strides k]
    simp only [sliced_offset, ih]

theorem source_index_all_append (rest : List slice_variant) :
    ∀ (k : Nat) (shape idx : List Nat), k ≤ idx.length →
      source_index (List.replicate k slice_variant.all ++ rest) shape idx =
        (idx.take k).map Int.ofNat ++ source_index rest (shape.drop k) (idx.drop k) := by
  intro k
  induction k with
  | zero => intro shape idx _; simp
  | succ k ih =>
    intro shape idx hk
    cases idx with
    | nil => simp at hk
    | cons x t =>
      simp only [List.length_cons, Nat.add_le_add_iff_right] at hk
      show source_index (slice_variant.all :: (List.replicate k slice_variant.all ++ rest))
        shape (x :: t) = _
      rw [drop_succ_tail shape k]
      simp [source_index, ih shape.tail t hk]

/-! ## Properties of `dynamic_view` -/

/-- C17. On the raw-buffer path, for a source with raw offset `o` and strides
`s` and a slice list that consumes no more axes than the source has,
`dynamic_view` returns a view over the buffer of the source whose offset is
`o` plus the sum over the integer and range descriptors of start times
`s[axis]` (in `size_type`), whose strides are derived from `s`, and whose
accessor at a multi-index in bounds computes the flat index, and returns the
element, of the source at the mapped multi-index. -/
theorem dynamic_view_folds_source_geometry {α : Type} (w : Nat) (enable_assert : Bool)
    (e : xexpression α) (slices : List slice_variant) (idx coords : List Nat)
    (hst : e.strides.length = e.shape.length)
    (hcons : consumed_axes slices ≤ e.dimension)
    (hw : e.dimension + count_newaxis slices < 2 ^ w)
    (ho : e.raw_data_offset < 2 ^ w)
    (hin : in_bounds (expected_shape w slices e.shape) idx)
    (hcoords : coords.map Int.ofNat = source_index slices e.shape idx)
    (hchk : enable_assert = true → in_bounds e.shape coords) :
    ∃ v, dynamic_view w e slices = .ok v ∧
      v.raw_data_offset =
        (e.raw_data_offset + start_offsets w slices e.shape e.strides) % 2 ^ w ∧
      v.shape = expected_shape w slices e.shape ∧
      v.strides = expected_strides w slices e.shape e.strides ∧
      v.m_data = e.data ∧
      v.index w idx = e.index w coords ∧
      v.call w enable_assert idx = e.call w enable_assert coords := by
  have hindex := dynamic_view_index_eq w e slices idx coords hst hcons hin.1 hcoords
  exact ⟨_, dynamic_view_eq w e slices hst hcons hw,
    sliced_offset_eq w slices e.shape e.strides e.raw_data_offset ho, rfl, rfl, rfl, hindex,
    call_eq_of_index_eq w enable_assert _ e idx coords rfl hindex hin hchk⟩

theorem in_bounds_iff_forall₂ (shape idx : List Nat) :
    in_bounds shape idx ↔ List.Forall₂ (fun a s => a < s) idx shape := by
  rw [List.forall₂_iff_get]
  unfold in_bounds
  constructor
  · rintro ⟨hlen, h⟩
    refine ⟨hlen, fun i h1 h2 => ?_⟩
    have := h i h2
    rw [getD_eq_getElem_of_lt idx i 0 h1, getD_eq_getElem_of_lt shape i 0 h2] at this
    simpa using this
  · rintro ⟨hlen, h⟩
    refine ⟨hlen, fun i hi => ?_⟩
    have hi1 : i < idx.length := by omega
    have := h i hi1 hi
    rw [getD_eq_getElem_of_lt idx i 0 hi1, getD_eq_getElem_of_lt shape i 0 hi]
    simpa using this

/-- C16. For a source with a raw-data interface and `k` full-axis markers,
`k` at most the dimension of the source (the empty slice list included),
`dynamic_view` returns a view with the shape, the strides and the raw offset
of the source. -/
theorem dynamic_view_all_axes {α : Type} (w : Nat) (e : xexpression α) (k : Nat)
    (hst : e.strides.length = e.shape.length)
    (hk : k ≤ e.dimension) (hw : e.dimension < 2 ^ w) :
    ∃ v, dynamic_view w e (List.replicate k slice_variant.all) = .ok v ∧
      v.shape = e.shape ∧ v.strides = e.strides ∧
      v.raw_data_offset = e.raw_data_offset := by
  unfold xexpression.dimension at hk hw
  have h0 : List.replicate k slice_variant.all = List.replicate k slice_variant.all ++ [] := by
    simp
  have hc : consumed_axes (List.replicate k slice_variant.all) = k := by
    rw [h0, consumed_all_append]; rfl
  have hn : count_newaxis (List.replicate k slice_variant.all) = 0 := by
    rw [h0, count_newaxis_all_append]; rfl
  refine ⟨_, dynamic_view_eq w e _ hst (by omega) (by omega), ?_, ?_, ?_⟩
  · show expected_shape w _ e.shape = e.shape
    unfold expected_shape
    rw [hc, h0, sliced_shape_all_append w [] k e.shape hk]
    simp [sliced_shape]
  · show expected_strides w _ e.shape e.strides = e.strides
    unfold expected_strides
    rw [hc, h0, sliced_strides_all_append w [] k e.shape e.strides (by omega)]
    simp [sliced_strides]
  · show sliced_offset w _ e.shape e.strides e.raw_data_offset = e.raw_data_offset
    rw [h0, sliced_offset_all_append]
    rfl

/-- Witness of C16: the (2, 3, 4) example array with two full-axis
markers. -/
theorem dynamic_view_all_axes_witness :
    example_cube.strides.length = example_cube.shape.length ∧
    2 ≤ example_cube.dimension ∧ example_cube.dimension < 2 ^ 64 ∧
    ∃ v, dynamic_view 64 example_cube (List.replicate 2 slice_variant.all) = .ok v ∧
      v.shape = example_cube.shape ∧ v.strides = example_cube.strides ∧
      v.raw_data_offset = example_cube.raw_data_offset :=
  ⟨rfl, by decide, by decide,
    dynamic_view_all_axes 64 example_cube 2 rfl (by decide) (by decide)⟩

theorem drop_append_length {β : Type} (a b : List β) (k : Nat) (h : a.length = k) :
    (a ++ b).drop k = b := by
  subst h
  exact List.drop_left a b

theorem take_append_length {β : Type} (a b : List β) (k : Nat) (h : a.length = k) :
    (a ++ b).take k = a := by
  subst h
  exact List.take_left a b

/-- C14 (new-axis law). For a source of dimension `D` and a position `k ≤ D`,
the view `dynamic_view(e, [all repeated k times, newaxis])` has dimension
`D + 1`, extent 1 and stride 0 at the output axis `k`, and for a source
multi-index `m` in bounds its accessor at `m` with a 0 inserted at position `k`
computes the flat index, and returns the element, of the source at `m`. -/
theorem dynamic_view_newaxis {α : Type} (w : Nat) (enable_assert : Bool) (e : xexpression α)
    (k : Nat) (m : List Nat)
    (hst : e.strides.length = e.shape.length)
    (hk : k ≤ e.dimension) (hw : e.dimension + 1 < 2 ^ w)
    (hm : in_bounds e.shape m) :
    ∃ v, dynamic_view w e (List.replicate k slice_variant.all ++ [slice_variant.newaxis])
        = .ok v ∧
      v.dimension = e.dimension + 1 ∧
      v.shape.getD k 0 = 1 ∧ v.strides.getD k 0 = 0 ∧
      v.index w (m.take k ++ 0 :: m.drop k) = e.index w m ∧
      v.call w enable_assert (m.take k ++ 0 :: m.drop k) = e.call w enable_assert m := by
  unfold xexpression.dimension at hk hw ⊢
  have hc : consumed_axes (List.replicate k slice_variant.all ++ [slice_variant.newaxis]) = k := by
    rw [consumed_all_append]; rfl
  have hn : count_newaxis (List.replicate k slice_variant.all ++ [slice_variant.newaxis]) = 1 := by
    rw [count_newaxis_all_append]; rfl
  have hshape : expected_shape w (List.replicate k slice_variant.all ++ [slice_variant.newaxis])
      e.shape = e.shape.take k ++ 1 :: e.shape.drop k := by
    unfold expected_shape
    rw [hc, sliced_shape_all_append w _ k e.shape hk]
    simp [sliced_shape]
  have hstrides : expected_strides w
      (List.replicate k slice_variant.all ++ [slice_variant.newaxis]) e.shape e.strides =
      e.strides.take k ++ 0 :: e.strides.drop k := by
    unfold expected_strides
    rw [hc, sliced_strides_all_append w _ k e.shape e.strides (by omega)]
    simp [sliced_strides]
  have hmlen : m.length = e.shape.length := hm.1
  have hF := (in_bounds_iff_forall₂ e.shape m).mp hm
  have hin : in_bounds (expected_shape w
      (List.replicate k slice_variant.all ++ [slice_variant.newaxis]) e.shape)
      (m.take k ++ 0 :: m.drop k) := by
    rw [hshape, in_bounds_iff_forall₂]
    exact List.rel_append (List.forall₂_take k hF)
      (List.Forall₂.cons (by decide) (List.forall₂_drop k hF))
  have hl : (m.take k).length = k := by simp; omega
  have htake : (m.take k ++ 0 :: m.drop k).take k = m.take k := take_append_length _ _ k hl
  have hdrop : (m.take k ++ 0 :: m.drop k).drop k = 0 :: m.drop k :=
    drop_append_length _ _ k hl
  have hcoords : m.map Int.ofNat = source_index
      (List.replicate k slice_variant.all ++ [slice_variant.newaxis]) e.shape
      (m.take k ++ 0 :: m.drop k) := by
    rw [source_index_all_append _ k _ _ (by simp; omega), htake, hdrop]
    simp only [source_index, List.tail_cons]
    rw [← List.map_append, List.take_append_drop]
  have hindex := dynamic_view_index_eq w e _ _ m hst (by omega) hin.1 hcoords
  refine ⟨_, dynamic_view_eq w e _ hst (by omega) (by omega), ?_, ?_, ?_, hindex,
    call_eq_of_index_eq w enable_assert _ e _ m rfl hindex hin (fun _ => hm)⟩
  · show (expected_shape w _ e.shape).length = _
    rw [hshape]
    simp
    omega
  · show (expected_shape w _ e.shape).getD k 0 = 1
    rw [hshape, List.getD_eq_getElem?_getD, List.getElem?_append_right (by simp)]
    simp [Nat.min_eq_left hk]
  · show (expected_strides w _ e.shape e.strides).getD k 0 = 0
    rw [hstrides, List.getD_eq_getElem?_getD, List.getElem?_append_right (by simp)]
    simp [Nat.min_eq_left (show k ≤ e.strides.length by omega)]

/-- Witness of C14: the (2, 3) example array with a new axis at position 1 and
the source multi-index (1, 2), whose element is 6. -/
theorem dynamic_view_newaxis_witness :
    example_array.strides.length = example_array.shape.length ∧
    1 ≤ example_array.dimension ∧ example_array.dimension + 1 < 2 ^ 64 ∧
    in_bounds example_array.shape [1, 2] ∧
    example_array.call 64 true [1, 2] = .ok 6 ∧
    ∃ v, dynamic_view 64 example_array
        (List.replicate 1 slice_variant.all ++ [slice_variant.newaxis]) = .ok v ∧
      v.dimension = example_array.dimension + 1 ∧
      v.shape.getD 1 0 = 1 ∧ v.strides.getD 1 0 = 0 ∧
      v.index 64 ([1, 2].take 1 ++ 0 :: [1, 2].drop 1) = example_array.index 64 [1, 2] ∧
      v.call 64 true ([1, 2].take 1 ++ 0 :: [1, 2].drop 1) =
        example_array.call 64 true [1, 2] :=
  ⟨rfl, by decide, by decide, ⟨rfl, by decide⟩, rfl,
    dynamic_view_newaxis 64 true example_array 1 [1, 2] rfl (by decide) (by decide)
      ⟨rfl, by decide⟩⟩

/-- C15 (integer-index law). For a source of dimension `D`, an axis `k < D`
and an integer `c` with `0 ≤ c < shape[k]`, the view
`dynamic_view(e, [all repeated k times, c])` has dimension `D - 1`, its shape
and strides are those of the source with axis `k` removed, and at a
multi-index `idx` in bounds its accessor computes the flat index, and returns
the element, of the source at `idx` with `c` inserted at position `k`. -/
theorem dynamic_view_integer {α : Type} (w : Nat) (enable_assert : Bool) (e : xexpression α)
    (k c : Nat) (idx : List Nat)
    (hst : e.strides.length = e.shape.length)
    (hk : k < e.dimension) (hw : e.dimension < 2 ^ w)
    (hc : c < e.shape.getD k 0)
    (hin : in_bounds (e.shape.eraseIdx k) idx) :
    ∃ v, dynamic_view w e
        (List.replicate k slice_variant.all ++ [slice_variant.index (Int.ofNat c)]) = .ok v ∧
      v.dimension = e.dimension - 1 ∧
      v.shape = e.shape.eraseIdx k ∧ v.strides = e.strides.eraseIdx k ∧
      v.index w idx = e.index w (idx.take k ++ c :: idx.drop k) ∧
      v.call w enable_assert idx = e.call w enable_assert (idx.take k ++ c :: idx.drop k) := by
  unfold xexpression.dimension at hk hw ⊢
  have hcs : consumed_axes (List.replicate k slice_variant.all ++
      [slice_variant.index (Int.ofNat c)]) = k + 1 := by
    rw [consumed_all_append]; rfl
  have hn : count_newaxis (List.replicate k slice_variant.all ++
      [slice_variant.index (Int.ofNat c)]) = 0 := by
    rw [count_newaxis_all_append]; rfl
  have hshape : expected_shape w (List.replicate k slice_variant.all ++
      [slice_variant.index (Int.ofNat c)]) e.shape = e.shape.eraseIdx k := by
    unfold expected_shape
    rw [hcs, sliced_shape_all_append w _ k e.shape (by omega), List.eraseIdx_eq_take_drop_succ]
    simp [sliced_shape]
  have hstrides : expected_strides w (List.replicate k slice_variant.all ++
      [slice_variant.index (Int.ofNat c)]) e.shape e.strides = e.strides.eraseIdx k := by
    unfold expected_strides
    rw [hcs, sliced_strides_all_append w _ k e.shape e.strides (by omega),
      List.eraseIdx_eq_take_drop_succ]
    simp [sliced_strides]
  have hilen : idx.length = e.shape.length - 1 := by
    rw [hin.1, List.length_eraseIdx, if_pos hk]
  have hin2 : in_bounds (expected_shape w (List.replicate k slice_variant.all ++
      [slice_variant.index (Int.ofNat c)]) e.shape) idx := by rw [hshape]; exact hin
  have hcoords : (idx.take k ++ c :: idx.drop k).map Int.ofNat = source_index
      (List.replicate k slice_variant.all ++ [slice_variant.index (Int.ofNat c)]) e.shape idx := by
    rw [source_index_all_append _ k _ _ (by omega)]
    simp [source_index]
  have hF := (in_bounds_iff_forall₂ _ _).mp hin
  rw [List.eraseIdx_eq_take_drop_succ] at hF
  have hlk : (e.shape.take k).length = k := by simp; omega
  have h1 := List.forall₂_take_append idx _ _ hF
  have h2 := List.forall₂_drop_append idx _ _ hF
  rw [hlk] at h1 h2
  have hck : c < e.shape[k] := by
    rwa [getD_eq_getElem_of_lt e.shape k 0 hk] at hc
  have hsplit : e.shape = e.shape.take k ++ e.shape[k] :: e.shape.drop (k + 1) := by
    conv_lhs => rw [← List.take_append_drop k e.shape, List.drop_eq_getElem_cons hk]
  have hinc : in_bounds e.shape (idx.take k ++ c :: idx.drop k) := by
    rw [in_bounds_iff_forall₂, hsplit]
    exact List.rel_append h1 (List.Forall₂.cons hck h2)
  have hindex := dynamic_view_index_eq w e _ idx _ hst (by omega) hin2.1 hcoords
  refine ⟨_, dynamic_view_eq w e _ hst (by omega) (by omega), ?_, hshape, hstrides, hindex,
    call_eq_of_index_eq w enable_assert _ e idx _ rfl hindex hin2 (fun _ => hinc)⟩
  show (expected_shape w _ e.shape).length = _
  rw [hshape, List.length_eraseIdx, if_pos hk]

/-- Witness of C15: the (2, 3) example array with the integer 2 on axis 1; the
view is the third column and its element at (1) is 6. -/
theorem dynamic_view_integer_witness :
    example_array.strides.length = example_array.shape.length ∧
    1 < example_array.dimension ∧ example_array.dimension < 2 ^ 64 ∧
    2 < example_array.shape.getD 1 0 ∧
    in_bounds (example_array.shape.eraseIdx 1) [1] ∧
    example_array.call 64 true [1, 2] = .ok 6 ∧
    ∃ v, dynamic_view 64 example_array
        (List.replicate 1 slice_variant.all ++ [slice_variant.index (Int.ofNat 2)]) = .ok v ∧
      v.dimension = example_array.dimension - 1 ∧
      v.shape = example_array.shape.eraseIdx 1 ∧
      v.strides = example_array.strides.eraseIdx 1 ∧
      v.index 64 [1] = example_array.index 64 ([1].take 1 ++ 2 :: [1].drop 1) ∧
      v.call 64 true [1] = example_array.call 64 true ([1].take 1 ++ 2 :: [1].drop 1) :=
  ⟨rfl, by decide, by decide, by decide, ⟨rfl, by decide⟩, rfl,
    dynamic_view_integer 64 true example_array 1 2 [1] rfl (by decide) (by decide)
      (by decide) ⟨rfl, by decide⟩⟩

theorem consumed_ranges (gets : List (Nat → Int × Int × Int)) :
    consumed_axes (gets.map slice_variant.range_adaptor) = gets.length ∧
    count_newaxis (gets.map slice_variant.range_adaptor) = 0 := by
  induction gets with
  | nil => exact ⟨rfl, rfl⟩
  | cons g t ih => simp [consumed_axes, count_newaxis, ih.1, ih.2]

theorem sliced_shape_ranges (w : Nat) (gets : List (Nat → Int × Int × Int)) :
    ∀ shape : List Nat, gets.length ≤ shape.length →
      sliced_shape w (gets.map slice_variant.range_adaptor) shape =
        (resolve_ranges gets shape).map (fun t => to_size_t w t.2.1) := by
  induction gets with
  | nil => intro shape _; simp [sliced_shape, resolve_ranges]
  | cons g t ih =>
    intro shape h
    cases shape with
    | nil => simp at h
    | cons x sh =>
      simp only [List.length_cons, Nat.add_le_add_iff_right] at h
      have := ih sh h
      simp only [resolve_ranges] at this
      simp [sliced_shape, resolve_ranges, this]

theorem source_index_ranges (gets : List (Nat → Int × Int × Int)) :
    ∀ (shape idx : List Nat), gets.length ≤ shape.length →
      source_index (gets.map slice_variant.range_adaptor) shape idx =
        range_coordinates (resolve_ranges gets shape) idx := by
  induction gets with
  | nil => intro shape idx _; simp [source_index, resolve_ranges, range_coordinates]
  | cons g t ih =>
    intro shape idx h
    cases shape with
    | nil => simp at h
    | cons x sh =>
      simp only [List.length_cons, Nat.add_le_add_iff_right] at h
      have := ih sh idx.tail h
      simp only [resolve_ranges] at this
      simp [source_index, resolve_ranges, range_coordinates, this]

/-- C12 (dynamic-view offset law). For a source with a raw-data interface of
dimension `D` and `k ≤ D` range descriptors, descriptor `j` resolving against
source axis `j` to (start, length, step), `dynamic_view` returns a view whose
shape is the lengths (converted to `std::size_t`) followed by the remaining
source extents, and whose accessor at a multi-index `idx` in bounds computes
the flat index, and returns the element, of the source at the coordinates
`start_j + idx_j * step_j` for `j < k` and `idx_j` for `j ≥ k`. -/
theorem dynamic_view_ranges {α : Type} (w : Nat) (enable_assert : Bool) (e : xexpression α)
    (gets : List (Nat → Int × Int × Int)) (idx coords : List Nat)
    (hst : e.strides.length = e.shape.length)
    (hk : gets.length ≤ e.dimension) (hw : e.dimension < 2 ^ w)
    (hin : in_bounds ((resolve_ranges gets e.shape).map (fun t => to_size_t w t.2.1) ++
      e.shape.drop gets.length) idx)
    (hcoords : coords.map Int.ofNat = range_coordinates (resolve_ranges gets e.shape) idx)
    (hchk : enable_assert = true → in_bounds e.shape coords) :
    ∃ v, dynamic_view w e (gets.map slice_variant.range_adaptor) = .ok v ∧
      v.shape = (resolve_ranges gets e.shape).map (fun t => to_size_t w t.2.1) ++
        e.shape.drop gets.length ∧
      v.m_data = e.data ∧
      v.index w idx = e.index w coords ∧
      v.call w enable_assert idx = e.call w enable_assert coords := by
  unfold xexpression.dimension at hk hw
  obtain ⟨hc, hn⟩ := consumed_ranges gets
  have hshape : expected_shape w (gets.map slice_variant.range_adaptor) e.shape =
      (resolve_ranges gets e.shape).map (fun t => to_size_t w t.2.1) ++
        e.shape.drop gets.length := by
    unfold expected_shape
    rw [hc, sliced_shape_ranges w gets e.shape hk]
  have hin2 : in_bounds (expected_shape w (gets.map slice_variant.range_adaptor) e.shape) idx := by
    rw [hshape]; exact hin
  have hcoords2 : coords.map Int.ofNat =
      source_index (gets.map slice_variant.range_adaptor) e.shape idx := by
    rw [source_index_ranges gets e.shape idx hk]; exact hcoords
  have hindex := dynamic_view_index_eq w e _ idx coords hst (by omega) hin2.1 hcoords2
  exact ⟨_, dynamic_view_eq w e _ hst (by omega) (by omega), hshape, rfl, hindex,
    call_eq_of_index_eq w enable_assert _ e idx coords rfl hindex hin2 hchk⟩

/-- Witness of C12: the (2, 3) example array [[1, 2, 3], [4, 5, 6]] with the
slice list [range(0, 1), range(0, 3, 2)]: the view has shape (1, 2) and
elements [[1, 3]]; its element at (0, 1) is the source element at (0, 2). -/
theorem dynamic_view_ranges_witness :
    example_array.strides.length = example_array.shape.length ∧
    [range_get 0 1 1, range_get 0 3 2].length ≤ example_array.dimension ∧
    example_array.dimension < 2 ^ 64 ∧
    resolve_ranges [range_get 0 1 1, range_get 0 3 2] example_array.shape =
      [(0, 1, 1), (0, 2, 2)] ∧
    in_bounds [1, 2] [0, 1] ∧
    in_bounds example_array.shape [0, 2] ∧
    (∃ v, dynamic_view 64 example_array [range 0 1 1, range 0 3 2] = .ok v ∧
      v.shape = [1, 2] ∧
      v.call 64 true [0, 0] = .ok 1 ∧ v.call 64 true [0, 1] = .ok 3) ∧
    ∃ v, dynamic_view 64 example_array
        ([range_get 0 1 1, range_get 0 3 2].map slice_variant.range_adaptor) = .ok v ∧
      v.shape = (resolve_ranges [range_get 0 1 1, range_get 0 3 2] example_array.shape).map
          (fun t => to_size_t 64 t.2.1) ++
        example_array.shape.drop [range_get 0 1 1, range_get 0 3 2].length ∧
      v.m_data = example_array.data ∧
      v.index 64 [0, 1] = example_array.index 64 [0, 2] ∧
      v.call 64 true [0, 1] = example_array.call 64 true [0, 2] :=
  ⟨rfl, by decide, by decide, rfl, ⟨rfl, by decide⟩, ⟨rfl, by decide⟩,
    ⟨_, rfl, rfl, rfl, rfl⟩,
    dynamic_view_ranges 64 true example_array [range_get 0 1 1, range_get 0 3 2] [0, 1] [0, 2]
      rfl (by decide) (by decide) ⟨rfl, by decide⟩ rfl (fun _ => ⟨rfl, by decide⟩)⟩

/-- Witness of C17: the strided view `offset_matrix_view` (offset 12, strides
(4, 1)) as the source, with the slice list [1, range(1, 4, 2)]: the result has
offset 12 + 1 * 4 + 1 * 1 = 17 and its element at (1) is the source element at
(1, 3), which is 19. -/
theorem dynamic_view_folds_source_geometry_witness :
    offset_matrix_view.as_expression.raw_data_offset = 12 ∧
    offset_matrix_view.as_expression.strides.length =
      offset_matrix_view.as_expression.shape.length ∧
    consumed_axes [slice_variant.index 1, range 1 4 2] ≤
      offset_matrix_view.as_expression.dimension ∧
    offset_matrix_view.as_expression.dimension +
      count_newaxis [slice_variant.index 1, range 1 4 2] < 2 ^ 64 ∧
    offset_matrix_view.as_expression.raw_data_offset < 2 ^ 64 ∧
    in_bounds (expected_shape 64 [slice_variant.index 1, range 1 4 2]
      offset_matrix_view.as_expression.shape) [1] ∧
    [1, 3].map Int.ofNat = source_index [slice_variant.index 1, range 1 4 2]
      offset_matrix_view.as_expression.shape [1] ∧
    in_bounds offset_matrix_view.as_expression.shape [1, 3] ∧
    offset_matrix_view.call 64 true [1, 3] = .ok 19 ∧
    (∃ v, dynamic_view 64 offset_matrix_view.as_expression
        [slice_variant.index 1, range 1 4 2] = .ok v ∧
      v.raw_data_offset = 17 ∧ v.shape = [2] ∧ v.strides = [2] ∧
      v.call 64 true [1] = .ok 19) ∧
    ∃ v, dynamic_view 64 offset_matrix_view.as_expression
        [slice_variant.index 1, range 1 4 2] = .ok v ∧
      v.raw_data_offset =
        (offset_matrix_view.as_expression.raw_data_offset +
          start_offsets 64 [slice_variant.index 1, range 1 4 2]
            offset_matrix_view.as_expression.shape
            offset_matrix_view.as_expression.strides) % 2 ^ 64 ∧
      v.shape = expected_shape 64 [slice_variant.index 1, range 1 4 2]
        offset_matrix_view.as_expression.shape ∧
      v.strides = expected_strides 64 [slice_variant.index 1, range 1 4 2]
        offset_matrix_view.as_expression.shape offset_matrix_view.as_expression.strides ∧
      v.m_data = offset_matrix_view.as_expression.data ∧
      v.index 64 [1] = offset_matrix_view.as_expression.index 64 [1, 3] ∧
      v.call 64 true [1] = offset_matrix_view.as_expression.call 64 true [1, 3] :=
  ⟨rfl, rfl, by decide, by decide, by decide, ⟨rfl, by decide⟩, rfl, ⟨rfl, by decide⟩, rfl,
    ⟨_, rfl, rfl, rfl, rfl, rfl⟩,
    dynamic_view_folds_source_geometry 64 true offset_matrix_view.as_expression
      [slice_variant.index 1, range 1 4 2] [1] [1, 3] rfl (by decide) (by decide) (by decide)
      ⟨rfl, by decide⟩ rfl (fun _ => ⟨rfl, by decide⟩)⟩

theorem write_length {β : Type} (l l' : List β) (i : Nat) (x : β)
    (h : write l i x = .ok l') : l'.length = l.length := by
  unfold write at h
  split at h
  · cases h; simp
  · cases h

theorem slice_step_length (w : Nat) (old_shape old_strides : List Nat) (i : Nat)
    (st st' : view_state) (sl : slice_variant)
    (h : slice_step w old_shape old_strides i st sl = .ok st') :
    st'.new_shape.length = st.new_shape.length := by
  cases sl with
  | index c =>
    simp only [slice_step, bind, Except.bind] at h
    split at h
    · cases h
    · cases h; rfl
  | newaxis =>
    simp only [slice_step, bind, Except.bind] at h
    split at h
    · cases h
    · rename_i ns hns
      split at h
      · cases h
      · cases h; exact write_length _ _ _ _ hns
  | all =>
    simp only [slice_step, bind, Except.bind] at h
    split at h
    · cases h
    · split at h
      · cases h
      · rename_i ns hns
        split at h
        · cases h
        · split at h
          · cases h
          · cases h; exact write_length _ _ _ _ hns
  | range_adaptor g =>
    simp only [slice_step, slice_getter_impl, bind, Except.bind] at h
    split at h
    · cases h
    · rename_i info hinfo
      split at h
      · cases h
      · split at h
        · cases h
        · rename_i ns hns
          split at h
          · cases h
          · split at h
            · cases h
            · cases h; exact write_length _ _ _ _ hns

theorem slice_loop_length (w : Nat) (old_shape old_strides : List Nat)
    (slices : List slice_variant) :
    ∀ (i : Nat) (st : view_state) (r : Nat × view_state),
      slice_loop w old_shape old_strides slices i st = .ok r →
      r.2.new_shape.length = st.new_shape.length := by
  induction slices with
  | nil =>
    intro i st r h
    simp only [slice_loop] at h
    cases h
    rfl
  | cons sl rest ih =>
    intro i st r h
    simp only [slice_loop, bind, Except.bind] at h
    split at h
    · cases h
    · rename_i st1 hst1
      rw [ih _ _ _ h, slice_step_length w old_shape old_strides i st st1 sl hst1]

theorem trailing_loop_length (old_shape old_strides : List Nat) :
    ∀ (k i : Nat) (st st' : view_state),
      trailing_loop old_shape old_strides k i st = .ok st' →
      st'.new_shape.length = st.new_shape.length := by
  intro k
  induction k with
  | zero =>
    intro i st st' h
    simp only [trailing_loop] at h
    cases h
    rfl
  | succ k ih =>
    intro i st st' h
    simp only [trailing_loop, bind, Except.bind] at h
    split at h
    · cases h
    · split at h
      · cases h
      · rename_i ns hns
        split at h
        · cases h
        · split at h
          · cases h
          · rw [ih _ _ _ h]
            exact write_length _ _ _ _ hns

theorem dynamic_view_dimension_of_ok {α : Type} (w : Nat) (e : xexpression α)
    (slices : List slice_variant) (v : xstrided_view (xexpression α) (List α))
    (h : dynamic_view w e slices = .ok v) :
    v.dimension = compute_dimension w slices e.shape.length := by
  simp only [dynamic_view, dynamic_view_geometry, bind, Except.bind] at h
  split at h
  · cases h
  · rename_i g hg
    split at hg
    · cases hg
    · rename_i r hr
      split at hg
      · cases hg
      · rename_i st2 hst2
        cases hg
        cases h
        show st2.new_shape.length = _
        rw [trailing_loop_length _ _ _ _ _ _ hst2, slice_loop_length w _ _ _ _ _ _ hr]
        simp

/-- C13. For a source of dimension `D` and a slice list with `N` new-axis
descriptors and `I` integer descriptors, `I ≤ D + N`: every view that
`dynamic_view` returns has dimension `D + N - I`, and `dynamic_view` does
return a view when the slice list consumes no more axes than the source
has. -/
theorem dynamic_view_dimension {α : Type} (w : Nat) (e : xexpression α)
    (slices : List slice_variant)
    (hI : count_index slices ≤ e.dimension + count_newaxis slices)
    (hw : e.dimension + count_newaxis slices < 2 ^ w) :
    (∀ v, dynamic_view w e slices = .ok v →
      v.dimension = e.dimension + count_newaxis slices - count_index slices) ∧
    (e.strides.length = e.shape.length → consumed_axes slices ≤ e.dimension →
      ∃ v, dynamic_view w e slices = .ok v ∧
        v.dimension = e.dimension + count_newaxis slices - count_index slices) := by
  have hdim := compute_dimension_eq w slices e.shape.length hw hI
  have h1 : ∀ v, dynamic_view w e slices = .ok v →
      v.dimension = e.dimension + count_newaxis slices - count_index slices := by
    intro v hv
    rw [dynamic_view_dimension_of_ok w e slices v hv, hdim]
    rfl
  refine ⟨h1, fun hst hcons => ?_⟩
  exact ⟨_, dynamic_view_eq w e slices hst hcons hw,
    h1 _ (dynamic_view_eq w e slices hst hcons hw)⟩

/-- Witness of C13: the (2, 3) example array with the slice list
[newaxis, 1, range(0, 3, 2)]: D = 2, N = 1, I = 1 and the view has dimension
2. -/
theorem dynamic_view_dimension_witness :
    count_index [slice_variant.newaxis, slice_variant.index 1, range 0 3 2] ≤
      example_array.dimension +
        count_newaxis [slice_variant.newaxis, slice_variant.index 1, range 0 3 2] ∧
    example_array.dimension +
      count_newaxis [slice_variant.newaxis, slice_variant.index 1, range 0 3 2] < 2 ^ 64 ∧
    (∃ v, dynamic_view 64 example_array
        [slice_variant.newaxis, slice_variant.index 1, range 0 3 2] = .ok v ∧
      v.dimension = 2 ∧ v.shape = [1, 2]) ∧
    ((∀ v, dynamic_view 64 example_array
        [slice_variant.newaxis, slice_variant.index 1, range 0 3 2] = .ok v →
      v.dimension = example_array.dimension +
        count_newaxis [slice_variant.newaxis, slice_variant.index 1, range 0 3 2] -
        count_index [slice_variant.newaxis, slice_variant.index 1, range 0 3 2]) ∧
    (example_array.strides.length = example_array.shape.length →
      consumed_axes [slice_variant.newaxis, slice_variant.index 1, range 0 3 2] ≤
        example_array.dimension →
      ∃ v, dynamic_view 64 example_array
          [slice_variant.newaxis, slice_variant.index 1, range 0 3 2] = .ok v ∧
        v.dimension = example_array.dimension +
          count_newaxis [slice_variant.newaxis, slice_variant.index 1, range 0 3 2] -
          count_index [slice_variant.newaxis, slice_variant.index 1, range 0 3 2])) :=
  ⟨by decide, by decide, ⟨_, rfl, rfl, rfl⟩,
    dynamic_view_dimension 64 example_array
      [slice_variant.newaxis, slice_variant.index 1, range 0 3 2] (by decide) (by decide)⟩

/-! ## Lemmas on the expression adaptor -/

theorem index_loop_eq (m_strides : List Nat) (hnz : ∀ s ∈ m_strides, s ≠ 0) :
    ∀ (k i idx : Nat) (m_index : List Nat), i + k = m_strides.length →
      m_index.length = m_strides.length →
      expression_adaptor.index_loop m_strides k i idx m_index =
        .ok (m_index.take i ++ unravel (m_strides.drop i) idx) := by
  intro k
  induction k with
  | zero =>
    intro i idx m_index hik hlen
    rw [expression_adaptor.index_loop, List.drop_eq_nil_of_le (by omega),
      List.take_of_length_le (by omega)]
    simp [unravel]
  | succ k ih =>
    intro i idx m_index hik hlen
    have hi : i < m_strides.length := by omega
    have hs : m_strides[i] ≠ 0 := hnz _ (List.getElem_mem hi)
    rw [expression_adaptor.index_loop, read_eq_ok m_strides i hi]
    simp only [bind, Except.bind, if_neg hs, write_eq_ok m_index i _ (by omega)]
    rw [ih (i + 1) _ _ (by omega) (by simp [hlen]), take_succ_set m_index i _ (by omega),
      List.drop_eq_getElem_cons hi]
    simp [unravel]

theorem length_row_major_strides (w : Nat) (shape : List Nat) :
    (row_major_strides w shape).length = shape.length := by
  induction shape with
  | nil => rfl
  | cons x t ih => simp [row_major_strides, ih]

theorem prod_tail_bounds (x : Nat) (t : List Nat) (w : Nat) (hx : 0 < x)
    (h : (x :: t).prod < 2 ^ w) : t.prod < 2 ^ w ∧ compute_size w t = t.prod := by
  rw [List.prod_cons] at h
  have h1 : t.prod ≤ x * t.prod := Nat.le_mul_of_pos_left _ hx
  have h2 : t.prod < 2 ^ w := by omega
  exact ⟨h2, Nat.mod_eq_of_lt h2⟩

theorem unravel_dot (w : Nat) (shape : List Nat) :
    ∀ c : List Nat, shape.prod < 2 ^ w → List.Forall₂ (fun a s => a < s) c shape →
      (List.zipWith (fun s x => s * x) (row_major_strides w shape) c).sum < shape.prod ∧
      unravel (row_major_strides w shape)
        (List.zipWith (fun s x => s * x) (row_major_strides w shape) c).sum = c := by
  induction shape with
  | nil =>
    intro c _ hc
    cases hc
    simp [row_major_strides, unravel]
  | cons x t ih =>
    intro c hprod hc
    cases hc with
    | cons h0 hrest =>
      rename_i c0 cs
      obtain ⟨ht, hsz⟩ := prod_tail_bounds x t w (by omega) hprod
      obtain ⟨hlt, hun⟩ := ih cs ht hrest
      simp only [row_major_strides, hsz, List.zipWith_cons_cons, List.sum_cons, List.prod_cons,
        unravel]
      have hpos : 0 < t.prod := by omega
      refine ⟨?_, ?_⟩
      · calc t.prod * c0 + (List.zipWith (fun s x => s * x) (row_major_strides w t) cs).sum
            < t.prod * c0 + t.prod := by omega
          _ = t.prod * (c0 + 1) := by ring
          _ ≤ t.prod * x := Nat.mul_le_mul_left _ (by omega)
          _ = x * t.prod := Nat.mul_comm _ _
      · have hdiv : (t.prod * c0 +
            (List.zipWith (fun s x => s * x) (row_major_strides w t) cs).sum) / t.prod = c0 := by
          rw [Nat.mul_comm, Nat.add_comm, Nat.add_mul_div_right _ _ hpos,
            Nat.div_eq_of_lt hlt, Nat.zero_add]
        have hmod : (t.prod * c0 +
            (List.zipWith (fun s x => s * x) (row_major_strides w t) cs).sum) % t.prod =
            (List.zipWith (fun s x => s * x) (row_major_strides w t) cs).sum := by
          rw [Nat.add_comm, Nat.add_mul_mod_self_left, Nat.mod_eq_of_lt hlt]
        rw [hdiv, hmod, hun]

theorem dot_unravel (w : Nat) (shape : List Nat) :
    ∀ i : Nat, shape.prod < 2 ^ w → i < shape.prod →
      List.Forall₂ (fun a s => a < s) (unravel (row_major_strides w shape) i) shape ∧
      (List.zipWith (fun s x => s * x) (row_major_strides w shape)
        (unravel (row_major_strides w shape) i)).sum = i := by
  induction shape with
  | nil =>
    intro i _ hi
    simp only [List.prod_nil] at hi
    simp [row_major_strides, unravel]
    omega
  | cons x t ih =>
    intro i hprod hi
    have hx : 0 < x := by
      rcases Nat.eq_zero_or_pos x with h | h
      · subst h; simp at hi
      · exact h
    obtain ⟨ht, hsz⟩ := prod_tail_bounds x t w hx hprod
    rw [List.prod_cons] at hi
    have hpos : 0 < t.prod := by
      rcases Nat.eq_zero_or_pos t.prod with h | h
      · rw [h] at hi; simp at hi
      · exact h
    obtain ⟨hin, hsum⟩ := ih (i % t.prod) ht (Nat.mod_lt _ hpos)
    simp only [row_major_strides, hsz, unravel, List.zipWith_cons_cons, List.sum_cons]
    refine ⟨List.Forall₂.cons ?_ hin, ?_⟩
    · exact Nat.div_lt_of_lt_mul (by rwa [Nat.mul_comm] at hi)
    · rw [hsum]
      exact Nat.div_add_mod i t.prod

theorem row_major_strides_ne_zero (w : Nat) (shape : List Nat) :
    shape.prod < 2 ^ w → 0 < shape.prod → ∀ s ∈ row_major_strides w shape, s ≠ 0 := by
  induction shape with
  | nil => intro _ _ s hs; simp [row_major_strides] at hs
  | cons x t ih =>
    intro hprod hpos s hs
    have hx : 0 < x := by
      rcases Nat.eq_zero_or_pos x with h | h
      · subst h; simp at hpos
      · exact h
    obtain ⟨ht, hsz⟩ := prod_tail_bounds x t w hx hprod
    have htpos : 0 < t.prod := by
      rcases Nat.eq_zero_or_pos t.prod with h | h
      · rw [List.prod_cons, h] at hpos; simp at hpos
      · exact h
    simp only [row_major_strides, hsz, List.mem_cons] at hs
    rcases hs with h | h
    · omega
    · exact ih ht htpos s h

theorem row_major_strides_getD (w : Nat) (shape : List Nat) :
    shape.prod < 2 ^ w → 0 < shape.prod → ∀ k, k < shape.length →
      (row_major_strides w shape).getD k 0 = (shape.drop (k + 1)).prod := by
  induction shape with
  | nil => intro _ _ k hk; simp at hk
  | cons x t ih =>
    intro hprod hpos k hk
    have hx : 0 < x := by
      rcases Nat.eq_zero_or_pos x with h | h
      · subst h; simp at hpos
      · exact h
    obtain ⟨ht, hsz⟩ := prod_tail_bounds x t w hx hprod
    have htpos : 0 < t.prod := by
      rcases Nat.eq_zero_or_pos t.prod with h | h
      · rw [List.prod_cons, h] at hpos; simp at hpos
      · exact h
    cases k with
    | zero => simp [row_major_strides, hsz]
    | succ j =>
      simp only [List.length_cons, Nat.add_lt_add_iff_right] at hk
      have := ih ht htpos j hk
      simpa [row_major_strides] using this

theorem adaptor_get_eq {α : Type} (w : Nat) (e : xaccessor_expression α) (i : Nat)
    (hprod : e.shape.prod < 2 ^ w) (hpos : 0 < e.shape.prod) :
    (expression_adaptor.make w layout_type.row_major e).get i =
      .ok (e.element (unravel (row_major_strides w e.shape) i)) := by
  unfold expression_adaptor.get
  simp only [expression_adaptor.make, compute_strides]
  rw [index_loop_eq _ (row_major_strides_ne_zero w e.shape hprod hpos) _ 0 i _ (by simp)
    (by simp [resize_container, length_row_major_strides])]
  simp [bind, Except.bind]

/-! ## Properties of the expression adaptor -/

/-- C19. For a source of shape `sh` whose number of elements fits
`std::size_t`, the expression adaptor built for the row-major layout has
`size()` equal to the product of the extents and the canonical strides (the
stride of an axis is the product of the extents after it); for a flat index
`i < size()` every stride is non-zero, so `operator[](i)` is defined, and it
passes to the accessor of the source the multi-index `m` obtained by successive
division and modulo, which is the only multi-index in bounds with
`sum of m[k] * stride[k] = i`. -/
theorem expression_adaptor_index {α : Type} (w : Nat) (e : xaccessor_expression α) (i : Nat)
    (hprod : e.shape.prod < 2 ^ w)
    (hi : i < (expression_adaptor.make w layout_type.row_major e).size) :
    (expression_adaptor.make w layout_type.row_major e).size = e.shape.prod ∧
    (∀ k, k < e.shape.length →
      (expression_adaptor.make w layout_type.row_major e).m_strides.getD k 0 =
        (e.shape.drop (k + 1)).prod) ∧
    (∀ s ∈ (expression_adaptor.make w layout_type.row_major e).m_strides, s ≠ 0) ∧
    ∃ m, m = unravel (expression_adaptor.make w layout_type.row_major e).m_strides i ∧
      in_bounds e.shape m ∧
      (List.zipWith (fun s x => s * x)
        (expression_adaptor.make w layout_type.row_major e).m_strides m).sum = i ∧
      (expression_adaptor.make w layout_type.row_major e).get i = .ok (e.element m) ∧
      ∀ m', in_bounds e.shape m' →
        (List.zipWith (fun s x => s * x)
          (expression_adaptor.make w layout_type.row_major e).m_strides m').sum = i →
        m' = m := by
  have hsize : (expression_adaptor.make w layout_type.row_major e).size = e.shape.prod :=
    Nat.mod_eq_of_lt hprod
  rw [hsize] at hi
  have hpos : 0 < e.shape.prod := by omega
  obtain ⟨hin, hsum⟩ := dot_unravel w e.shape i hprod hi
  refine ⟨hsize, row_major_strides_getD w e.shape hprod hpos,
    row_major_strides_ne_zero w e.shape hprod hpos, _, rfl,
    (in_bounds_iff_forall₂ _ _).mpr hin, hsum, adaptor_get_eq w e i hprod hpos, ?_⟩
  intro m' hm' hsum'
  have := (unravel_dot w e.shape m' hprod ((in_bounds_iff_forall₂ _ _).mp hm')).2
  show m' = unravel (row_major_strides w e.shape) i
  rw [← hsum']
  exact this.symm

/-- Witness of C19: the adaptor of `example_generator`, shape (2, 3), at the
flat index 4: the multi-index is (1, 1) and the element is 11. -/
theorem expression_adaptor_index_witness :
    example_generator.shape.prod < 2 ^ 64 ∧
    4 < (expression_adaptor.make 64 layout_type.row_major example_generator).size ∧
    unravel (expression_adaptor.make 64 layout_type.row_major example_generator).m_strides 4 =
      [1, 1] ∧
    (expression_adaptor.make 64 layout_type.row_major example_generator).get 4 = .ok 11 ∧
    (expression_adaptor.make 64 layout_type.row_major example_generator).size =
      example_generator.shape.prod ∧
    (∀ k, k < example_generator.shape.length →
      (expression_adaptor.make 64 layout_type.row_major example_generator).m_strides.getD k 0 =
        (example_generator.shape.drop (k + 1)).prod) ∧
    (∀ s ∈ (expression_adaptor.make 64 layout_type.row_major example_generator).m_strides,
      s ≠ 0) ∧
    ∃ m, m = unravel
        (expression_adaptor.make 64 layout_type.row_major example_generator).m_strides 4 ∧
      in_bounds example_generator.shape m ∧
      (List.zipWith (fun s x => s * x)
        (expression_adaptor.make 64 layout_type.row_major example_generator).m_strides m).sum
        = 4 ∧
      (expression_adaptor.make 64 layout_type.row_major example_generator).get 4 =
        .ok (example_generator.element m) ∧
      ∀ m', in_bounds example_generator.shape m' →
        (List.zipWith (fun s x => s * x)
          (expression_adaptor.make 64 layout_type.row_major example_generator).m_strides
          m').sum = 4 →
        m' = m :=
  ⟨by decide, by decide, by decide, rfl,
    expression_adaptor_index 64 example_generator 4 (by decide) (by decide)⟩

/-! ## The adaptor path of `dynamic_view` -/

theorem expected_shape_index (w : Nat) (c : Int) (rest : List slice_variant)
    (shape : List Nat) :
    expected_shape w (slice_variant.index c :: rest) shape =
      expected_shape w rest shape.tail := by
  simp only [expected_shape, sliced_shape, consumed_axes, drop_succ_tail]

theorem expected_shape_newaxis (w : Nat) (rest : List slice_variant) (shape : List Nat) :
    expected_shape w (slice_variant.newaxis :: rest) shape =
      1 :: expected_shape w rest shape := by
  simp only [expected_shape, sliced_shape, consumed_axes, List.cons_append]

theorem expected_shape_all (w : Nat) (rest : List slice_variant) (shape : List Nat) :
    expected_shape w (slice_variant.all :: rest) shape =
      shape.headD 0 :: expected_shape w rest shape.tail := by
  simp only [expected_shape, sliced_shape, consumed_axes, drop_succ_tail, List.cons_append]

theorem expected_shape_range (w : Nat) (g : Nat → Int × Int × Int)
    (rest : List slice_variant) (shape : List Nat) :
    expected_shape w (slice_variant.range_adaptor g :: rest) shape =
      to_size_t w (g (shape.headD 0)).2.1 :: expected_shape w rest shape.tail := by
  simp only [expected_shape, sliced_shape, consumed_axes, drop_succ_tail, List.cons_append]

theorem consumed_le_of_valid (w : Nat) (slices : List slice_variant) :
    ∀ shape, slices_valid w slices shape → consumed_axes slices ≤ shape.length := by
  induction slices with
  | nil => intro _ _; exact Nat.zero_le _
  | cons sl rest ih =>
    intro shape hv
    cases sl with
    | newaxis => exact ih shape hv
    | index c =>
      obtain ⟨hne, _, _, hr⟩ := hv
      cases shape with
      | nil => exact absurd rfl hne
      | cons x t => simpa [consumed_axes] using ih t hr
    | all =>
      obtain ⟨hne, hr⟩ := hv
      cases shape with
      | nil => exact absurd rfl hne
      | cons x t => simpa [consumed_axes] using ih t hr
    | range_adaptor g =>
      obtain ⟨hne, _, hr⟩ := hv
      cases shape with
      | nil => exact absurd rfl hne
      | cons x t => simpa [consumed_axes] using ih t hr

theorem valid_coordinates (w : Nat) (slices : List slice_variant) :
    ∀ (shape idx : List Nat), slices_valid w slices shape →
      List.Forall₂ (fun a s => a < s) idx (expected_shape w slices shape) →
      ∃ coords : List Nat, coords.map Int.ofNat = source_index slices shape idx ∧
        List.Forall₂ (fun a s => a < s) coords shape := by
  induction slices with
  | nil =>
    intro shape idx _ hin
    refine ⟨idx, rfl, ?_⟩
    simpa [expected_shape, sliced_shape, consumed_axes] using hin
  | cons sl rest ih =>
    intro shape idx hv hin
    cases sl with
    | newaxis =>
      rw [expected_shape_newaxis] at hin
      cases hin with
      | cons h0 hr =>
        obtain ⟨coords, hc, hb⟩ := ih shape _ hv hr
        exact ⟨coords, by simpa [source_index] using hc, hb⟩
    | index c =>
      obtain ⟨hne, hc0, hc1, hr⟩ := hv
      rw [expected_shape_index] at hin
      cases shape with
      | nil => exact absurd rfl hne
      | cons x t =>
        obtain ⟨coords, hc, hb⟩ := ih t idx hr hin
        refine ⟨c.toNat :: coords, ?_, List.Forall₂.cons ?_ hb⟩
        · simp only [List.map_cons, source_index, List.tail_cons, hc]
          congr 1
          exact Int.toNat_of_nonneg hc0
        · simp only [List.headD_cons] at hc1
          have : (Int.ofNat c.toNat) = c := Int.toNat_of_nonneg hc0
          have h2 : (c.toNat : Int) < (x : Int) := by rw [← this] at hc1; exact hc1
          exact Int.ofNat_lt.mp h2
    | all =>
      obtain ⟨hne, hr⟩ := hv
      rw [expected_shape_all] at hin
      cases shape with
      | nil => exact absurd rfl hne
      | cons x t =>
        cases hin with
        | cons h0 hrest =>
          rename_i i0 idx'
          obtain ⟨coords, hc, hb⟩ := ih t idx' hr hrest
          refine ⟨i0 :: coords, ?_, List.Forall₂.cons (by simpa using h0) hb⟩
          simp only [List.map_cons, source_index, List.tail_cons, List.headD_cons, hc]
    | range_adaptor g =>
      obtain ⟨hne, hg, hr⟩ := hv
      rw [expected_shape_range] at hin
      cases shape with
      | nil => exact absurd rfl hne
      | cons x t =>
        cases hin with
        | cons h0 hrest =>
          rename_i i0 idx'
          obtain ⟨coords, hc, hb⟩ := ih t idx' hr hrest
          obtain ⟨hlo, hhi⟩ := hg i0 h0
          simp only [List.headD_cons] at hlo hhi
          refine ⟨((g x).1 + Int.ofNat i0 * (g x).2.2).toNat :: coords, ?_,
            List.Forall₂.cons ?_ hb⟩
          · simp only [List.map_cons, source_index, List.tail_cons, List.headD_cons, hc]
            congr 1
            exact Int.toNat_of_nonneg hlo
          · have : (Int.ofNat ((g x).1 + Int.ofNat i0 * (g x).2.2).toNat) =
                (g x).1 + Int.ofNat i0 * (g x).2.2 := Int.toNat_of_nonneg hlo
            have h2 : ((((g x).1 + Int.ofNat i0 * (g x).2.2).toNat : Nat) : Int) < (x : Int) := by
              rw [← this] at hhi; exact hhi
            exact Int.ofNat_lt.mp h2

theorem dynamic_view_adaptor_eq {α : Type} (w : Nat) (e : xaccessor_expression α)
    (slices : List slice_variant)
    (hcons : consumed_axes slices ≤ e.shape.length)
    (hd : e.shape.length + count_newaxis slices < 2 ^ w) :
    dynamic_view_adaptor w layout_type.row_major e slices =
      .ok (xstrided_view.mk_data w e (expression_adaptor.make w layout_type.row_major e)
        (expected_shape w slices e.shape)
        (expected_strides w slices e.shape (row_major_strides w e.shape))
        (sliced_offset w slices e.shape (row_major_strides w e.shape) 0)
        layout_type.dynamic) := by
  unfold dynamic_view_adaptor
  simp only [compute_strides]
  rw [dynamic_view_geometry_eq w e.shape (row_major_strides w e.shape) 0 slices
    (length_row_major_strides w e.shape) hcons hd]
  rfl

/-- C18 (the adaptor path equals the raw path). Let a source without a raw
buffer be given by a shape and a multi-index accessor `f`, and let a row-major
contiguous buffer hold the values of `f`. For a slice list valid for the shape
and a multi-index in bounds, the view that `dynamic_view` builds through the
expression adaptor (offset 0, canonical row-major strides) and the view it
builds over the buffer have the same shape, strides and offset and return the
same value. -/
theorem adaptor_path_equals_raw_path {α : Type} (w : Nat) (enable_assert : Bool)
    (ea : xaccessor_expression α) (er : xexpression α) (slices : List slice_variant)
    (idx : List Nat)
    (hshape : er.shape = ea.shape)
    (hstrides : er.strides = compute_strides w ea.shape layout_type.row_major)
    (hoff : er.raw_data_offset = 0)
    (hbuf : ∀ c, in_bounds ea.shape c → read er.data (er.index w c) = .ok (ea.element c))
    (hprod : ea.shape.prod < 2 ^ w)
    (hvalid : slices_valid w slices ea.shape)
    (hw : ea.shape.length + count_newaxis slices < 2 ^ w)
    (hin : in_bounds (expected_shape w slices ea.shape) idx) :
    ∃ va vr, dynamic_view_adaptor w layout_type.row_major ea slices = .ok va ∧
      dynamic_view w er slices = .ok vr ∧
      va.shape = vr.shape ∧ va.strides = vr.strides ∧
      va.raw_data_offset = vr.raw_data_offset ∧
      va.call_adaptor w enable_assert idx = vr.call w enable_assert idx := by
  have hcons := consumed_le_of_valid w slices ea.shape hvalid
  obtain ⟨coords, hcoords, hcb⟩ :=
    valid_coordinates w slices ea.shape idx hvalid ((in_bounds_iff_forall₂ _ _).mp hin)
  have hcin : in_bounds ea.shape coords := (in_bounds_iff_forall₂ _ _).mpr hcb
  obtain ⟨hlt, hun⟩ := unravel_dot w ea.shape coords hprod hcb
  have hpos : 0 < ea.shape.prod := by omega
  have hstr : er.strides = row_major_strides w ea.shape := hstrides
  have hstlen : er.strides.length = er.shape.length := by
    rw [hstr, hshape, length_row_major_strides]
  have hva := dynamic_view_adaptor_eq w ea slices hcons hw
  have hvr := dynamic_view_eq w er slices hstlen (by rw [hshape]; exact hcons)
    (by rw [hshape]; exact hw)
  have hindex := dynamic_view_index_eq w er slices idx coords hstlen
    (by rw [hshape]; exact hcons) (by rw [hshape]; exact hin.1)
    (by rw [hshape]; exact hcoords)
  have hclen : coords.length = er.strides.length := by rw [hcin.1, hstlen, hshape]
  have hflat : er.index w coords =
      (List.zipWith (fun s x => s * x) (row_major_strides w ea.shape) coords).sum := by
    unfold xexpression.index
    rw [hoff, Nat.zero_add, element_offset_same_length w _ _ hclen, Nat.mod_mod, hstr]
    exact Nat.mod_eq_of_lt (by omega)
  refine ⟨_, _, hva, hvr, ?_, ?_, ?_, ?_⟩
  · show expected_shape w slices ea.shape = expected_shape w slices er.shape
    rw [hshape]
  · show expected_strides w slices ea.shape (row_major_strides w ea.shape) =
      expected_strides w slices er.shape er.strides
    rw [hshape, hstr]
  · show sliced_offset w slices ea.shape (row_major_strides w ea.shape) 0 =
      sliced_offset w slices er.shape er.strides er.raw_data_offset
    rw [hshape, hstr, hoff]
  · have hidx2 : (xstrided_view.mk_data w ea
        (expression_adaptor.make w layout_type.row_major ea)
        (expected_shape w slices ea.shape)
        (expected_strides w slices ea.shape (row_major_strides w ea.shape))
        (sliced_offset w slices ea.shape (row_major_strides w ea.shape) 0)
        layout_type.dynamic).index w idx = er.index w coords := by
      rw [← hindex]
      unfold xstrided_view.index
      simp only [xstrided_view.strides, xstrided_view.mk_data]
      rw [hshape, hstr, hoff]
    have hraw : (xstrided_view.mk_data w er er.data (expected_shape w slices er.shape)
        (expected_strides w slices er.shape er.strides)
        (sliced_offset w slices er.shape er.strides er.raw_data_offset)
        layout_type.dynamic).call w enable_assert idx = .ok (ea.element coords) := by
      unfold xstrided_view.call
      rw [hindex]
      have hchk : check_index (xstrided_view.mk_data w er er.data
          (expected_shape w slices er.shape) (expected_strides w slices er.shape er.strides)
          (sliced_offset w slices er.shape er.strides er.raw_data_offset)
          layout_type.dynamic).shape idx = .ok () :=
        check_index_ok _ _ (by rw [hshape]; exact hin)
      cases enable_assert with
      | false => exact hbuf coords hcin
      | true =>
        simp only [XTENSOR_TRY, if_true]
        rw [hchk]
        exact hbuf coords hcin
    rw [hraw]
    unfold xstrided_view.call_adaptor
    rw [hidx2, hflat]
    have hget : (expression_adaptor.make w layout_type.row_major ea).get
        (List.zipWith (fun s x => s * x) (row_major_strides w ea.shape) coords).sum =
        .ok (ea.element coords) := by
      rw [adaptor_get_eq w ea _ hprod hpos, hun]
    have hchk : check_index (xstrided_view.mk_data w ea
        (expression_adaptor.make w layout_type.row_major ea)
        (expected_shape w slices ea.shape)
        (expected_strides w slices ea.shape (row_major_strides w ea.shape))
        (sliced_offset w slices ea.shape (row_major_strides w ea.shape) 0)
        layout_type.dynamic).shape idx = .ok () := check_index_ok _ _ hin
    cases enable_assert with
    | false => exact hget
    | true =>
      simp only [XTENSOR_TRY, if_true]
      rw [hchk]
      exact hget

theorem example_generated_holds (c : List Nat) (h : in_bounds example_generator.shape c) :
    read example_generated.data (example_generated.index 64 c) =
      .ok (example_generator.element c) := by
  have hF := (in_bounds_iff_forall₂ _ _).mp h
  cases hF with
  | cons h0 h1 =>
    cases h1 with
    | cons h2 h3 =>
      cases h3
      rename_i a b
      have ha : a < 2 := h0
      have hb : b < 3 := h2
      interval_cases a <;> interval_cases b <;> rfl

theorem example_slices_valid :
    slices_valid 64 [range 0 2 1, range 0 3 2] example_generator.shape := by
  refine ⟨by decide, ?_, by decide, ?_, trivial⟩
  · intro i hi
    have hi2 : i < 2 := hi
    interval_cases i <;> decide
  · intro i hi
    have hi2 : i < 2 := hi
    interval_cases i <;> decide

/-- Witness of C18: `example_generator` (shape (2, 3), element `10 * i + j`)
and the array `example_generated` that holds its values, with the slice list
[range(0, 2), range(0, 3, 2)] at the multi-index (1, 1): both views return
12. -/
theorem adaptor_path_equals_raw_path_witness :
    example_generated.shape = example_generator.shape ∧
    example_generated.strides =
      compute_strides 64 example_generator.shape layout_type.row_major ∧
    example_generated.raw_data_offset = 0 ∧
    example_generator.shape.prod < 2 ^ 64 ∧
    slices_valid 64 [range 0 2 1, range 0 3 2] example_generator.shape ∧
    example_generator.shape.length + count_newaxis [range 0 2 1, range 0 3 2] < 2 ^ 64 ∧
    in_bounds (expected_shape 64 [range 0 2 1, range 0 3 2] example_generator.shape) [1, 1] ∧
    (∃ va, dynamic_view_adaptor 64 layout_type.row_major example_generator
        [range 0 2 1, range 0 3 2] = .ok va ∧ va.call_adaptor 64 true [1, 1] = .ok 12) ∧
    ∃ va vr, dynamic_view_adaptor 64 layout_type.row_major example_generator
        [range 0 2 1, range 0 3 2] = .ok va ∧
      dynamic_view 64 example_generated [range 0 2 1, range 0 3 2] = .ok vr ∧
      va.shape = vr.shape ∧ va.strides = vr.strides ∧
      va.raw_data_offset = vr.raw_data_offset ∧
      va.call_adaptor 64 true [1, 1] = vr.call 64 true [1, 1] :=
  ⟨rfl, rfl, rfl, by decide, example_slices_valid, by decide, ⟨rfl, by decide⟩,
    ⟨_, rfl, rfl⟩,
    adaptor_path_equals_raw_path 64 true example_generator example_generated
      [range 0 2 1, range 0 3 2] [1, 1] rfl rfl rfl example_generated_holds (by decide)
      example_slices_valid (by decide) ⟨rfl, by decide⟩⟩

/-! ## Further properties of `transpose` -/

theorem map_reverse_range_getD (l : List Nat) :
    (List.range l.length).reverse.map (fun k => l.getD k 0) = l.reverse := by
  rw [List.map_reverse, map_range_getD]

/-- C27. For a source of dimension `n ≥ 2`, `transpose(e, (n-1, ..., 1, 0))`
succeeds under either check policy and returns the view that `transpose(e)`
returns: the two agree in shape, strides, offset and layout. -/
theorem transpose_reversal_agrees {α : Type} (w : Nat) (tag : check_policy)
    (e : xexpression α)
    (hst : e.strides.length = e.shape.length) (hw : e.dimension < 2 ^ w)
    (hn : 2 ≤ e.dimension) :
    ∃ v, transpose_perm w e (as_permutation (List.range e.dimension).reverse) tag = .ok v ∧
      v.shape = (transpose w e).shape ∧ v.strides = (transpose w e).strides ∧
      v.raw_data_offset = (transpose w e).raw_data_offset ∧
      v.layout = (transpose w e).layout := by
  have hp := is_axis_permutation_reverse_range e.dimension
  refine ⟨_, transpose_perm_natural w e _ tag hst hw hp.1 hp.2.1 (fun _ => hp.2.2), ?_, ?_, rfl, ?_⟩
  · show (List.range e.dimension).reverse.map (fun k => e.shape.getD k 0) =
      std_copy e.shape.reverse (resize_container e.shape.length)
    rw [std_copy_reverse_resize]
    exact map_reverse_range_getD e.shape
  · show (List.range e.dimension).reverse.map (fun k => e.strides.getD k 0) =
      std_copy e.strides.reverse (resize_container e.strides.length)
    rw [std_copy_reverse_resize]
    unfold xexpression.dimension
    rw [← hst]
    exact map_reverse_range_getD e.strides
  · show new_layout e.layout _ = _
    rw [new_layout_reverse_range e.layout e.dimension hn]
    cases hl : e.layout <;> simp [transpose, xstrided_view.layout, xstrided_view.mk_expr,
      xstrided_view.mk_data, swap_layout, hl]

/-- Witness of C27: the row-major (2, 3, 4) example array. -/
theorem transpose_reversal_agrees_witness :
    example_cube.strides.length = example_cube.shape.length ∧
    example_cube.dimension < 2 ^ 64 ∧ 2 ≤ example_cube.dimension ∧
    (transpose 64 example_cube).shape = [4, 3, 2] ∧
    ∃ v, transpose_perm 64 example_cube
        (as_permutation (List.range example_cube.dimension).reverse) check_policy.none = .ok v ∧
      v.shape = (transpose 64 example_cube).shape ∧
      v.strides = (transpose 64 example_cube).strides ∧
      v.raw_data_offset = (transpose 64 example_cube).raw_data_offset ∧
      v.layout = (transpose 64 example_cube).layout :=
  ⟨rfl, by decide, by decide, rfl,
    transpose_reversal_agrees 64 check_policy.none example_cube rfl (by decide) (by decide)⟩

theorem ext_getD (l₁ l₂ : List Nat) (hlen : l₁.length = l₂.length)
    (h : ∀ i, i < l₁.length → l₁.getD i 0 = l₂.getD i 0) : l₁ = l₂ := by
  apply List.ext_getElem hlen
  intro i h1 h2
  have := h i h1
  rwa [getD_eq_getElem_of_lt l₁ i 0 h1, getD_eq_getElem_of_lt l₂ i 0 h2] at this

theorem right_inverse_of_left_inverse (n : Nat) (p q : List Nat)
    (hp : is_axis_permutation n p)
    (hinv : ∀ i, i < n → q.getD (p.getD i 0) 0 = i) :
    ∀ j, j < n → p.getD (q.getD j 0) 0 = j := by
  intro j hj
  have hmem : j ∈ p := (perm_range_of_axis_permutation hp).mem_iff.mpr (List.mem_range.mpr hj)
  obtain ⟨k, hk, hkj⟩ := List.getElem_of_mem hmem
  have hkn : k < n := by rw [← hp.1]; exact hk
  have h1 : p.getD k 0 = j := by rw [getD_eq_getElem_of_lt p k 0 hk]; exact hkj
  have h2 := hinv k hkn
  rw [h1] at h2
  rw [h2, h1]

/-- C28. For permutations `p` and `r` of the axes of a source,
`transpose(transpose(e, p), r)` succeeds and has
`shape[i] = source.shape[p[r[i]]]` and `strides[i] = source.strides[p[r[i]]]`;
when `r` is the inverse of `p` (`r[p[i]] = i`) it has the shape and the strides
of the source. -/
theorem transpose_compose {α : Type} (w : Nat) (tag₁ tag₂ : check_policy)
    (e : xexpression α) (p r : List Nat)
    (hst : e.strides.length = e.shape.length) (hw : e.dimension < 2 ^ w)
    (hp : is_axis_permutation e.dimension p) (hr : is_axis_permutation e.dimension r) :
    ∃ v₁ v₂, transpose_perm w e (as_permutation p) tag₁ = .ok v₁ ∧
      transpose_perm w v₁.as_expression (as_permutation r) tag₂ = .ok v₂ ∧
      (∀ i, i < e.dimension →
        v₂.shape.getD i 0 = e.shape.getD (p.getD (r.getD i 0) 0) 0 ∧
        v₂.strides.getD i 0 = e.strides.getD (p.getD (r.getD i 0) 0) 0) ∧
      ((∀ i, i < e.dimension → r.getD (p.getD i 0) 0 = i) →
        v₂.shape = e.shape ∧ v₂.strides = e.strides) := by
  have h1 := transpose_perm_natural w e p tag₁ hst hw hp.1 hp.2.1 (fun _ => hp.2.2)
  have hdim1 : (xstrided_view.mk_expr w e (p.map (fun k => e.shape.getD k 0))
      (p.map (fun k => e.strides.getD k 0)) 0
      (new_layout e.layout (as_permutation p))).as_expression.dimension = e.dimension := by
    show (p.map (fun k => e.shape.getD k 0)).length = _
    rw [List.length_map, hp.1]
  have h2 := transpose_perm_natural w
    (xstrided_view.mk_expr w e (p.map (fun k => e.shape.getD k 0))
      (p.map (fun k => e.strides.getD k 0)) 0
      (new_layout e.layout (as_permutation p))).as_expression r tag₂
    (by show (p.map _).length = (p.map _).length; simp)
    (by rw [hdim1]; exact hw) (by rw [hdim1]; exact hr.1) (by rw [hdim1]; exact hr.2.1)
    (fun _ => hr.2.2)
  have hpoint : ∀ i, i < e.dimension →
      (r.map (fun k => (p.map (fun k => e.shape.getD k 0)).getD k 0)).getD i 0 =
        e.shape.getD (p.getD (r.getD i 0) 0) 0 ∧
      (r.map (fun k => (p.map (fun k => e.strides.getD k 0)).getD k 0)).getD i 0 =
        e.strides.getD (p.getD (r.getD i 0) 0) 0 := by
    intro i hi
    have hir : i < r.length := by rw [hr.1]; exact hi
    have hri : r.getD i 0 < p.length := by
      rw [hp.1, getD_eq_getElem_of_lt r i 0 hir]
      exact hr.2.1 _ (List.getElem_mem hir)
    rw [getD_map_of_lt _ r i 0 0 hir, getD_map_of_lt _ r i 0 0 hir,
      getD_map_of_lt _ p _ 0 0 hri, getD_map_of_lt _ p _ 0 0 hri]
    exact ⟨rfl, rfl⟩
  refine ⟨_, _, h1, h2, hpoint, fun hinv => ?_⟩
  have hright := right_inverse_of_left_inverse e.dimension p r hp hinv
  constructor
  · apply ext_getD
    · show (r.map _).length = e.shape.length
      rw [List.length_map, hr.1]; rfl
    · intro i hi
      have hi' : i < e.dimension := by
        have : (r.map (fun k => (p.map (fun k => e.shape.getD k 0)).getD k 0)).length =
            e.dimension := by rw [List.length_map, hr.1]
        exact this ▸ hi
      exact ((hpoint i hi').1).trans (by rw [hright i hi'])
  · apply ext_getD
    · show (r.map _).length = e.strides.length
      rw [List.length_map, hr.1, hst]; rfl
    · intro i hi
      have hi' : i < e.dimension := by
        have : (r.map (fun k => (p.map (fun k => e.strides.getD k 0)).getD k 0)).length =
            e.dimension := by rw [List.length_map, hr.1]
        exact this ▸ hi
      exact ((hpoint i hi').2).trans (by rw [hright i hi'])

/-- Witness of C28: the (2, 3, 4) example array with the permutation
(1, 2, 0) and its inverse (2, 0, 1). -/
theorem transpose_compose_witness :
    example_cube.strides.length = example_cube.shape.length ∧
    example_cube.dimension < 2 ^ 64 ∧
    is_axis_permutation example_cube.dimension [1, 2, 0] ∧
    is_axis_permutation example_cube.dimension [2, 0, 1] ∧
    (∀ i, i < example_cube.dimension → [2, 0, 1].getD ([1, 2, 0].getD i 0) 0 = i) ∧
    ∃ v₁ v₂, transpose_perm 64 example_cube (as_permutation [1, 2, 0]) check_policy.none
        = .ok v₁ ∧
      transpose_perm 64 v₁.as_expression (as_permutation [2, 0, 1]) check_policy.none
        = .ok v₂ ∧
      (∀ i, i < example_cube.dimension →
        v₂.shape.getD i 0 =
          example_cube.shape.getD ([1, 2, 0].getD ([2, 0, 1].getD i 0) 0) 0 ∧
        v₂.strides.getD i 0 =
          example_cube.strides.getD ([1, 2, 0].getD ([2, 0, 1].getD i 0) 0) 0) ∧
      ((∀ i, i < example_cube.dimension → [2, 0, 1].getD ([1, 2, 0].getD i 0) 0 = i) →
        v₂.shape = example_cube.shape ∧ v₂.strides = example_cube.strides) :=
  ⟨rfl, by decide, ⟨rfl, by decide, by decide⟩, ⟨rfl, by decide, by decide⟩, by decide,
    transpose_compose 64 check_policy.none check_policy.none example_cube [1, 2, 0] [2, 0, 1]
      rfl (by decide) ⟨rfl, by decide, by decide⟩ ⟨rfl, by decide, by decide⟩⟩

theorem to_size_t_negative (w : Nat) (x : Int) (hneg : x < 0)
    (hrep : -((2 ^ w : Nat) : Int) ≤ x) :
    ((to_size_t w x : Nat) : Int) = x + ((2 ^ w : Nat) : Int) := by
  unfold to_size_t
  have hpos : (0 : Int) < ((2 ^ w : Nat) : Int) := by positivity
  have h1 : x % ((2 ^ w : Nat) : Int) = x + ((2 ^ w : Nat) : Int) := by
    rw [← Int.add_emod_self]
    exact Int.emod_eq_of_lt (by omega) (by omega)
  rw [h1]
  exact Int.toNat_of_nonneg (by omega)

/-- C29. For a source of dimension `n` and a permutation of length `n` with a
negative entry `x` of a signed type no wider than `std::size_t` (the dimension
being at most half the range of `std::size_t`), `transpose` under
`check_policy::none` fails with the wrong-axis error: the entry is compared as
the `std::size_t` value `x + 2 ^ w`, which is not below the dimension, so no
read or write of shape or strides goes wrong before the error. -/
theorem transpose_negative_entry {α : Type} (w : Nat) (e : xexpression α) (p : List Int)
    (x : Int)
    (hst : e.strides.length = e.shape.length)
    (hlen : p.length = e.dimension)
    (hx : x ∈ p) (hneg : x < 0)
    (hrep : -((2 ^ w : Nat) : Int) ≤ 2 * x)
    (hn : 2 * e.dimension ≤ 2 ^ w) :
    ((to_size_t w x : Nat) : Int) = x + ((2 ^ w : Nat) : Int) ∧
    e.dimension ≤ to_size_t w x ∧
    transpose_perm w e p check_policy.none = .error failure.transpose_axis := by
  have h1 := to_size_t_negative w x hneg (by omega)
  have h2 : e.dimension ≤ to_size_t w x := by
    have : ((e.dimension : Nat) : Int) ≤ ((to_size_t w x : Nat) : Int) := by
      rw [h1]
      have hn' : (2 : Int) * ((e.dimension : Nat) : Int) ≤ ((2 ^ w : Nat) : Int) := by
        exact_mod_cast hn
      omega
    exact Int.ofNat_le.mp this
  refine ⟨h1, h2, ?_⟩
  show transpose_impl_none w e p = _
  rw [transpose_impl_none_eq w e p hst, if_neg (by simpa using hlen), if_neg]
  intro hall
  have := hall x hx
  unfold xexpression.dimension at h2
  omega

/-- Witness of C29: the (2, 3) example array with the permutation (0, -1). -/
theorem transpose_negative_entry_witness :
    example_array.strides.length = example_array.shape.length ∧
    [(0 : Int), -1].length = example_array.dimension ∧
    (-1 : Int) ∈ [(0 : Int), -1] ∧ (-1 : Int) < 0 ∧
    -((2 ^ 64 : Nat) : Int) ≤ 2 * (-1) ∧
    2 * example_array.dimension ≤ 2 ^ 64 ∧
    to_size_t 64 (-1) = 18446744073709551615 ∧
    ((to_size_t 64 (-1) : Nat) : Int) = -1 + ((2 ^ 64 : Nat) : Int) ∧
    example_array.dimension ≤ to_size_t 64 (-1) ∧
    transpose_perm 64 example_array [0, -1] check_policy.none =
      .error failure.transpose_axis :=
  ⟨rfl, rfl, by decide, by decide, by decide, by decide, by decide,
    transpose_negative_entry 64 example_array [0, -1] (-1) rfl rfl (by decide) (by decide)
      (by decide) (by decide)⟩

/-! ## Checked access and broadcasting -/

theorem check_index_out_of_range (shape index : List Nat) (hlen : index.length = shape.length)
    (h : ∃ i, i < shape.length ∧ shape.getD i 0 ≤ index.getD i 0) :
    check_index shape index = .error failure.out_of_range := by
  obtain ⟨i, hi, hle⟩ := h
  unfold check_index
  rw [if_neg (by omega), if_pos]
  rw [hlen, Nat.sub_self, List.drop_zero]
  have hi2 : i < index.length := by omega
  rw [getD_eq_getElem_of_lt shape i 0 hi, getD_eq_getElem_of_lt index i 0 hi2] at hle
  apply List.any_eq_true.mpr
  refine ⟨true, ?_, rfl⟩
  have hiz : i < (List.zipWith (fun s a => decide (s ≤ a)) shape index).length := by
    simp; omega
  have : (List.zipWith (fun s a => decide (s ≤ a)) shape index)[i] = true := by
    simp [hle]
  rw [← this]
  exact List.getElem_mem hiz

/-- C21. For a strided view and as many indices as the view has axes, the
checked accessor `at` fails with the out-of-range error if some index is equal
to or greater than the extent of its axis, and otherwise returns what
`operator()` returns, with or without its own index check. -/
theorem at_checks_bounds {CT α : Type} (w : Nat) (enable_assert : Bool)
    (v : xstrided_view CT (List α)) (idx : List Nat)
    (hlen : idx.length = v.dimension) :
    ((∃ i, i < v.dimension ∧ v.shape.getD i 0 ≤ idx.getD i 0) →
      v.at_ w enable_assert idx = .error failure.out_of_range) ∧
    ((∀ i, i < v.dimension → idx.getD i 0 < v.shape.getD i 0) →
      v.at_ w enable_assert idx = v.call w false idx ∧
      v.at_ w enable_assert idx = v.call w enable_assert idx) := by
  have hlen' : idx.length = v.shape.length := hlen
  constructor
  · intro h
    unfold xstrided_view.at_ check_access
    rw [if_neg (by omega), check_index_out_of_range v.shape idx hlen' h]
    rfl
  · intro h
    have hin : in_bounds v.shape idx := ⟨hlen', h⟩
    have hat : v.at_ w enable_assert idx = v.call w enable_assert idx := by
      unfold xstrided_view.at_ check_access
      rw [if_neg (by omega), check_index_ok v.shape idx hin]
      rfl
    refine ⟨?_, hat⟩
    rw [hat]
    unfold xstrided_view.call
    cases enable_assert with
    | false => rfl
    | true =>
      simp only [XTENSOR_TRY, if_true]
      rw [check_index_ok v.shape idx hin]
      rfl

/-- Witness of C21: the transpose of the (2, 3) example array, of shape
(3, 2): `at(3, 0)` fails with the out-of-range error and `at(2, 1)` returns
6. -/
theorem at_checks_bounds_witness :
    [3, 0].length = (transpose 64 example_array).dimension ∧
    (transpose 64 example_array).at_ 64 false [3, 0] = .error failure.out_of_range ∧
    (transpose 64 example_array).at_ 64 false [2, 1] = .ok 6 ∧
    ((∃ i, i < (transpose 64 example_array).dimension ∧
        (transpose 64 example_array).shape.getD i 0 ≤ [3, 0].getD i 0) →
      (transpose 64 example_array).at_ 64 false [3, 0] = .error failure.out_of_range) ∧
    ((∀ i, i < (transpose 64 example_array).dimension →
        [3, 0].getD i 0 < (transpose 64 example_array).shape.getD i 0) →
      (transpose 64 example_array).at_ 64 false [3, 0] =
        (transpose 64 example_array).call 64 false [3, 0] ∧
      (transpose 64 example_array).at_ 64 false [3, 0] =
        (transpose 64 example_array).call 64 false [3, 0]) :=
  ⟨rfl, rfl, rfl, at_checks_bounds 64 false (transpose 64 example_array) [3, 0] rfl⟩

theorem std_equal_iff (a b : List Nat) (hlen : a.length = b.length) :
    std_equal a b = true ↔ a = b := by
  induction a generalizing b with
  | nil =>
    cases b with
    | nil => simp [std_equal]
    | cons y t => simp at hlen
  | cons x r ih =>
    cases b with
    | nil => simp at hlen
    | cons y t =>
      simp only [List.length_cons, Nat.add_right_cancel_iff] at hlen
      by_cases hxy : x = y
      · simp [std_equal, hxy, ih t hlen]
      · simp [std_equal, hxy]

/-- C22. For a strided view and a stride sequence `t`,
`is_trivial_broadcast(t)` returns true exactly when `t` has the length of the
strides of the view and `t[i]` equals stride `i` of the view for every `i`. -/
theorem is_trivial_broadcast_iff {CT CD : Type} (v : xstrided_view CT CD) (t : List Nat) :
    v.is_trivial_broadcast t = true ↔
      (t.length = v.strides.length ∧ ∀ i, i < t.length → t.getD i 0 = v.strides.getD i 0) := by
  unfold xstrided_view.is_trivial_broadcast
  by_cases hlen : t.length = v.strides.length
  · rw [if_pos hlen, std_equal_iff t v.strides hlen]
    constructor
    · intro h
      exact ⟨hlen, fun i _ => by rw [h]⟩
    · rintro ⟨_, h⟩
      exact ext_getD t v.strides hlen h
  · rw [if_neg hlen]
    constructor
    · intro h; cases h
    · rintro ⟨h, _⟩; exact absurd h hlen

/-! ## The size invariant -/

theorem slice_step_length_strides (w : Nat) (old_shape old_strides : List Nat) (i : Nat)
    (st st' : view_state) (sl : slice_variant)
    (h : slice_step w old_shape old_strides i st sl = .ok st') :
    st'.new_strides.length = st.new_strides.length := by
  cases sl with
  | index c =>
    simp only [slice_step, bind, Except.bind] at h
    split at h
    · cases h
    · cases h; rfl
  | newaxis =>
    simp only [slice_step, bind, Except.bind] at h
    split at h
    · cases h
    · split at h
      · cases h
      · rename_i nt hnt
        cases h; exact write_length _ _ _ _ hnt
  | all =>
    simp only [slice_step, bind, Except.bind] at h
    split at h
    · cases h
    · split at h
      · cases h
      · split at h
        · cases h
        · split at h
          · cases h
          · rename_i nt hnt
            cases h; exact write_length _ _ _ _ hnt
  | range_adaptor g =>
    simp only [slice_step, slice_getter_impl, bind, Except.bind] at h
    split at h
    · cases h
    · split at h
      · cases h
      · split at h
        · cases h
        · split at h
          · cases h
          · split at h
            · cases h
            · rename_i nt hnt
              cases h; exact write_length _ _ _ _ hnt

theorem slice_loop_length_strides (w : Nat) (old_shape old_strides : List Nat)
    (slices : List slice_variant) :
    ∀ (i : Nat) (st : view_state) (r : Nat × view_state),
      slice_loop w old_shape old_strides slices i st = .ok r →
      r.2.new_strides.length = st.new_strides.length := by
  induction slices with
  | nil =>
    intro i st r h
    simp only [slice_loop] at h
    cases h
    rfl
  | cons sl rest ih =>
    intro i st r h
    simp only [slice_loop, bind, Except.bind] at h
    split at h
    · cases h
    · rename_i st1 hst1
      rw [ih _ _ _ h, slice_step_length_strides w old_shape old_strides i st st1 sl hst1]

theorem trailing_loop_length_strides (old_shape old_strides : List Nat) :
    ∀ (k i : Nat) (st st' : view_state),
      trailing_loop old_shape old_strides k i st = .ok st' →
      st'.new_strides.length = st.new_strides.length := by
  intro k
  induction k with
  | zero =>
    intro i st st' h
    simp only [trailing_loop] at h
    cases h
    rfl
  | succ k ih =>
    intro i st st' h
    simp only [trailing_loop, bind, Except.bind] at h
    split at h
    · cases h
    · split at h
      · cases h
      · split at h
        · cases h
        · split at h
          · cases h
          · rename_i nt hnt
            rw [ih _ _ _ h]
            exact write_length _ _ _ _ hnt

theorem dynamic_view_geometry_lengths (w : Nat) (shape strides : List Nat) (offset : Nat)
    (slices : List slice_variant) (g : List Nat × List Nat × Nat)
    (h : dynamic_view_geometry w shape strides offset slices = .ok g) :
    g.1.length = compute_dimension w slices shape.length ∧
    g.2.1.length = compute_dimension w slices shape.length := by
  simp only [dynamic_view_geometry, bind, Except.bind] at h
  split at h
  · cases h
  · rename_i r hr
    split at h
    · cases h
    · rename_i st2 hst2
      cases h
      constructor
      · show st2.new_shape.length = _
        rw [trailing_loop_length _ _ _ _ _ _ hst2, slice_loop_length w _ _ _ _ _ _ hr]
        simp
      · show st2.new_strides.length = _
        rw [trailing_loop_length_strides _ _ _ _ _ _ hst2,
          slice_loop_length_strides w _ _ _ _ _ _ hr]
        simp

theorem length_adapt_strides (w : Nat) (shape strides : List Nat) :
    (adapt_strides w shape strides).length = shape.length := by
  simp [adapt_strides]

/-- C23 as stated fails: the view `strided_view(a, (2), (3, 1))` has one
extent and one backstride but two strides. -/
theorem strided_view_sizes_can_differ :
    mismatched_view.shape.length = 1 ∧ mismatched_view.backstrides.length = 1 ∧
    mismatched_view.strides.length = 2 ∧
    mismatched_view.strides.length ≠ mismatched_view.shape.length :=
  ⟨rfl, rfl, rfl, by decide⟩

/-- C23 (amended). Every view has as many backstrides as extents. A view that
`dynamic_view` returns, on either data path, also has as many strides as
extents; a view that `transpose` returns has as many strides as extents when
its source has; a view built by `strided_view` has as many strides as extents
exactly when the caller passes strides and shape of the same size. -/
theorem view_sizes {α : Type} (w : Nat) (e : xexpression α) :
    (∀ (shape strides : List Nat) (offset : Nat) (layout : layout_type),
      (strided_view w e shape strides offset layout).backstrides.length =
        (strided_view w e shape strides offset layout).shape.length ∧
      ((strided_view w e shape strides offset layout).strides.length =
        (strided_view w e shape strides offset layout).shape.length ↔
          strides.length = shape.length)) ∧
    ((transpose w e).backstrides.length = (transpose w e).shape.length ∧
      (e.strides.length = e.shape.length →
        (transpose w e).strides.length = (transpose w e).shape.length)) ∧
    (∀ (p : List Int) (tag : check_policy) (v : xstrided_view (xexpression α) (List α)),
      e.strides.length = e.shape.length → transpose_perm w e p tag = .ok v →
      v.strides.length = v.shape.length ∧ v.backstrides.length = v.shape.length) ∧
    (∀ (slices : List slice_variant) (v : xstrided_view (xexpression α) (List α)),
      dynamic_view w e slices = .ok v →
      v.strides.length = v.shape.length ∧ v.backstrides.length = v.shape.length) ∧
    (∀ (layout : layout_type) (a : xaccessor_expression α) (slices : List slice_variant)
      (v : xstrided_view (xaccessor_expression α) (expression_adaptor α)),
      dynamic_view_adaptor w layout a slices = .ok v →
      v.strides.length = v.shape.length ∧ v.backstrides.length = v.shape.length) := by
  refine ⟨?_, ?_, ?_, ?_, ?_⟩
  · intro shape strides offset layout
    exact ⟨length_adapt_strides w shape strides, Iff.rfl⟩
  · refine ⟨length_adapt_strides w _ _, fun hst => ?_⟩
    show (std_copy e.strides.reverse (resize_container e.strides.length)).length =
      (std_copy e.shape.reverse (resize_container e.shape.length)).length
    rw [std_copy_reverse_resize, std_copy_reverse_resize, List.length_reverse,
      List.length_reverse, hst]
  · intro p tag v hst hv
    have hnone : ∀ v', transpose_impl_none w e p = .ok v' →
        v'.strides.length = v'.shape.length ∧ v'.backstrides.length = v'.shape.length := by
      intro v' hv'
      rw [transpose_impl_none_eq w e p hst] at hv'
      split at hv'
      · cases hv'
      · split at hv'
        · cases hv'
          exact ⟨by simp [xstrided_view.strides, xstrided_view.shape, xstrided_view.mk_expr,
            xstrided_view.mk_data], length_adapt_strides w _ _⟩
        · cases hv'
    cases tag with
    | none => exact hnone v hv
    | full =>
      have hv2 : transpose_impl_full w e p = .ok v := hv
      rw [transpose_impl_full_eq] at hv2
      split at hv2
      · exact hnone v hv2
      · cases hv2
  · intro slices v hv
    simp only [dynamic_view, bind, Except.bind] at hv
    split at hv
    · cases hv
    · rename_i g hg
      obtain ⟨h1, h2⟩ := dynamic_view_geometry_lengths w _ _ _ _ g hg
      cases hv
      exact ⟨by show g.2.1.length = g.1.length; rw [h1, h2], length_adapt_strides w _ _⟩
  · intro layout a slices v hv
    simp only [dynamic_view_adaptor, bind, Except.bind] at hv
    split at hv
    · cases hv
    · rename_i g hg
      obtain ⟨h1, h2⟩ := dynamic_view_geometry_lengths w _ _ _ _ g hg
      cases hv
      exact ⟨by show g.2.1.length = g.1.length; rw [h1, h2], length_adapt_strides w _ _⟩

/-! ## Negative steps -/

theorem sliced_strides_append (w : Nat) (pre rest : List slice_variant) :
    ∀ shape strides,
      sliced_strides w (pre ++ rest) shape strides =
        sliced_strides w pre shape strides ++
          sliced_strides w rest (shape.drop (consumed_axes pre))
            (strides.drop (consumed_axes pre)) := by
  induction pre with
  | nil => intro shape strides; simp [sliced_strides, consumed_axes]
  | cons sl pre ih =>
    intro shape strides
    rw [List.cons_append]
    cases sl <;>
      simp only [sliced_strides, consumed_axes, List.cons_append, drop_succ_tail, ih]

theorem produced_axes_append (p q : List slice_variant) :
    produced_axes (p ++ q) = produced_axes p + produced_axes q := by
  induction p with
  | nil => simp [produced_axes]
  | cons sl p ih =>
    rw [List.cons_append]
    cases sl <;> simp only [produced_axes, ih] <;> omega

theorem headD_drop (l : List Nat) (a : Nat) : (l.drop a).headD 0 = l.getD a 0 := by
  induction a generalizing l with
  | zero => cases l <;> rfl
  | succ a ih =>
    cases l with
    | nil => rfl
    | cons x t => simp [ih t]

theorem getD_append_length (a b : List Nat) (x : Nat) (k : Nat) (h : a.length = k) :
    (a ++ x :: b).getD k 0 = x := by
  subst h
  induction a with
  | nil => rfl
  | cons y t ih => exact ih

theorem start_offsets_cast (w : Nat) (slices : List slice_variant) :
    ∀ shape strides,
      ((start_offsets w slices shape strides : Nat) : ZMod (2 ^ w)) =
        ((exact_start_offsets slices shape strides : Int) : ZMod (2 ^ w)) := by
  induction slices with
  | nil => intro shape strides; simp [start_offsets, exact_start_offsets]
  | cons sl rest ih =>
    intro shape strides
    cases sl with
    | index c =>
      simp only [start_offsets, exact_start_offsets]
      push_cast
      rw [ih, to_size_t_cast]
      simp
    | newaxis =>
      simp only [start_offsets, exact_start_offsets]
      exact ih _ _
    | all =>
      simp only [start_offsets, exact_start_offsets]
      exact ih _ _
    | range_adaptor g =>
      simp only [start_offsets, exact_start_offsets]
      push_cast
      rw [ih, to_size_t_cast]
      simp

theorem sliced_offset_cast (w : Nat) (slices : List slice_variant) (shape strides : List Nat)
    (offset : Nat) :
    ((sliced_offset w slices shape strides offset : Nat) : ZMod (2 ^ w)) =
      ((offset : Int) : ZMod (2 ^ w)) +
        ((exact_start_offsets slices shape strides : Int) : ZMod (2 ^ w)) := by
  have h := (ZMod.natCast_eq_natCast_iff _ _ _).2 (sliced_offset_modEq w slices shape strides offset)
  rw [h]
  push_cast
  rw [start_offsets_cast]

theorem int_eq_of_cast_eq (w N : Nat) (x : Int) (h0 : 0 ≤ x) (h1 : x < ((2 ^ w : Nat) : Int))
    (h : ((N : Nat) : ZMod (2 ^ w)) = ((x : Int) : ZMod (2 ^ w))) :
    ((N % 2 ^ w : Nat) : Int) = x := by
  have h2 : (((N : Nat) : Int) : ZMod (2 ^ w)) = ((x : Int) : ZMod (2 ^ w)) := by
    rw [← h]; simp
  have h3 := (ZMod.intCast_eq_intCast_iff' _ _ _).1 h2
  rw [Int.emod_eq_of_lt h0 h1] at h3
  rw [← h3]
  simp

theorem dot_replicate_zero (m : Nat) :
    ∀ l : List Nat, (List.zipWith (fun s a => s * a) l (List.replicate m 0)).sum = 0 := by
  induction m with
  | zero => intro l; simp
  | succ m ih =>
    intro l
    cases l with
    | nil => simp
    | cons x t => simp [List.replicate_succ, ih t]

theorem dot_axis_index (m idx : Nat) :
    ∀ (k : Nat) (l : List Nat),
      (List.zipWith (fun s a => s * a) l
        (List.replicate k 0 ++ idx :: List.replicate m 0)).sum = l.getD k 0 * idx := by
  intro k
  induction k with
  | zero =>
    intro l
    cases l with
    | nil => simp
    | cons x t => simp [dot_replicate_zero m t]
  | succ k ih =>
    intro l
    cases l with
    | nil => simp
    | cons x t =>
      have := ih t
      simp [List.replicate_succ, this]

theorem index_axis_index {CT CD : Type} (w : Nat) (v : xstrided_view CT CD) (k idx : Nat)
    (hlen : v.strides.length = v.dimension) (hk : k < v.dimension) :
    v.index w (axis_index v.dimension k idx) =
      (v.raw_data_offset + idx * v.strides.getD k 0) % 2 ^ w := by
  have hl : (axis_index v.dimension k idx).length = v.strides.length := by
    simp [axis_index]; omega
  unfold xstrided_view.index element_offset
  rw [hl, Nat.sub_self, List.drop_zero]
  unfold axis_index
  rw [dot_axis_index, Nat.add_mod_mod, Nat.mul_comm]
  rfl

/-- C25. Let a slice list have a range descriptor after the descriptors
`pre`, so that it applies to the source axis `a` = (number of descriptors of
`pre` that are not a new axis) of stride `s` and gives the output axis `k` =
(number of descriptors of `pre` that are not an integer), and let the range
resolve to (start, length, step), with a step of any sign, in particular a
negative one. Then `dynamic_view` returns a view whose stride on axis `k` is
`std::size_t(step) * s` modulo `2 ^ w`; the accessor of the view at the
multi-index that is `idx` on axis `k` and 0 elsewhere computes
`(offset + idx * stored_stride) mod 2 ^ w`; and that address equals the exact
integer `start_offset + idx * step * s` whenever the exact value lies in
`[0, 2 ^ w)`, both with the offset of the view as the start offset and with the
exact integer (source offset + sum of start times stride over the
descriptors) as the start offset. -/
theorem negative_step_wraps {α : Type} (w : Nat) (e : xexpression α)
    (pre post : List slice_variant) (g : Nat → Int × Int × Int)
    (hst : e.strides.length = e.shape.length)
    (hcons : consumed_axes (pre ++ slice_variant.range_adaptor g :: post) ≤ e.dimension)
    (hd : e.dimension + count_newaxis (pre ++ slice_variant.range_adaptor g :: post) < 2 ^ w) :
    ∃ v, dynamic_view w e (pre ++ slice_variant.range_adaptor g :: post) = .ok v ∧
      v.strides.getD (produced_axes pre) 0 =
        (to_size_t w (g (e.shape.getD (consumed_axes pre) 0)).2.2 *
          e.strides.getD (consumed_axes pre) 0) % 2 ^ w ∧
      ∀ idx : Nat,
        v.index w (axis_index v.dimension (produced_axes pre) idx) =
          (v.raw_data_offset + idx * v.strides.getD (produced_axes pre) 0) % 2 ^ w ∧
        (∀ exact : Int,
          exact = Int.ofNat v.raw_data_offset +
            Int.ofNat idx * (g (e.shape.getD (consumed_axes pre) 0)).2.2 *
              Int.ofNat (e.strides.getD (consumed_axes pre) 0) →
          0 ≤ exact → exact < Int.ofNat (2 ^ w) →
          Int.ofNat ((v.raw_data_offset + idx * v.strides.getD (produced_axes pre) 0) % 2 ^ w) =
            exact) ∧
        (∀ exact : Int,
          exact = Int.ofNat e.raw_data_offset +
            exact_start_offsets (pre ++ slice_variant.range_adaptor g :: post)
              e.shape e.strides +
            Int.ofNat idx * (g (e.shape.getD (consumed_axes pre) 0)).2.2 *
              Int.ofNat (e.strides.getD (consumed_axes pre) 0) →
          0 ≤ exact → exact < Int.ofNat (2 ^ w) →
          Int.ofNat ((v.raw_data_offset + idx * v.strides.getD (produced_axes pre) 0) % 2 ^ w) =
            exact) := by
  unfold xexpression.dimension at hcons hd
  have hstride : (expected_strides w (pre ++ slice_variant.range_adaptor g :: post)
      e.shape e.strides).getD (produced_axes pre) 0 =
        (to_size_t w (g (e.shape.getD (consumed_axes pre) 0)).2.2 *
          e.strides.getD (consumed_axes pre) 0) % 2 ^ w := by
    unfold expected_strides
    rw [sliced_strides_append]
    simp only [sliced_strides, List.append_assoc, List.cons_append]
    rw [getD_append_length _ _ _ _ (length_sliced_strides w pre _ _), headD_drop, headD_drop]
  have hlen : (expected_strides w (pre ++ slice_variant.range_adaptor g :: post)
      e.shape e.strides).length =
      (expected_shape w (pre ++ slice_variant.range_adaptor g :: post) e.shape).length := by
    rw [length_expected_strides, length_expected_shape, hst]
  have hk : produced_axes pre <
      (expected_shape w (pre ++ slice_variant.range_adaptor g :: post) e.shape).length := by
    unfold expected_shape
    rw [List.length_append, length_sliced_shape]
    rw [produced_axes_append]
    simp only [produced_axes]
    omega
  refine ⟨_, dynamic_view_eq w e _ hst hcons hd, hstride, ?_⟩
  intro idx
  refine ⟨index_axis_index w _ _ idx hlen hk, ?_, ?_⟩
  · intro exact hx h0 h1
    apply int_eq_of_cast_eq w _ exact h0 h1
    show (((sliced_offset w _ e.shape e.strides e.raw_data_offset +
      idx * (expected_strides w _ e.shape e.strides).getD (produced_axes pre) 0 : Nat)) :
        ZMod (2 ^ w)) = _
    rw [hstride, hx]
    simp only [Int.ofNat_eq_coe, xstrided_view.raw_data_offset, xstrided_view.mk_data]
    push_cast
    rw [ZMod.natCast_mod]
    push_cast
    rw [to_size_t_cast]
    ring
  · intro exact hx h0 h1
    apply int_eq_of_cast_eq w _ exact h0 h1
    show (((sliced_offset w _ e.shape e.strides e.raw_data_offset +
      idx * (expected_strides w _ e.shape e.strides).getD (produced_axes pre) 0 : Nat)) :
        ZMod (2 ^ w)) = _
    rw [hstride, hx]
    simp only [Int.ofNat_eq_coe]
    push_cast
    rw [ZMod.natCast_mod]
    push_cast
    rw [to_size_t_cast, sliced_offset_cast]
    push_cast
    ring

/-- Witness of C25: the (2, 3, 4) cube with the slice list [all, reversed
range]: the range resolves on the axis of extent 3 and stride 4 to (2, 3, -1);
the view has offset 8 and the stride `2 ^ 64 - 4` on axis 1, and its elements
at (0, 0, 0), (0, 1, 0), (0, 2, 0) are the source elements at the addresses
8, 4, 0. -/
theorem negative_step_wraps_witness :
    example_cube.strides.length = example_cube.shape.length ∧
    consumed_axes ([slice_variant.all] ++ slice_variant.range_adaptor reversed_get :: []) ≤
      example_cube.dimension ∧
    example_cube.dimension +
      count_newaxis ([slice_variant.all] ++ slice_variant.range_adaptor reversed_get :: []) <
        2 ^ 64 ∧
    reversed_get (example_cube.shape.getD 1 0) = (2, 3, -1) ∧
    (∃ v, dynamic_view 64 example_cube
        ([slice_variant.all] ++ slice_variant.range_adaptor reversed_get :: []) = .ok v ∧
      v.shape = [2, 3, 4] ∧ v.strides = [12, 18446744073709551612, 1] ∧
      v.raw_data_offset = 8 ∧
      v.index 64 [0, 0, 0] = 8 ∧ v.index 64 [0, 1, 0] = 4 ∧ v.index 64 [0, 2, 0] = 0 ∧
      v.call 64 true [0, 1, 0] = .ok 4 ∧ v.call 64 true [1, 2, 0] = .ok 12) ∧
    ∃ v, dynamic_view 64 example_cube
        ([slice_variant.all] ++ slice_variant.range_adaptor reversed_get :: []) = .ok v ∧
      v.strides.getD (produced_axes [slice_variant.all]) 0 =
        (to_size_t 64 (reversed_get (example_cube.shape.getD
            (consumed_axes [slice_variant.all]) 0)).2.2 *
          example_cube.strides.getD (consumed_axes [slice_variant.all]) 0) % 2 ^ 64 ∧
      ∀ idx : Nat,
        v.index 64 (axis_index v.dimension (produced_axes [slice_variant.all]) idx) =
          (v.raw_data_offset + idx * v.strides.getD (produced_axes [slice_variant.all]) 0) %
            2 ^ 64 ∧
        (∀ exact : Int,
          exact = Int.ofNat v.raw_data_offset +
            Int.ofNat idx * (reversed_get (example_cube.shape.getD
                (consumed_axes [slice_variant.all]) 0)).2.2 *
              Int.ofNat (example_cube.strides.getD (consumed_axes [slice_variant.all]) 0) →
          0 ≤ exact → exact < Int.ofNat (2 ^ 64) →
          Int.ofNat ((v.raw_data_offset +
              idx * v.strides.getD (produced_axes [slice_variant.all]) 0) % 2 ^ 64) =
            exact) ∧
        (∀ exact : Int,
          exact = Int.ofNat example_cube.raw_data_offset +
            exact_start_offsets
              ([slice_variant.all] ++ slice_variant.range_adaptor reversed_get :: [])
              example_cube.shape example_cube.strides +
            Int.ofNat idx * (reversed_get (example_cube.shape.getD
                (consumed_axes [slice_variant.all]) 0)).2.2 *
              Int.ofNat (example_cube.strides.getD (consumed_axes [slice_variant.all]) 0) →
          0 ≤ exact → exact < Int.ofNat (2 ^ 64) →
          Int.ofNat ((v.raw_data_offset +
              idx * v.strides.getD (produced_axes [slice_variant.all]) 0) % 2 ^ 64) =
            exact) :=
  ⟨rfl, by decide, by decide, rfl, ⟨_, rfl, rfl, rfl, rfl, rfl, rfl, rfl, rfl, rfl⟩,
    negative_step_wraps 64 example_cube [slice_variant.all] [] reversed_get rfl
      (by decide) (by decide)⟩

/-! ## Scalar assignment -/

theorem mem_multi_indices (shape : List Nat) :
    ∀ idx, idx ∈ multi_indices shape ↔ in_bounds shape idx := by
  induction shape with
  | nil =>
    intro idx
    rw [in_bounds_iff_forall₂]
    simp [multi_indices]
  | cons n rest ih =>
    intro idx
    rw [in_bounds_iff_forall₂]
    simp only [multi_indices, List.mem_flatMap, List.mem_range, List.mem_map]
    constructor
    · rintro ⟨i, hi, t, ht, rfl⟩
      exact List.Forall₂.cons hi ((in_bounds_iff_forall₂ rest t).1 ((ih t).1 ht))
    · intro h
      cases h with
      | cons hi ht => exact ⟨_, hi, _, (ih _).2 ((in_bounds_iff_forall₂ rest _).2 ht), rfl⟩

theorem std_fill_spec {CT α : Type} (w : Nat) (v : xstrided_view CT (List α)) (c : α)
    (l : List (List Nat)) :
    ∀ data : List α, (∀ idx ∈ l, v.index w idx < data.length) →
      ∃ filled, std_fill w v c l data = .ok filled ∧ filled.length = data.length ∧
        (∀ idx ∈ l, filled[v.index w idx]? = some c) ∧
        (∀ j : Nat, data[j]? = some c → filled[j]? = some c) ∧
        (∀ j : Nat, (∀ idx ∈ l, v.index w idx ≠ j) → filled[j]? = data[j]?) := by
  induction l with
  | nil =>
    intro data _
    exact ⟨data, rfl, rfl, (fun _ h => absurd h (List.not_mem_nil _)), (fun _ h => h),
      (fun _ _ => rfl)⟩
  | cons a rest ih =>
    intro data h
    have ha : v.index w a < data.length := h a (List.mem_cons_self _ _)
    obtain ⟨filled, hf, hlen, hin, hkeep, hout⟩ := ih (data.set (v.index w a) c)
      (fun idx hidx => by
        rw [List.length_set]
        exact h idx (List.mem_cons_of_mem _ hidx))
    refine ⟨filled, ?_, ?_, ?_, ?_, ?_⟩
    · simp only [std_fill, bind, Except.bind]
      rw [write_eq_ok _ _ _ ha]
      exact hf
    · rw [hlen, List.length_set]
    · intro idx hidx
      rcases List.mem_cons.1 hidx with rfl | hidx
      · exact hkeep _ (List.getElem?_set_self ha)
      · exact hin idx hidx
    · intro j hj
      apply hkeep
      by_cases hji : v.index w a = j
      · subst hji
        exact List.getElem?_set_self ha
      · rw [List.getElem?_set_ne hji]
        exact hj
    · intro j hj
      rw [hout j (fun idx hidx => hj idx (List.mem_cons_of_mem _ hidx)),
        List.getElem?_set_ne (hj a (List.mem_cons_self _ _))]

/-- C24. For a strided view over a writable buffer, every in-bounds
multi-index of which addresses an element of the buffer, and a scalar `c`:
the assignment of `c` returns; afterwards the accessor of the view returns `c`
at every in-bounds multi-index; the shape, the strides, the backstrides, the
offset and the layout of the view are those before the assignment; and the
buffer keeps its size and its elements at the positions that no in-bounds
multi-index of the view addresses. -/
theorem assign_scalar_fills {CT α : Type} (w : Nat) (enable_assert : Bool)
    (v : xstrided_view CT (List α)) (c : α)
    (hbuf : ∀ idx, in_bounds v.shape idx → v.index w idx < v.m_data.length) :
    ∃ u, v.assign_scalar w c = .ok u ∧
      (∀ idx, in_bounds u.shape idx → u.call w enable_assert idx = .ok c) ∧
      u.shape = v.shape ∧ u.strides = v.strides ∧ u.backstrides = v.backstrides ∧
      u.raw_data_offset = v.raw_data_offset ∧ u.layout = v.layout ∧
      u.m_data.length = v.m_data.length ∧
      ∀ j : Nat, (∀ idx, in_bounds v.shape idx → v.index w idx ≠ j) →
        u.m_data[j]? = v.m_data[j]? := by
  obtain ⟨filled, hf, hlen, hin, _, hout⟩ := std_fill_spec w v c (multi_indices v.shape) v.m_data
    (fun idx hidx => hbuf idx ((mem_multi_indices v.shape idx).1 hidx))
  refine ⟨{ v with m_data := filled }, ?_, ?_, rfl, rfl, rfl, rfl, rfl, hlen, ?_⟩
  · simp only [xstrided_view.assign_scalar, bind, Except.bind]
    rw [hf]
  · intro idx hidx
    have hidx2 : in_bounds v.shape idx := hidx
    have h1 := hin idx ((mem_multi_indices v.shape idx).2 hidx2)
    have hchk : check_index ({ v with m_data := filled } : xstrided_view CT (List α)).shape idx =
        .ok () := check_index_ok _ _ hidx
    have hread : read filled (v.index w idx) = .ok c := by
      unfold read
      rw [h1]
    cases enable_assert
    · simp only [xstrided_view.call, XTENSOR_TRY, bind, Except.bind]
      exact hread
    · simp only [xstrided_view.call, XTENSOR_TRY, bind, Except.bind, hchk]
      exact hread
  · intro j hj
    exact hout j (fun idx hidx => hj idx ((mem_multi_indices v.shape idx).1 hidx))

/-- Witness of C24: the view `offset_view` of the vector [10, 20, 30] (shape
(2), offset 1) after the assignment of 7: the buffer is [10, 7, 7] and the
view reads 7 at (0) and at (1). -/
theorem assign_scalar_fills_witness :
    (∀ idx, in_bounds offset_view.shape idx → offset_view.index 64 idx < offset_view.m_data.length) ∧
    (∃ u, offset_view.assign_scalar 64 7 = .ok u ∧ u.m_data = [10, 7, 7] ∧
      u.call 64 true [0] = .ok 7 ∧ u.call 64 true [1] = .ok 7) ∧
    ∃ u, offset_view.assign_scalar 64 7 = .ok u ∧
      (∀ idx, in_bounds u.shape idx → u.call 64 true idx = .ok 7) ∧
      u.shape = offset_view.shape ∧ u.strides = offset_view.strides ∧
      u.backstrides = offset_view.backstrides ∧
      u.raw_data_offset = offset_view.raw_data_offset ∧ u.layout = offset_view.layout ∧
      u.m_data.length = offset_view.m_data.length ∧
      ∀ j : Nat, (∀ idx, in_bounds offset_view.shape idx → offset_view.index 64 idx ≠ j) →
        u.m_data[j]? = offset_view.m_data[j]? :=
  have hbuf : ∀ idx, in_bounds offset_view.shape idx →
      offset_view.index 64 idx < offset_view.m_data.length := by
    intro idx h
    have hmem := (mem_multi_indices offset_view.shape idx).2 h
    have hall : ∀ t ∈ multi_indices offset_view.shape,
        offset_view.index 64 t < offset_view.m_data.length := by decide
    exact hall idx hmem
  ⟨hbuf, ⟨_, rfl, rfl, rfl, rfl⟩, assign_scalar_fills 64 true offset_view 7 hbuf⟩

/-! ## Accesses of `dynamic_view` -/

theorem read_ok_lt {β : Type} (l : List β) (k : Nat) (x : β) (h : read l k = .ok x) :
    k < l.length := by
  unfold read at h
  by_contra hk
  rw [List.getElem?_eq_none (by omega)] at h
  cases h

theorem reads_bounded_refl (d : Nat) (l : List Nat) : ∀ r ∈ l, r ∈ l ∨ r < d :=
  fun _ hr => Or.inl hr

theorem reads_bounded_append (d k : Nat) (l m : List Nat) (hk : k < d)
    (h : ∀ r ∈ m, r ∈ l ∨ r < d) : ∀ r ∈ m ++ [k], r ∈ l ∨ r < d := by
  intro r hr
  rcases List.mem_append.1 hr with h1 | h1
  · exact h r h1
  · rw [List.mem_singleton.1 h1]
    exact Or.inr hk

theorem log_extends_refl (d : Nat) (log : access_log) (idx : Nat) :
    log_extends d log log idx idx :=
  ⟨Nat.le_refl _, by simp, by simp, reads_bounded_refl d _, reads_bounded_refl d _⟩

theorem log_extends_trans (d : Nat) (a b c : access_log) (i j k : Nat)
    (h1 : log_extends d a b i j) (h2 : log_extends d b c j k) : log_extends d a c i k := by
  obtain ⟨hij, hs1, ht1, hr1, hq1⟩ := h1
  obtain ⟨hjk, hs2, ht2, hr2, hq2⟩ := h2
  have e : List.range' i (j - i) ++ List.range' j (k - j) = List.range' i (k - i) := by
    have := List.range'_append_1 i (j - i) (k - j)
    rw [show i + (j - i) = j by omega, show k - j + (j - i) = k - i by omega] at this
    exact this
  refine ⟨by omega, ?_, ?_, ?_, ?_⟩
  · rw [hs2, hs1, List.append_assoc, e]
  · rw [ht2, ht1, List.append_assoc, e]
  · intro r hr
    rcases hr2 r hr with h | h
    · exact hr1 r h
    · exact Or.inr h
  · intro r hr
    rcases hq2 r hr with h | h
    · exact hq1 r h
    · exact Or.inr h

theorem slice_step_traced_spec (w : Nat) (old_shape old_strides : List Nat)
    (hst : old_strides.length = old_shape.length) (i : Nat)
    (st : view_state) (log : access_log) (sl : slice_variant) :
    (slice_step_traced w old_shape old_strides i st log sl).map Prod.fst =
      slice_step w old_shape old_strides i st sl ∧
    ∀ r, slice_step_traced w old_shape old_strides i st log sl = .ok r →
      log_extends old_shape.length log r.2 st.idx r.1.idx := by
  cases sl with
  | index c =>
    simp only [slice_step_traced, slice_step, read_old_strides, bind, Except.bind, Except.map]
    cases h1 : read old_strides (i - st.newaxis_skip) with
    | error f => exact ⟨rfl, fun r hr => nomatch hr⟩
    | ok s =>
      have hk := read_ok_lt _ _ _ h1
      refine ⟨rfl, fun r hr => ?_⟩
      cases hr
      exact ⟨Nat.le_refl _, by simp, by simp, reads_bounded_refl _ _,
        reads_bounded_append _ _ _ _ (by omega) (reads_bounded_refl _ _)⟩
  | newaxis =>
    simp only [slice_step_traced, slice_step, write_new_shape, write_new_strides, bind,
      Except.bind, Except.map]
    cases h1 : write st.new_shape st.idx 1 with
    | error f => exact ⟨rfl, fun r hr => nomatch hr⟩
    | ok a =>
      cases h2 : write st.new_strides st.idx 0 with
      | error f => exact ⟨rfl, fun r hr => nomatch hr⟩
      | ok b =>
        refine ⟨rfl, fun r hr => ?_⟩
        cases hr
        exact ⟨Nat.le_succ _, by simp, by simp, reads_bounded_refl _ _, reads_bounded_refl _ _⟩
  | all =>
    simp only [slice_step_traced, slice_step, read_old_shape, read_old_strides, write_new_shape,
      write_new_strides, bind, Except.bind, Except.map]
    cases h1 : read old_shape (i - st.newaxis_skip) with
    | error f => exact ⟨rfl, fun r hr => nomatch hr⟩
    | ok x =>
      have hk := read_ok_lt _ _ _ h1
      dsimp only
      cases h2 : write st.new_shape st.idx x with
      | error f => exact ⟨rfl, fun r hr => nomatch hr⟩
      | ok a =>
        cases h3 : read old_strides (i - st.newaxis_skip) with
        | error f => exact ⟨rfl, fun r hr => nomatch hr⟩
        | ok y =>
          dsimp only
          cases h4 : write st.new_strides st.idx y with
          | error f => exact ⟨rfl, fun r hr => nomatch hr⟩
          | ok b =>
            refine ⟨rfl, fun r hr => ?_⟩
            cases hr
            exact ⟨Nat.le_succ _, by simp, by simp,
              reads_bounded_append _ _ _ _ hk (reads_bounded_refl _ _),
              reads_bounded_append _ _ _ _ hk (reads_bounded_refl _ _)⟩
  | range_adaptor g =>
    simp only [slice_step_traced, slice_step, slice_getter_traced, slice_getter_impl,
      read_old_shape, read_old_strides, write_new_shape, write_new_strides, bind, Except.bind,
      Except.map]
    cases h1 : read old_shape (i - st.newaxis_skip) with
    | error f => exact ⟨rfl, fun r hr => nomatch hr⟩
    | ok x =>
      have hk := read_ok_lt _ _ _ h1
      cases h3 : read old_strides (i - st.newaxis_skip) with
      | error f => exact ⟨rfl, fun r hr => nomatch hr⟩
      | ok y =>
        dsimp only
        cases h2 : write st.new_shape st.idx (to_size_t w (g x).2.1) with
        | error f => exact ⟨rfl, fun r hr => nomatch hr⟩
        | ok a =>
          dsimp only
          cases h4 : write st.new_strides st.idx ((to_size_t w (g x).2.2 * y) % 2 ^ w) with
          | error f => exact ⟨rfl, fun r hr => nomatch hr⟩
          | ok b =>
            refine ⟨rfl, fun r hr => ?_⟩
            cases hr
            exact ⟨Nat.le_succ _, by simp, by simp,
              reads_bounded_append _ _ _ _ hk (reads_bounded_refl _ _),
              reads_bounded_append _ _ _ _ hk
                (reads_bounded_append _ _ _ _ hk (reads_bounded_refl _ _))⟩

theorem slice_loop_traced_spec (w : Nat) (old_shape old_strides : List Nat)
    (hst : old_strides.length = old_shape.length) (slices : List slice_variant) :
    ∀ (i : Nat) (st : view_state) (log : access_log),
      (slice_loop_traced w old_shape old_strides slices i st log).map
          (fun r => (r.1, r.2.1)) =
        slice_loop w old_shape old_strides slices i st ∧
      ∀ r, slice_loop_traced w old_shape old_strides slices i st log = .ok r →
        log_extends old_shape.length log r.2.2 st.idx r.2.1.idx := by
  induction slices with
  | nil =>
    intro i st log
    refine ⟨rfl, fun r hr => ?_⟩
    simp only [slice_loop_traced] at hr
    cases hr
    exact log_extends_refl _ _ _
  | cons sl rest ih =>
    intro i st log
    obtain ⟨he, hl⟩ := slice_step_traced_spec w old_shape old_strides hst i st log sl
    simp only [slice_loop_traced, slice_loop, bind, Except.bind]
    cases h1 : slice_step_traced w old_shape old_strides i st log sl with
    | error f =>
      rw [h1] at he
      rw [← he]
      exact ⟨rfl, fun r hr => nomatch hr⟩
    | ok r1 =>
      rw [h1] at he
      rw [← he]
      obtain ⟨he2, hl2⟩ := ih (i + 1) r1.1 r1.2
      refine ⟨he2, fun r hr => ?_⟩
      exact log_extends_trans _ _ _ _ _ _ _ (hl r1 h1) (hl2 r hr)

theorem trailing_loop_traced_spec (old_shape old_strides : List Nat) :
    ∀ (k i : Nat) (st : view_state) (log : access_log),
      (trailing_loop_traced old_shape old_strides k i st log).map Prod.fst =
        trailing_loop old_shape old_strides k i st ∧
      ∀ r, trailing_loop_traced old_shape old_strides k i st log = .ok r →
        log_extends old_shape.length log r.2 st.idx r.1.idx := by
  intro k
  induction k with
  | zero =>
    intro i st log
    refine ⟨rfl, fun r hr => ?_⟩
    simp only [trailing_loop_traced] at hr
    cases hr
    exact log_extends_refl _ _ _
  | succ k ih =>
    intro i st log
    simp only [trailing_loop_traced, trailing_loop, read_old_shape, read_old_strides,
      write_new_shape, write_new_strides, bind, Except.bind]
    cases h1 : read old_shape (i - st.newaxis_skip) with
    | error f => exact ⟨rfl, fun r hr => nomatch hr⟩
    | ok x =>
      have hk := read_ok_lt _ _ _ h1
      dsimp only
      cases h2 : write st.new_shape st.idx x with
      | error f => exact ⟨rfl, fun r hr => nomatch hr⟩
      | ok a =>
        cases h3 : read old_strides (i - st.newaxis_skip) with
        | error f => exact ⟨rfl, fun r hr => nomatch hr⟩
        | ok y =>
          dsimp only
          cases h4 : write st.new_strides st.idx y with
          | error f => exact ⟨rfl, fun r hr => nomatch hr⟩
          | ok b =>
            dsimp only
            obtain ⟨he2, hl2⟩ := ih (i + 1)
              { st with new_shape := a, new_strides := b, idx := st.idx + 1 }
              { shape_reads := log.shape_reads ++ [i - st.newaxis_skip],
                strides_reads := log.strides_reads ++ [i - st.newaxis_skip],
                shape_writes := log.shape_writes ++ [st.idx],
                strides_writes := log.strides_writes ++ [st.idx] }
            refine ⟨he2, fun r hr => ?_⟩
            refine log_extends_trans _ _ _ _ _ _ _ ?_ (hl2 r hr)
            exact ⟨Nat.le_succ _, by simp, by simp,
              reads_bounded_append _ _ _ _ hk (reads_bounded_refl _ _),
              reads_bounded_append _ _ _ _ hk (reads_bounded_refl _ _)⟩

theorem dynamic_view_geometry_traced_erase (w : Nat) (shape strides : List Nat) (offset : Nat)
    (slices : List slice_variant) (hst : strides.length = shape.length) :
    (dynamic_view_geometry_traced w shape strides offset slices).map Prod.fst =
      dynamic_view_geometry w shape strides offset slices := by
  simp only [dynamic_view_geometry_traced, dynamic_view_geometry, bind, Except.bind]
  have h1 := (slice_loop_traced_spec w shape strides hst slices 0
    { offset := offset,
      new_shape := List.replicate (compute_dimension w slices shape.length) 0,
      new_strides := List.replicate (compute_dimension w slices shape.length) 0,
      idx := 0, newaxis_skip := 0 }
    { shape_reads := [], strides_reads := [], shape_writes := [], strides_writes := [] }).1
  rw [← h1]
  cases slice_loop_traced w shape strides slices 0
    { offset := offset,
      new_shape := List.replicate (compute_dimension w slices shape.length) 0,
      new_strides := List.replicate (compute_dimension w slices shape.length) 0,
      idx := 0, newaxis_skip := 0 }
    { shape_reads := [], strides_reads := [], shape_writes := [], strides_writes := [] } with
  | error f => rfl
  | ok r =>
    dsimp only [Except.map]
    have h2 := (trailing_loop_traced_spec shape strides
      (shape.length - (r.1 - r.2.1.newaxis_skip)) r.1 r.2.1 r.2.2).1
    rw [← h2]
    cases trailing_loop_traced shape strides
      (shape.length - (r.1 - r.2.1.newaxis_skip)) r.1 r.2.1 r.2.2 <;> rfl

theorem dynamic_view_geometry_traced_spec (w : Nat) (shape strides : List Nat) (offset : Nat)
    (slices : List slice_variant) (hst : strides.length = shape.length)
    (r : (List Nat × List Nat × Nat) × Nat × access_log)
    (hr : dynamic_view_geometry_traced w shape strides offset slices = .ok r) :
    ∃ (i : Nat) (st1 st2 : view_state),
      slice_loop w shape strides slices 0
        { offset := offset,
          new_shape := List.replicate (compute_dimension w slices shape.length) 0,
          new_strides := List.replicate (compute_dimension w slices shape.length) 0,
          idx := 0, newaxis_skip := 0 } = .ok (i, st1) ∧
      trailing_loop shape strides (shape.length - (i - st1.newaxis_skip)) i st1 = .ok st2 ∧
      r.2.1 = st2.idx ∧
      log_extends shape.length
        { shape_reads := [], strides_reads := [], shape_writes := [], strides_writes := [] }
        r.2.2 0 st2.idx := by
  simp only [dynamic_view_geometry_traced, bind, Except.bind] at hr
  obtain ⟨he1, hl1⟩ := slice_loop_traced_spec w shape strides hst slices 0
    { offset := offset,
      new_shape := List.replicate (compute_dimension w slices shape.length) 0,
      new_strides := List.replicate (compute_dimension w slices shape.length) 0,
      idx := 0, newaxis_skip := 0 }
    { shape_reads := [], strides_reads := [], shape_writes := [], strides_writes := [] }
  cases h1 : slice_loop_traced w shape strides slices 0
    { offset := offset,
      new_shape := List.replicate (compute_dimension w slices shape.length) 0,
      new_strides := List.replicate (compute_dimension w slices shape.length) 0,
      idx := 0, newaxis_skip := 0 }
    { shape_reads := [], strides_reads := [], shape_writes := [], strides_writes := [] } with
  | error f =>
    rw [h1] at hr
    cases hr
  | ok r1 =>
    rw [h1] at hr he1
    dsimp only at hr
    obtain ⟨he2, hl2⟩ := trailing_loop_traced_spec shape strides
      (shape.length - (r1.1 - r1.2.1.newaxis_skip)) r1.1 r1.2.1 r1.2.2
    cases h2 : trailing_loop_traced shape strides
      (shape.length - (r1.1 - r1.2.1.newaxis_skip)) r1.1 r1.2.1 r1.2.2 with
    | error f =>
      rw [h2] at hr
      cases hr
    | ok r2 =>
      rw [h2] at hr he2
      cases hr
      exact ⟨r1.1, r1.2.1, r2.1, he1.symm, he2.symm, rfl,
        log_extends_trans _ _ _ _ _ _ _ (hl1 r1 h1) (hl2 r2 h2)⟩

/-- C26. For a source of dimension `D` with as many strides as extents and a
slice list with `N` new-axis and `I` integer descriptors of which the
descriptors that are not a new axis are at most `D` (and `D + N < 2 ^ w`, so
that the pre-computed dimension does not wrap), the two loops of
`dynamic_view` run to the end and the view is returned; the pre-computed
dimension is `D + N - I` and is the size of `new_shape` and of `new_strides`;
the positions written in `new_shape`, and those written in `new_strides`, are
`0, 1, ..., dimension - 1`, each once; the output cursor `idx` ends at
`dimension`; and every read of `old_shape` and of `old_strides` is at an index
below `D`. -/
theorem dynamic_view_accesses_in_bounds {α : Type} (w : Nat) (e : xexpression α)
    (slices : List slice_variant)
    (hst : e.strides.length = e.shape.length)
    (hcons : consumed_axes slices ≤ e.dimension)
    (hd : e.dimension + count_newaxis slices < 2 ^ w) :
    ∃ (g : List Nat × List Nat × Nat) (idx : Nat) (log : access_log)
      (v : xstrided_view (xexpression α) (List α)),
      dynamic_view_geometry_traced w e.shape e.strides e.raw_data_offset slices =
        .ok (g, idx, log) ∧
      dynamic_view_geometry w e.shape e.strides e.raw_data_offset slices = .ok g ∧
      dynamic_view w e slices = .ok v ∧ v.shape = g.1 ∧ v.strides = g.2.1 ∧
      compute_dimension w slices e.dimension =
        e.dimension + count_newaxis slices - count_index slices ∧
      g.1.length = compute_dimension w slices e.dimension ∧
      g.2.1.length = compute_dimension w slices e.dimension ∧
      idx = compute_dimension w slices e.dimension ∧
      log.shape_writes = List.range (compute_dimension w slices e.dimension) ∧
      log.strides_writes = List.range (compute_dimension w slices e.dimension) ∧
      (∀ r ∈ log.shape_reads, r < e.dimension) ∧
      (∀ r ∈ log.strides_reads, r < e.dimension) := by
  unfold xexpression.dimension at *
  have hI := count_index_le_consumed slices
  have h1 := consumed_add_newaxis slices
  have h2 := produced_add_index slices
  have hdim := compute_dimension_eq w slices e.shape.length hd (by omega)
  have hgeo := dynamic_view_geometry_eq w e.shape e.strides e.raw_data_offset slices hst hcons hd
  have her := dynamic_view_geometry_traced_erase w e.shape e.strides e.raw_data_offset slices hst
  have hlens := dynamic_view_geometry_lengths w e.shape e.strides e.raw_data_offset slices _ hgeo
  cases ht : dynamic_view_geometry_traced w e.shape e.strides e.raw_data_offset slices with
  | error f =>
    rw [ht, hgeo] at her
    cases her
  | ok r =>
    rw [ht, hgeo] at her
    have hr1 : r.1 = (expected_shape w slices e.shape, expected_strides w slices e.shape e.strides,
        sliced_offset w slices e.shape e.strides e.raw_data_offset) := Except.ok.inj her
    obtain ⟨i, st1, st2, hsl, htr, hidx, hlog⟩ :=
      dynamic_view_geometry_traced_spec w e.shape e.strides e.raw_data_offset slices hst r ht
    rw [slice_loop_eq w e.shape e.strides hst slices 0 _ (Nat.le_refl _)
      (by simpa using hcons) (by simp; omega) (by simp)] at hsl
    cases hsl
    rw [trailing_loop_eq e.shape e.strides hst _ _ _ (by simp; omega) (by simp; omega)
      (by simp [length_sliced_shape]; omega)
      (by simp [length_sliced_shape, length_sliced_strides])] at htr
    cases htr
    have hfin : 0 + produced_axes slices +
        (e.shape.length - (0 + slices.length - (0 + count_newaxis slices))) =
        compute_dimension w slices e.shape.length := by omega
    simp only [hfin] at hidx hlog
    obtain ⟨_, hsw, htw, hsr, htr2⟩ := hlog
    refine ⟨r.1, r.2.1, r.2.2, _, rfl, ?_, dynamic_view_eq w e slices hst hcons hd, ?_, ?_,
      hdim, ?_, ?_, hidx, ?_, ?_, ?_, ?_⟩
    · rw [hgeo, hr1]
    · rw [hr1]; rfl
    · rw [hr1]; rfl
    · rw [hr1]; exact hlens.1
    · rw [hr1]; exact hlens.2
    · rw [hsw]; simp [List.range_eq_range']
    · rw [htw]; simp [List.range_eq_range']
    · intro x hx
      rcases hsr x hx with h | h
      · exact absurd h (List.not_mem_nil _)
      · exact h
    · intro x hx
      rcases htr2 x hx with h | h
      · exact absurd h (List.not_mem_nil _)
      · exact h

/-- Witness of C26: the (2, 3) example array with the slice list
[newaxis, 1]: `D = 2`, `N = 1`, `I = 1`, dimension 2. The first loop writes
position 0 and reads `old_strides[0]`; the second loop reads `old_shape[1]` and
`old_strides[1]` and writes position 1; `idx` ends at 2. With a slice list that
has more descriptors other than new axes than the source has axes, as
[all, all] on a vector, an access is out of bounds. -/
theorem dynamic_view_accesses_in_bounds_witness :
    example_array.strides.length = example_array.shape.length ∧
    consumed_axes [slice_variant.newaxis, slice_variant.index 1] ≤ example_array.dimension ∧
    example_array.dimension +
      count_newaxis [slice_variant.newaxis, slice_variant.index 1] < 2 ^ 64 ∧
    dynamic_view_geometry_traced 64 example_array.shape example_array.strides
        example_array.raw_data_offset [slice_variant.newaxis, slice_variant.index 1] =
      .ok (([1, 3], [0, 1], 3), 2,
        { shape_reads := [1], strides_reads := [0, 1],
          shape_writes := [0, 1], strides_writes := [0, 1] }) ∧
    dynamic_view_geometry 64 example_vector.shape example_vector.strides
        example_vector.raw_data_offset [slice_variant.all, slice_variant.all] =
      .error failure.out_of_bounds ∧
    ∃ (g : List Nat × List Nat × Nat) (idx : Nat) (log : access_log)
      (v : xstrided_view (xexpression Int) (List Int)),
      dynamic_view_geometry_traced 64 example_array.shape example_array.strides
          example_array.raw_data_offset [slice_variant.newaxis, slice_variant.index 1] =
        .ok (g, idx, log) ∧
      dynamic_view_geometry 64 example_array.shape example_array.strides
          example_array.raw_data_offset [slice_variant.newaxis, slice_variant.index 1] =
        .ok g ∧
      dynamic_view 64 example_array [slice_variant.newaxis, slice_variant.index 1] = .ok v ∧
      v.shape = g.1 ∧ v.strides = g.2.1 ∧
      compute_dimension 64 [slice_variant.newaxis, slice_variant.index 1]
          example_array.dimension =
        example_array.dimension + count_newaxis [slice_variant.newaxis, slice_variant.index 1] -
          count_index [slice_variant.newaxis, slice_variant.index 1] ∧
      g.1.length = compute_dimension 64 [slice_variant.newaxis, slice_variant.index 1]
        example_array.dimension ∧
      g.2.1.length = compute_dimension 64 [slice_variant.newaxis, slice_variant.index 1]
        example_array.dimension ∧
      idx = compute_dimension 64 [slice_variant.newaxis, slice_variant.index 1]
        example_array.dimension ∧
      log.shape_writes = List.range (compute_dimension 64
        [slice_variant.newaxis, slice_variant.index 1] example_array.dimension) ∧
      log.strides_writes = List.range (compute_dimension 64
        [slice_variant.newaxis, slice_variant.index 1] example_array.dimension) ∧
      (∀ r ∈ log.shape_reads, r < example_array.dimension) ∧
      (∀ r ∈ log.strides_reads, r < example_array.dimension) :=
  ⟨rfl, by decide, by decide, rfl, rfl,
    dynamic_view_accesses_in_bounds 64 example_array
      [slice_variant.newaxis, slice_variant.index 1] rfl (by decide) (by decide)⟩
end xt
